import Mathlib

/-!
# go-epub storage layer: pluggable backends and helpers

A shallow embedding of the storage abstraction of `go-epub`:

* `fs.go` (package `epub`): the process-wide backend selector `Use`;
* `internal/storage/osfs/fs.go`: the OS-backed store `OSFS`, every method of
  which joins the given name onto the root with `filepath.Join` and hands the
  resulting host path to a primitive of the `os` package;
* the in-memory store (`internal/storage/memory`) and the helpers `ReadFile`
  and `MkdirAll` (`internal/storage`), whose sources are not available and
  are therefore modelled from the specification.

Go strings are byte sequences; paths are modelled as `List Char` (their
length in bytes being that of the UTF-8 encoding), file contents as
`List Nat`.  Store states are passed explicitly: a method that mutates the
store returns the new state.
-/

namespace GoEpub

/-! ## Basic types -/

abbrev Path := List Char

abbrev Seg := List Char

abbrev Bytes := List Nat

abbrev FileMode := Nat

/-- Error kinds surfaced by the storage operations.  `notFound` is the
not-exist error (`ENOENT`), `alreadyExists` the exist error (`EEXIST`); the
others are the host errors `EISDIR`, `ENOTDIR`, `EINVAL`, `EBUSY`,
`ENAMETOOLONG`, `EACCES` and `ENOTEMPTY`. -/
inductive StorageError where
  | notFound
  | alreadyExists
  | isDirectory
  | notDirectory
  | invalid
  | busy
  | nameTooLong
  | permission
  | notEmpty
  deriving DecidableEq, Repr

/-- Metadata reported by `Stat`: name, size and directory flag.  The size is
the length in bytes of a regular file; for a directory the in-memory store
reports 0, while the host reports a value that depends on the file system
and on the history of the directory, which is left open (`none`). -/
structure FileInfo where
  name : Path
  size : Option Nat
  isDir : Bool
  deriving DecidableEq, Repr

/-- A readable handle as returned by `Open`: a view over the bytes of a
regular file, or a handle on a directory (which cannot be read as bytes). -/
inductive Handle where
  | file (data : Bytes)
  | dir
  deriving DecidableEq, Repr

/-- Reading a handle to exhaustion (`io.ReadAll`): the bytes of a file; a
directory handle fails with `EISDIR`. -/
def Handle.readAll : Handle → Except StorageError Bytes
  | .file data => .ok data
  | .dir => .error .isDirectory

deriving instance DecidableEq for Except

/-- Success flag of a call: `true` when it returned no error. -/
def succeeded {ε α : Type} : Except ε α → Bool
  | .ok _ => true
  | .error _ => false

/-! ## Path algebra (`strings.Split`, `strings.Join`, `filepath.Clean`, `filepath.Join`) -/

/-- Go `strings.Split(s, "/")`: the pieces of `s` between separators; always
at least one piece, and no piece contains a separator. -/
def splitSep : List Char → List Seg
  | [] => [[]]
  | c :: cs =>
    if c = '/' then [] :: splitSep cs
    else
      match splitSep cs with
      | [] => [[c]]
      | seg :: rest => (c :: seg) :: rest

/-- Go `strings.Join(elems, "/")`. -/
def joinSep : List Seg → List Char
  | [] => []
  | [s] => s
  | s :: t :: rest => s ++ '/' :: joinSep (t :: rest)

/-- Last path element (the text after the last separator). -/
def baseName (p : Path) : Seg :=
  ((splitSep p).getLast?).getD []

namespace filepath

/-- One iteration of the loop of `filepath.Clean` (Unix), at the level of
path elements.  `stk` holds the elements written so far, last one first.
An empty element and `.` are skipped; `..` removes the last real element
when there is one (the output is longer than the leading separator or the
leading `..` elements), and otherwise is dropped in a rooted path and
appended in a relative one; any other element is appended. -/
def cleanStep (rooted : Bool) (stk : List Seg) (seg : Seg) : List Seg :=
  if seg = [] ∨ seg = ['.'] then stk
  else if seg = ['.', '.'] then
    match stk with
    | [] => if rooted then [] else [seg]
    | top :: rest =>
      if top = ['.', '.'] then (if rooted then stk else seg :: stk) else rest
  else seg :: stk

/-- The elements that remain after cleaning `path`, starting from the
elements `init` (in order) already written. -/
def cleanSegs (rooted : Bool) (init : List Seg) (path : Path) : List Seg :=
  ((splitSep path).foldl (cleanStep rooted) init.reverse).reverse

/-- Go `filepath.Clean` on Unix: the shortest path equivalent to `path` by
purely lexical processing.  The empty path becomes `.`; a rooted path keeps
its leading separator. -/
def Clean (path : Path) : Path :=
  match path with
  | [] => ['.']
  | c :: _ =>
    let rooted := decide (c = '/')
    let body := joinSep (cleanSegs rooted [] path)
    if rooted then '/' :: body
    else if body = [] then ['.'] else body

/-- Go `filepath.Join` on Unix: leading empty elements are ignored, the rest
is joined with separators and cleaned; the result is empty when every
element is empty. -/
def Join (elem : List Path) : Path :=
  match elem.dropWhile (fun e => decide (e = [])) with
  | [] => []
  | rest => Clean (joinSep rest)

end filepath

/-! ## Well-formed path elements -/

/-- A proper path element: not empty, not `.`, not `..`, without separator. -/
def ProperSeg (s : Seg) : Prop :=
  s ≠ [] ∧ s ≠ ['.'] ∧ s ≠ ['.', '.'] ∧ '/' ∉ s

instance : DecidablePred ProperSeg := fun s => by
  unfold ProperSeg
  infer_instance

/-- A clean relative path: proper elements joined by single separators
(no leading or trailing separator, no empty element, no `.` or `..`). -/
def CleanRel (p : Path) : Prop :=
  ∀ s ∈ splitSep p, ProperSeg s

instance : DecidablePred CleanRel := fun p => by
  unfold CleanRel
  infer_instance

/-- No element of `p` is `..`. -/
def NoDotDot (p : Path) : Prop :=
  ['.', '.'] ∉ splitSep p

instance : DecidablePred NoDotDot := fun p => by
  unfold NoDotDot
  infer_instance

/-- The absolute clean path with elements `R`: `/` followed by the elements
joined by separators (`/` itself for no element). -/
def rootPath (R : List Seg) : Path :=
  '/' :: joinSep R

/-- The host path `hp` lies inside the directory `r`: it is `r` itself or
starts with `r` followed by the separator. -/
def Inside (r hp : Path) : Bool :=
  decide (hp = r) || (r ++ ['/']).isPrefixOf hp

/-- The path `a` is a proper ancestor path of `p`: `a` followed by the
separator is a prefix of `p` (`a` and `a/b` for `a/b/c`). -/
def IsAncestorPath (a p : Path) : Bool :=
  (a ++ ['/']).isPrefixOf p

/-- Length in bytes of a Go string (UTF-8 encoding of its characters). -/
def byteLen (s : List Char) : Nat :=
  (s.map Char.utf8Size).sum

/-! ## The host filesystem (package `os`)

The primitives `OSFS` delegates to.  They belong to the Go runtime and the
operating system, not to the repository; the model below records their
behaviour on Linux on a tree of directories and regular files without
symbolic links.  A state holds the credentials of the calling process
(whether it is privileged, and its umask) and the entries of the tree, keyed
by the element list of their absolute path, `[]` being the host root `/`.
Every entry is owned by the caller, so the owner bits of its mode decide
what an unprivileged caller may do.  A relative path is resolved from `/`.
The primitives are only ever handed the result of `filepath.Join`, a clean
path, on which lexical resolution (`hostKey`) is the resolution of the
kernel. -/

namespace os

/-- A node of the host tree: a regular file with its permission bits and
bytes, or a directory with its permission bits. -/
inductive Node where
  | file (mode : FileMode) (data : Bytes)
  | dir (mode : FileMode)
  deriving DecidableEq, Repr

/-- A host filesystem state, with the credentials of the caller. -/
structure HostFS where
  privileged : Bool
  umask : FileMode
  entries : List (List Seg × Node)
  deriving DecidableEq, Repr

/-- `NAME_MAX`: the longest path element, in bytes. -/
def nameMax : Nat := 255

/-- `PATH_MAX`: the size of the buffer a path and its terminator must fit. -/
def pathMax : Nat := 4096

/-- Element list of the absolute path `p` (path resolution from `/`). -/
def hostKey (p : Path) : List Seg :=
  filepath.cleanSegs true [] p

def lookupKey (k : List Seg) : List (List Seg × Node) → Option Node
  | [] => none
  | e :: es => if e.1 = k then some e.2 else lookupKey k es

/-- The node at `k`, if any. -/
def HostFS.get (hs : HostFS) (k : List Seg) : Option Node :=
  lookupKey k hs.entries

/-- The state without the entry at `k`. -/
def HostFS.erase (hs : HostFS) (k : List Seg) : HostFS :=
  { hs with entries := hs.entries.filter (fun e => !decide (e.1 = k)) }

/-- The state with the node `n` at `k`. -/
def HostFS.put (hs : HostFS) (k : List Seg) (n : Node) : HostFS :=
  { hs with entries := (k, n) :: hs.entries.filter (fun e => !decide (e.1 = k)) }

/-- Read permission of the caller on a node of mode `mode` (owner bit `r`). -/
def HostFS.mayRead (hs : HostFS) (mode : FileMode) : Bool :=
  hs.privileged || mode.testBit 8

/-- Write permission of the caller (owner bit `w`). -/
def HostFS.mayWrite (hs : HostFS) (mode : FileMode) : Bool :=
  hs.privileged || mode.testBit 7

/-- Search permission of the caller on a directory (owner bit `x`). -/
def HostFS.maySearch (hs : HostFS) (mode : FileMode) : Bool :=
  hs.privileged || mode.testBit 6

/-- Permission bits of an entry created with `perm`: the nine permission
bits of `perm` that the umask does not clear. -/
def HostFS.newMode (hs : HostFS) (perm : FileMode) : FileMode :=
  (perm % 512) &&& (511 ^^^ (hs.umask % 512))

/-- A directory exists at `k`. -/
def isDirAt (hs : HostFS) (k : List Seg) : Bool :=
  match hs.get k with
  | some (.dir _) => true
  | _ => false

/-- A regular file exists at `k`. -/
def isFileAt (hs : HostFS) (k : List Seg) : Bool :=
  match hs.get k with
  | some (.file _ _) => true
  | _ => false

/-- A directory in which the caller may create and delete entries is at `k`. -/
def writableAt (hs : HostFS) (k : List Seg) : Bool :=
  match hs.get k with
  | some (.dir m) => hs.mayWrite m
  | _ => false

/-- A directory the caller may list and search is at `k`. -/
def listableAt (hs : HostFS) (k : List Seg) : Bool :=
  match hs.get k with
  | some (.dir m) => hs.mayRead m && hs.maySearch m
  | _ => false

/-- A directory the caller may list, search and modify is at `k`. -/
def fullAt (hs : HostFS) (k : List Seg) : Bool :=
  match hs.get k with
  | some (.dir m) => hs.mayRead m && hs.mayWrite m && hs.maySearch m
  | _ => false

/-- The key `d` lies strictly beneath `t`. -/
def beneath (t d : List Seg) : Bool :=
  t.isPrefixOf d && !decide (d = t)

/-- Something exists beneath `t`. -/
def hasChild (hs : HostFS) (t : List Seg) : Bool :=
  hs.entries.any (fun e => beneath t e.1)

/-- What is checked on a path before any lookup: the empty path names
nothing (`ENOENT`), Go refuses a path with a NUL byte (`EINVAL`), the kernel
one that does not fit `PATH_MAX` (`ENAMETOOLONG`). -/
def pathErr (p : Path) : Option StorageError :=
  if p = [] then some .notFound
  else if Char.ofNat 0 ∈ p then some .invalid
  else if pathMax ≤ byteLen p then some .nameTooLong
  else none

/-- The walk of the kernel from the directory at `cur` through the elements
`rest`, each of which has to be a directory: a regular file on the way is
`ENOTDIR`, a directory the caller may not search `EACCES`, an element longer
than `NAME_MAX` `ENAMETOOLONG`, a missing element `ENOENT`.  The result is
the mode of the directory reached. -/
def walkDirs (hs : HostFS) : List Seg → List Seg → Except StorageError FileMode
  | cur, [] =>
    match hs.get cur with
    | none => .error .notFound
    | some (.file _ _) => .error .notDirectory
    | some (.dir m) => .ok m
  | cur, s :: rest =>
    match hs.get cur with
    | none => .error .notFound
    | some (.file _ _) => .error .notDirectory
    | some (.dir m) =>
      if !hs.maySearch m then .error .permission
      else if nameMax < byteLen s then .error .nameTooLong
      else walkDirs hs (cur ++ [s]) rest

/-- Outcome of the lookup of a path: the node found, nothing at the last
element of an existing directory, or the error of the walk. -/
inductive Lookup where
  | found (n : Node)
  | absent
  | fail (e : StorageError)
  deriving DecidableEq, Repr

/-- Lookup of the absolute path with elements `k`: the walk to the parent
directory, then the last element looked up there. -/
def lookupLast (hs : HostFS) (k : List Seg) : Lookup :=
  match k.getLast? with
  | none =>
    match hs.get [] with
    | some n => .found n
    | none => .fail .notFound
  | some s =>
    match walkDirs hs [] k.dropLast with
    | .error e => .fail e
    | .ok m =>
      if !hs.maySearch m then .fail .permission
      else if nameMax < byteLen s then .fail .nameTooLong
      else
        match hs.get k with
        | some n => .found n
        | none => .absent

/-- Go `basename` (package `os`): trailing separators are dropped, then the
text after the last separator is kept; a path of separators only is `/`. -/
def basename (p : Path) : Path :=
  match (p.reverse.dropWhile (fun c => decide (c = '/'))).reverse with
  | [] => if p = [] then [] else ['/']
  | q => baseName q

/-- Model of `os.Stat`. -/
def Stat (hs : HostFS) (p : Path) : Except StorageError FileInfo :=
  match pathErr p with
  | some e => .error e
  | none =>
    match lookupLast hs (hostKey p) with
    | .found (.file _ data) => .ok ⟨basename p, some data.length, false⟩
    | .found (.dir _) => .ok ⟨basename p, none, true⟩
    | .absent => .error .notFound
    | .fail e => .error e

/-- Model of `os.Open` (`O_RDONLY`): a regular file and a directory both
yield a handle, provided the caller may read them. -/
def Open (hs : HostFS) (p : Path) : Except StorageError Handle :=
  match pathErr p with
  | some e => .error e
  | none =>
    match lookupLast hs (hostKey p) with
    | .found (.file m data) => if hs.mayRead m then .ok (.file data) else .error .permission
    | .found (.dir m) => if hs.mayRead m then .ok .dir else .error .permission
    | .absent => .error .notFound
    | .fail e => .error e

/-- Model of `os.Mkdir`: exactly one level.  An existing target is `EEXIST`;
a new directory needs write permission on its parent and gets the
permission bits of `perm` left by the umask. -/
def Mkdir (hs : HostFS) (p : Path) (perm : FileMode) : Except StorageError HostFS :=
  match pathErr p with
  | some e => .error e
  | none =>
    match lookupLast hs (hostKey p) with
    | .found _ => .error .alreadyExists
    | .fail e => .error e
    | .absent =>
      if writableAt hs (hostKey p).dropLast then
        .ok (hs.put (hostKey p) (.dir (hs.newMode perm)))
      else .error .permission

/-- Model of `os.OpenFile` with `O_CREATE|O_TRUNC` and write access (and
read access too when `rd` is set), followed by the write of `data` and the
close.  A directory is `EISDIR`; an existing file is truncated if its mode
grants the access asked for, and keeps its mode; a new file needs write
permission on the parent directory and gets the bits of `perm` left by the
umask, whatever they are. -/
def openTrunc (hs : HostFS) (p : Path) (rd : Bool) (perm : FileMode) (data : Bytes) :
    Except StorageError HostFS :=
  match pathErr p with
  | some e => .error e
  | none =>
    match lookupLast hs (hostKey p) with
    | .found (.dir _) => .error .isDirectory
    | .found (.file m _) =>
      if hs.mayWrite m && (!rd || hs.mayRead m) then .ok (hs.put (hostKey p) (.file m data))
      else .error .permission
    | .fail e => .error e
    | .absent =>
      if writableAt hs (hostKey p).dropLast then
        .ok (hs.put (hostKey p) (.file (hs.newMode perm) data))
      else .error .permission

/-- Model of `os.WriteFile`: `OpenFile(name, O_WRONLY|O_CREATE|O_TRUNC, perm)`,
`Write(data)`, `Close`. -/
def WriteFile (hs : HostFS) (p : Path) (data : Bytes) (perm : FileMode) :
    Except StorageError HostFS :=
  openTrunc hs p false perm data

/-- Model of `os.Create`: `OpenFile(name, O_RDWR|O_CREATE|O_TRUNC, 0666)`; the
file exists and is empty afterwards (writes through the returned handle are
not modelled). -/
def Create (hs : HostFS) (p : Path) : Except StorageError HostFS :=
  openTrunc hs p true 0o666 []

/-- Model of `os.Remove`: `unlink`, then `rmdir`.  A regular file goes if
the caller may write its directory; a directory goes if moreover it is
empty; the host root is `EBUSY`. -/
def Remove (hs : HostFS) (p : Path) : HostFS × Option StorageError :=
  match pathErr p with
  | some e => (hs, some e)
  | none =>
    match lookupLast hs (hostKey p) with
    | .fail e => (hs, some e)
    | .absent => (hs, some .notFound)
    | .found (.file _ _) =>
      if writableAt hs (hostKey p).dropLast then (hs.erase (hostKey p), none)
      else (hs, some .permission)
    | .found (.dir _) =>
      if hostKey p = [] then (hs, some .busy)
      else if !writableAt hs (hostKey p).dropLast then (hs, some .permission)
      else if hasChild hs (hostKey p) then (hs, some .notEmpty)
      else (hs.erase (hostKey p), none)

/-- The check `endsWithDot` of `os.RemoveAll`. -/
def endsWithDot (p : Path) : Bool :=
  decide (p = ['.']) || (['/', '.'] : List Char).isSuffixOf p

/-- Go `splitPath` (package `os`): the directory and the last element of a
path, after dropping all but one leading separator and the trailing
separators; the directory is `.` when the path has no separator. -/
def splitPath (path : Path) : Path × Path :=
  let q1 :=
    match path with
    | '/' :: rest => '/' :: rest.dropWhile (fun c => decide (c = '/'))
    | _ => path
  let q :=
    match q1 with
    | [] => []
    | c :: cs => c :: (cs.reverse.dropWhile (fun c => decide (c = '/'))).reverse
  if q = ['/'] ∨ '/' ∉ q then (['.'], q)
  else
    let dir := q.take (q.length - (baseName q).length - 1)
    (if dir = [] then ['/'] else dir, baseName q)

/-- Everything beneath `d` can be deleted: the parent of every entry there
is a directory the caller may list, search and modify. -/
def clearable (hs : HostFS) (d : List Seg) : Bool :=
  hs.entries.all (fun e => !beneath d e.1 || fullAt hs e.1.dropLast)

/-- The recursion of `removeAllFrom` started at the directory `t` reaches
the entry at `d` beneath it and deletes it: every directory from `t` down to
the parent of `d` can be listed and searched, the parent can be modified,
and everything beneath `d` can be deleted first. -/
def removable (hs : HostFS) (t d : List Seg) : Bool :=
  beneath t d &&
    (List.range d.length).all (fun i => decide (i < t.length) || listableAt hs (d.take i)) &&
    writableAt hs d.dropLast && clearable hs d

/-- The state after the recursion of `removeAllFrom` into the directory `t`:
every entry beneath `t` that can be deleted is gone. -/
def purge (hs : HostFS) (t : List Seg) : HostFS :=
  { hs with entries := hs.entries.filter (fun e => !removable hs t e.1) }

/-- Model of `removeAllFrom(parent, base)` (package `os`), `P` being the key
of the opened `parent`: `unlinkat` of `base`; on a directory the recursion
into it, then `unlinkat` with `AT_REMOVEDIR`.  A missing `base` is a success;
what cannot be deleted stays and makes the call fail. -/
def removeAllFrom (hs : HostFS) (P : List Seg) (base : Path) : HostFS × Option StorageError :=
  if Char.ofNat 0 ∈ base then (hs, some .invalid)
  else
    match hs.get P with
    | none => (hs, none)
    | some (.file _ _) => (hs, some .notDirectory)
    | some (.dir pm) =>
      if filepath.cleanSegs true P base = [] then
        ((purge hs []), some (if hasChild (purge hs []) [] then .permission else .busy))
      else if !hs.maySearch pm then (hs, some .permission)
      else if nameMax < byteLen base then (hs, some .nameTooLong)
      else
        match hs.get (filepath.cleanSegs true P base) with
        | none => (hs, none)
        | some (.file _ _) =>
          if hs.mayWrite pm then (hs.erase (filepath.cleanSegs true P base), none)
          else (hs, some .permission)
        | some (.dir _) =>
          if hs.mayWrite pm && !hasChild (purge hs (filepath.cleanSegs true P base))
              (filepath.cleanSegs true P base) then
            ((purge hs (filepath.cleanSegs true P base)).erase (filepath.cleanSegs true P base),
              none)
          else (purge hs (filepath.cleanSegs true P base), some .permission)

/-- Model of `os.RemoveAll`: the empty path is a no-op, a path ending in a
dot element is refused; if `Remove` works or finds nothing, that is all;
otherwise the parent directory is opened (a missing parent is a success)
and `removeAllFrom` deletes the last element and what is beneath it.  A call
that fails may have deleted part of the tree. -/
def RemoveAll (hs : HostFS) (p : Path) : HostFS × Option StorageError :=
  if p = [] then (hs, none)
  else if endsWithDot p then (hs, some .invalid)
  else
    match Remove hs p with
    | (hs', none) => (hs', none)
    | (_, some .notFound) => (hs, none)
    | (_, some _) =>
      match Open hs (splitPath p).1 with
      | .error .notFound => (hs, none)
      | .error e => (hs, some e)
      | .ok _ => removeAllFrom hs (hostKey (splitPath p).1) (splitPath p).2

/-- Host state in which the directory `root` exists and is empty: `root`
and its ancestors are directories of mode `0755` and there is nothing else;
the caller is unprivileged, with the umask `022`. -/
def freshHost (root : Path) : HostFS :=
  { privileged := false
    umask := 0o022
    entries := (List.range ((hostKey root).length + 1)).map
      (fun i => ((hostKey root).take i, Node.dir 0o755)) }

/-- The caller has full access to the node: read and write permission, and
search permission on a directory. -/
def granted (hs : HostFS) : Node → Bool
  | .file m _ => hs.mayRead m && hs.mayWrite m
  | .dir m => hs.mayRead m && hs.mayWrite m && hs.maySearch m

/-- The directory with elements `R` can be reached by the caller, who has
full access to it. -/
def UsableRoot (R : List Seg) (hs : HostFS) : Prop :=
  ∃ m, walkDirs hs [] R = .ok m ∧ granted hs (.dir m) = true

/-- The directory with elements `R` is usable and empty: a fresh root. -/
def EmptyRoot (R : List Seg) (hs : HostFS) : Prop :=
  UsableRoot R hs ∧ ∀ X, X ≠ [] → hs.get (R ++ X) = none

/-- The caller has full access to every directory. -/
def Permissive (hs : HostFS) : Prop :=
  ∀ k m, hs.get k = some (.dir m) → granted hs (.dir m) = true

/-- Tree shape of a host state: the parent of every node is a directory. -/
def TreeShaped (hs : HostFS) : Prop :=
  ∀ k, hs.get k ≠ none → k ≠ [] → isDirAt hs k.dropLast = true

end os

/-! ## The OS-backed store (`internal/storage/osfs/fs.go`) -/

namespace osfs

/-- The struct `OSFS`: the root directory.  (The embedded `fs.FS` view is
shadowed by the explicit `Open` method and plays no role in the methods.) -/
structure OSFS where
  rootDir : Path

def NewOSFS (rootDir : Path) : OSFS :=
  { rootDir := rootDir }

/-- The host path every method acts on: `filepath.Join(o.rootDir, name)`. -/
def OSFS.hostPath (o : OSFS) (name : Path) : Path :=
  filepath.Join [o.rootDir, name]

def OSFS.WriteFile (o : OSFS) (hs : os.HostFS) (name : Path) (data : Bytes) (perm : FileMode) :
    Except StorageError os.HostFS :=
  os.WriteFile hs (filepath.Join [o.rootDir, name]) data perm

def OSFS.Mkdir (o : OSFS) (hs : os.HostFS) (name : Path) (perm : FileMode) :
    Except StorageError os.HostFS :=
  os.Mkdir hs (filepath.Join [o.rootDir, name]) perm

def OSFS.RemoveAll (o : OSFS) (hs : os.HostFS) (name : Path) :
    os.HostFS × Option StorageError :=
  os.RemoveAll hs (filepath.Join [o.rootDir, name])

def OSFS.Create (o : OSFS) (hs : os.HostFS) (name : Path) : Except StorageError os.HostFS :=
  os.Create hs (filepath.Join [o.rootDir, name])

def OSFS.Stat (o : OSFS) (hs : os.HostFS) (name : Path) : Except StorageError FileInfo :=
  os.Stat hs (filepath.Join [o.rootDir, name])

def OSFS.Open (o : OSFS) (hs : os.HostFS) (name : Path) : Except StorageError Handle :=
  os.Open hs (filepath.Join [o.rootDir, name])

end osfs

/-! ## The in-memory store (`internal/storage/memory`) -/

namespace memory

/-- Modelled from the spec: an entry of the in-memory store (package
`internal/storage/memory`, absent from the sources): "either a byte sequence
(file) tagged with a mode, or a marker (directory) tagged with a mode". -/
inductive Entry where
  | file (data : Bytes) (mode : FileMode)
  | dir (mode : FileMode)
  deriving DecidableEq, Repr

/-- Modelled from the spec: the state of the in-memory store (package
`internal/storage/memory`, absent from the sources): "a mapping from
relative path to an entry". -/
abbrev Memory := Path → Option Entry

/-- Modelled from the spec: the constructor `memory.NewMemory` (absent from
the sources); the store is "created empty". -/
def NewMemory : Memory :=
  fun _ => none

/-- Modelled from the spec: "the immediate parent segment" of `p` looked up
by `Memory.Mkdir` (absent from the sources): the text before the last
separator of `p`, `none` for a top-level path (one without separator). -/
def parentOf : Path → Option Path
  | [] => none
  | c :: cs =>
    match parentOf cs with
    | some q => some (c :: q)
    | none => if c = '/' then some [] else none

/-- A directory entry is registered at `p`. -/
def isDirAt (m : Memory) (p : Path) : Bool :=
  match m p with
  | some (.dir _) => true
  | _ => false

/-- Insertion of the entry `e` at `p`, replacing what was there. -/
def put (m : Memory) (p : Path) (e : Entry) : Memory :=
  fun q => if q = p then some e else m q

/-- Modelled from the spec: `Memory.Mkdir` (absent from the sources): "fails
with AlreadyExistsError if an entry already exists at path; fails with
NotFoundError if the immediate parent segment is not a registered directory
entry. Otherwise inserts a directory entry."  A top-level path has no parent
segment to check. -/
def Mkdir (m : Memory) (p : Path) (perm : FileMode) : Except StorageError Memory :=
  match m p with
  | some _ => .error .alreadyExists
  | none =>
    match parentOf p with
    | none => .ok (put m p (.dir perm))
    | some q => if isDirAt m q then .ok (put m p (.dir perm)) else .error .notFound

/-- Modelled from the spec: the insertion of a file entry shared by
`Memory.WriteFile` and `Memory.Create` (absent from the sources): "inserts
or overwrites a file entry at path; does not implicitly create missing
parent directories", "parent directory must already exist", and the ancestor
invariant "must be actively maintained".  So a directory entry is not
overwritten, and the immediate parent segment, when there is one, has to be
a registered directory entry, as for `Mkdir`. -/
def writeEntry (m : Memory) (p : Path) (data : Bytes) (perm : FileMode) :
    Except StorageError Memory :=
  match m p with
  | some (.dir _) => .error .isDirectory
  | _ =>
    match parentOf p with
    | none => .ok (put m p (.file data perm))
    | some q => if isDirAt m q then .ok (put m p (.file data perm)) else .error .notFound

/-- Modelled from the spec: `Memory.WriteFile` (absent from the sources):
"overwrites existing content". -/
def WriteFile (m : Memory) (p : Path) (data : Bytes) (perm : FileMode) :
    Except StorageError Memory :=
  writeEntry m p data perm

/-- Modelled from the spec: `Memory.Create` (absent from the sources):
"creates or truncates a file at path; parent directory must already exist";
the file is empty afterwards (writes through the returned handle are not
modelled). -/
def Create (m : Memory) (p : Path) : Except StorageError Memory :=
  writeEntry m p [] 0o666

/-- Modelled from the spec: `Memory.RemoveAll` (absent from the sources):
"removes the exact path entry and every entry whose path is prefixed by
path + separator; succeeds even if nothing matched". -/
def RemoveAll (m : Memory) (p : Path) : Memory × Option StorageError :=
  (fun q => if q = p ∨ (p ++ ['/']).isPrefixOf q = true then none else m q, none)

/-- Modelled from the spec: `Memory.Stat` (absent from the sources):
"returns NotFoundError if no entry is registered at path; otherwise returns
the entry's recorded size (0 for directories) and directory flag". -/
def Stat (m : Memory) (p : Path) : Except StorageError FileInfo :=
  match m p with
  | none => .error .notFound
  | some (.file data _) => .ok ⟨baseName p, some data.length, false⟩
  | some (.dir _) => .ok ⟨baseName p, some 0, true⟩

/-- Modelled from the spec: `Memory.Open` (absent from the sources):
"open(path) -> readable handle | NotFoundError — fails if path does not
exist or is a directory"; the handle is a view over a copy of the stored
bytes. -/
def Open (m : Memory) (p : Path) : Except StorageError Handle :=
  match m p with
  | some (.file data _) => .ok (.file data)
  | _ => .error .notFound

/-- Modelled from the spec: the ancestor invariant of the in-memory store,
"every file or directory entry implies its full chain of ancestor path
segments is also represented as directory entries", stated link by link: the
immediate parent of every entry that has one is a directory entry. -/
def AncestorInv (m : Memory) : Prop :=
  ∀ p q, m p ≠ none → parentOf p = some q → isDirAt m q = true

end memory

/-! ## The storage interface and its helpers (`internal/storage`) -/

namespace storage

/-- Modelled from the spec: the interface `storage.Storage` (its declaration
is absent from the sources; the method set is the one `OSFS` implements),
over a store whose state has type `σ`.  A mutating method returns the new
state; `RemoveAll` returns the state also when it fails, since a failing
removal may have deleted part of the tree. -/
structure Storage (σ : Type) where
  Open : σ → Path → Except StorageError Handle
  Create : σ → Path → Except StorageError σ
  WriteFile : σ → Path → Bytes → FileMode → Except StorageError σ
  Mkdir : σ → Path → FileMode → Except StorageError σ
  RemoveAll : σ → Path → σ × Option StorageError
  Stat : σ → Path → Except StorageError FileInfo

/-- Modelled from the spec: the helper `storage.ReadFile` (absent from the
sources): "opens path via the Storage Interface, reads the handle to
exhaustion, closes it, returns all accumulated bytes. Fails with the same
error the open/read step produced". -/
def ReadFile {σ : Type} (fs : Storage σ) (st : σ) (name : Path) : Except StorageError Bytes :=
  match fs.Open st name with
  | .error e => .error e
  | .ok h => h.readAll

/-- Modelled from the spec: part of `storage.MkdirAll` (absent from the
sources); the paths obtained by appending the elements of a list one after
the other to the elements `pre`. -/
def cumulative (pre : List Seg) : List Seg → List Path
  | [] => []
  | s :: rest => joinSep (pre ++ [s]) :: cumulative (pre ++ [s]) rest

/-- Modelled from the spec: the "ordered ancestor segments (root-most
first)" of `storage.MkdirAll` (absent from the sources), `dir` itself last:
the non-empty elements of `dir` joined cumulatively, so that a trailing
separator adds nothing. -/
def ancestorPaths (dir : Path) : List Path :=
  cumulative [] ((splitSep dir).filter (fun s => decide (s ≠ [])))

/-- Modelled from the spec: the loop of `storage.MkdirAll` (absent from the
sources): `Mkdir` on each path in order; "already exists" counts as
success, any other failure stops the loop and is returned.  The result is
the store as the loop left it (directories made before a failure stay) and
the error returned, if any. -/
def mkdirEach {σ : Type} (fs : Storage σ) (perm : FileMode) :
    σ → List Path → σ × Option StorageError
  | st, [] => (st, none)
  | st, p :: ps =>
    match fs.Mkdir st p perm with
    | .ok st' => mkdirEach fs perm st' ps
    | .error .alreadyExists => mkdirEach fs perm st ps
    | .error e => (st, some e)

/-- Modelled from the spec: the helper `storage.MkdirAll` (absent from the
sources): "splits path into ordered ancestor segments (root-most first) and
calls mkdir on each segment that does not already exist, in order, stopping
at (and returning) the first non-'already exists' failure". -/
def MkdirAll {σ : Type} (fs : Storage σ) (st : σ) (dir : Path) (perm : FileMode) :
    σ × Option StorageError :=
  mkdirEach fs perm st (ancestorPaths dir)

/-- The in-memory store as a `Storage`. -/
def memoryStorage : Storage memory.Memory where
  Open := memory.Open
  Create := memory.Create
  WriteFile := memory.WriteFile
  Mkdir := memory.Mkdir
  RemoveAll := memory.RemoveAll
  Stat := memory.Stat

/-- The OS-backed store `o` as a `Storage`, its state being the host
filesystem. -/
def osStorage (o : osfs.OSFS) : Storage os.HostFS where
  Open := o.Open
  Create := o.Create
  WriteFile := o.WriteFile
  Mkdir := o.Mkdir
  RemoveAll := o.RemoveAll
  Stat := o.Stat

/-- A call of the storage interface. -/
inductive Call where
  | open (name : Path)
  | create (name : Path)
  | writeFile (name : Path) (data : Bytes) (perm : FileMode)
  | mkdir (name : Path) (perm : FileMode)
  | removeAll (name : Path)
  | stat (name : Path)
  deriving DecidableEq, Repr

def Call.name : Call → Path
  | .open n => n
  | .create n => n
  | .writeFile n _ _ => n
  | .mkdir n _ => n
  | .removeAll n => n
  | .stat n => n

/-- Keep the new state of a successful mutation, the old one otherwise. -/
def stateAfter {σ : Type} (st : σ) : Except StorageError σ → σ
  | .ok st' => st'
  | .error _ => st

/-- One interface call: the store afterwards and whether the call succeeded. -/
def step {σ : Type} (fs : Storage σ) (st : σ) : Call → σ × Bool
  | .open n => (st, succeeded (fs.Open st n))
  | .create n => (stateAfter st (fs.Create st n), succeeded (fs.Create st n))
  | .writeFile n d m => (stateAfter st (fs.WriteFile st n d m), succeeded (fs.WriteFile st n d m))
  | .mkdir n m => (stateAfter st (fs.Mkdir st n m), succeeded (fs.Mkdir st n m))
  | .removeAll n => ((fs.RemoveAll st n).1, (fs.RemoveAll st n).2.isNone)
  | .stat n => (st, succeeded (fs.Stat st n))

/-- The store after a sequence of calls. -/
def runState {σ : Type} (fs : Storage σ) : σ → List Call → σ
  | st, [] => st
  | st, c :: cs => runState fs (step fs st c).1 cs

/-- The success/error outcomes of a sequence of calls. -/
def outcomes {σ : Type} (fs : Storage σ) : σ → List Call → List Bool
  | _, [] => []
  | st, c :: cs => (step fs st c).2 :: outcomes fs (step fs st c).1 cs

/-- An element the host accepts as the name of an entry: a proper element
of at most `NAME_MAX` bytes. -/
def HostName (s : Seg) : Prop :=
  ProperSeg s ∧ byteLen s ≤ os.nameMax

instance : DecidablePred HostName := fun s => by
  unfold HostName
  infer_instance

/-- What a call sequence has to satisfy for the two backends to be compared
on it, checked along the run on the OS-backed store `o` from the host state
`hs`: every name is a clean relative path whose elements have at most
`NAME_MAX` bytes and whose host path passes the checks on a path (no NUL
byte, shorter than `PATH_MAX`); the mode of a `mkdir` leaves the caller read,
write and search permission on the new directory, the mode of a `writeFile`
(and `0666` for a `create`) read and write permission on the new file; every
`removeAll` succeeds on the OS-backed store; and no `open` addresses a
directory. -/
def Admissible (o : osfs.OSFS) : os.HostFS → List Call → Prop
  | _, [] => True
  | hs, c :: cs =>
    CleanRel c.name ∧ (∀ s ∈ splitSep c.name, byteLen s ≤ os.nameMax) ∧
    os.pathErr (o.hostPath c.name) = none ∧
    (match c with
      | .writeFile _ _ m => os.granted hs (.file (hs.newMode m) []) = true
      | .create _ => os.granted hs (.file (hs.newMode 0o666) []) = true
      | .mkdir _ m => os.granted hs (.dir (hs.newMode m)) = true
      | .removeAll n => (o.RemoveAll hs n).2 = none
      | .open n => os.isDirAt hs (os.hostKey (o.hostPath n)) = false
      | _ => True) ∧
    Admissible o (step (osStorage o) hs c).1 cs

/-- Decision procedure for the conditions `Admissible` puts on one call,
followed by a decidable condition `P` on the rest of the run. -/
def decCall (o : osfs.OSFS) (hs : os.HostFS) (c : Call) (P : Prop) [Decidable P] :
    Decidable (CleanRel c.name ∧ (∀ s ∈ splitSep c.name, byteLen s ≤ os.nameMax) ∧
      os.pathErr (o.hostPath c.name) = none ∧
      (match c with
        | .writeFile _ _ m => os.granted hs (.file (hs.newMode m) []) = true
        | .create _ => os.granted hs (.file (hs.newMode 0o666) []) = true
        | .mkdir _ m => os.granted hs (.dir (hs.newMode m)) = true
        | .removeAll n => (o.RemoveAll hs n).2 = none
        | .open n => os.isDirAt hs (os.hostKey (o.hostPath n)) = false
        | _ => True) ∧ P) :=
  match c with
  | .writeFile _ _ _ => inferInstance
  | .create _ => inferInstance
  | .mkdir _ _ => inferInstance
  | .removeAll _ => inferInstance
  | .open _ => inferInstance
  | .stat _ => inferInstance

/-- Decision procedure for `Admissible`, by running the calls. -/
def decAdmissible (o : osfs.OSFS) : (hs : os.HostFS) → (cs : List Call) →
    Decidable (Admissible o hs cs)
  | _, [] => isTrue trivial
  | hs, c :: cs =>
    have := decAdmissible o (step (osStorage o) hs c).1 cs
    decCall o hs c (Admissible o (step (osStorage o) hs c).1 cs)

instance (o : osfs.OSFS) (hs : os.HostFS) (cs : List Call) : Decidable (Admissible o hs cs) :=
  decAdmissible o hs cs

/-- The node of a host state and the entry of an in-memory state agree:
both absent, both directories, or both files with the same bytes. -/
def sameEntry : Option os.Node → Option memory.Entry → Prop
  | none, none => True
  | some (.file _ d), some (.file d' _) => d = d'
  | some (.dir _), some (.dir _) => True
  | _, _ => False

/-- The host state `hs` below the root with elements `R` and the in-memory
state `m` hold the same tree: the root can be reached and used by the
caller; every entry beneath the root has proper elements of at most
`NAME_MAX` bytes, grants the caller full access and has a directory as
parent; and at every non-empty list of proper elements the host node and the
in-memory entry agree. -/
def Related (R : List Seg) (hs : os.HostFS) (m : memory.Memory) : Prop :=
  os.UsableRoot R hs ∧
  (∀ X n, X ≠ [] → hs.get (R ++ X) = some n →
    (∀ s ∈ X, HostName s) ∧ os.granted hs n = true ∧ os.isDirAt hs (R ++ X.dropLast) = true) ∧
  ∀ T : List Seg, T ≠ [] → (∀ s ∈ T, ProperSeg s) →
    sameEntry (hs.get (R ++ T)) (m (joinSep T))

end storage

/-! ## The backend selector (`fs.go`) -/

/-- The Go type `FSType` (an `int`). -/
abbrev FSType := Int

def OsFS : FSType := 0

def MemoryFS : FSType := 1

/-- A value of the interface `storage.Storage` held in the package variable
`filesystem`: one of the two backends. -/
inductive Backend where
  | os (o : osfs.OSFS)
  | memory (m : memory.Memory)

/-- Initial value of the package variable `filesystem`:
`osfs.NewOSFS(os.TempDir())`, the temp directory being a parameter. -/
def initialFilesystem (tempDir : Path) : Backend :=
  .os (osfs.NewOSFS tempDir)

/-- Result of a call of `Use`: the package variable `filesystem` afterwards
and the panic raised, if any. -/
structure UseResult where
  filesystem : Backend
  panic : Option String

/-- The function `Use` of `fs.go`, on the package variable `filesystem`. -/
def Use (tempDir : Path) (filesystem : Backend) (s : FSType) : UseResult :=
  if s = OsFS then
    { filesystem := .os (osfs.NewOSFS tempDir), panic := none }
  else if s = MemoryFS then
    { filesystem := .memory memory.NewMemory, panic := none }
  else
    { filesystem := filesystem, panic := some "unexpected FSType" }

open storage

/-! ## Path lemmas -/

theorem splitSep_ne_nil (s : List Char) : splitSep s ≠ [] := by
  induction s with
  | nil => simp [splitSep]
  | cons c cs ih =>
    unfold splitSep
    split
    · simp
    · split <;> simp

theorem splitSep_cons_sep (cs : List Char) : splitSep ('/' :: cs) = [] :: splitSep cs := by
  simp [splitSep]

theorem splitSep_cons_of_ne {c : Char} {cs : List Char} {seg : Seg} {rest : List Seg}
    (hc : c ≠ '/') (h : splitSep cs = seg :: rest) :
    splitSep (c :: cs) = (c :: seg) :: rest := by
  simp [splitSep, hc, h]

theorem splitSep_append_sep (a b : List Char) :
    splitSep (a ++ '/' :: b) = splitSep a ++ splitSep b := by
  induction a with
  | nil => simp [splitSep]
  | cons c cs ih =>
    by_cases hc : c = '/'
    · subst hc
      rw [List.cons_append, splitSep_cons_sep, splitSep_cons_sep, ih]
      rfl
    · cases h : splitSep cs with
      | nil => exact absurd h (splitSep_ne_nil cs)
      | cons seg rest =>
        rw [List.cons_append, splitSep_cons_of_ne hc (by rw [ih, h]; rfl),
          splitSep_cons_of_ne hc h]
        rfl

theorem splitSep_of_not_mem {s : List Char} (h : '/' ∉ s) : splitSep s = [s] := by
  induction s with
  | nil => rfl
  | cons c cs ih =>
    have hc : c ≠ '/' := fun e => h (by simp [e])
    have hcs : '/' ∉ cs := fun e => h (by simp [e])
    simp [splitSep, hc, ih hcs]

theorem not_mem_of_mem_splitSep {p : List Char} : ∀ {s : Seg}, s ∈ splitSep p → '/' ∉ s := by
  induction p with
  | nil => intro s hs; simp [splitSep] at hs; simp [hs]
  | cons c cs ih =>
    intro s hs
    by_cases hc : c = '/'
    · simp [splitSep, hc] at hs
      rcases hs with rfl | hs
      · simp
      · exact ih hs
    · simp only [splitSep, hc, if_false] at hs
      cases h : splitSep cs with
      | nil => exact absurd h (splitSep_ne_nil cs)
      | cons seg rest =>
        rw [h] at hs
        simp at hs
        rcases hs with rfl | hs
        · have := ih (s := seg) (by simp [h])
          intro hm
          simp at hm
          rcases hm with hm | hm
          · exact hc hm.symm
          · exact this hm
        · exact ih (by simp [h, hs])

theorem splitSep_joinSep : ∀ {T : List Seg}, T ≠ [] → (∀ s ∈ T, '/' ∉ s) →
    splitSep (joinSep T) = T
  | [], h, _ => absurd rfl h
  | [s], _, hT => by simpa [joinSep] using splitSep_of_not_mem (hT s (by simp))
  | s :: t :: rest, _, hT => by
    have ih := splitSep_joinSep (T := t :: rest) (by simp) (fun x hx => hT x (by simp [hx]))
    rw [joinSep, splitSep_append_sep, ih, splitSep_of_not_mem (hT s (by simp))]
    rfl

/-- A path element that `Clean` keeps as it is. -/
theorem cleanStep_push {rooted : Bool} {stk : List Seg} {s : Seg}
    (h1 : s ≠ []) (h2 : s ≠ ['.']) (h3 : s ≠ ['.', '.']) :
    filepath.cleanStep rooted stk s = s :: stk := by
  simp [filepath.cleanStep, h1, h2, h3]

theorem foldl_cleanStep_proper {rooted : Bool} :
    ∀ (T : List Seg) (stk : List Seg), (∀ s ∈ T, ProperSeg s) →
      T.foldl (filepath.cleanStep rooted) stk = T.reverse ++ stk
  | [], stk, _ => by simp
  | s :: T, stk, h => by
    have hs : ProperSeg s := h s (by simp)
    rw [List.foldl_cons, cleanStep_push hs.1 hs.2.1 hs.2.2.1,
      foldl_cleanStep_proper T _ (fun x hx => h x (by simp [hx]))]
    simp

/-- Cleaning a rooted path keeps every element proper. -/
theorem foldl_cleanStep_rooted_proper :
    ∀ (L : List Seg) (stk : List Seg), (∀ s ∈ L, '/' ∉ s) → (∀ s ∈ stk, ProperSeg s) →
      ∀ s ∈ L.foldl (filepath.cleanStep true) stk, ProperSeg s
  | [], stk, _, hstk => by simpa using hstk
  | x :: L, stk, hL, hstk => by
    rw [List.foldl_cons]
    apply foldl_cleanStep_rooted_proper L _ (fun s hs => hL s (by simp [hs]))
    intro s hs
    unfold filepath.cleanStep at hs
    split at hs
    · exact hstk s hs
    · rename_i h1
      split at hs
      · cases stk with
        | nil => simp at hs
        | cons top rest =>
          simp only at hs
          split at hs
          · rename_i htop
            have := (hstk top (by simp)).2.2.1
            exact absurd htop this
          · exact hstk s (by simp [hs])
      · rename_i h3
        simp at hs
        rcases hs with rfl | hs
        · simp only [not_or] at h1
          exact ⟨h1.1, h1.2, h3, hL _ (by simp)⟩
        · exact hstk s hs

theorem cleanSegs_append_sep (rooted : Bool) (init : List Seg) (a b : Path) :
    filepath.cleanSegs rooted init (a ++ '/' :: b) =
      filepath.cleanSegs rooted (filepath.cleanSegs rooted init a) b := by
  simp [filepath.cleanSegs, splitSep_append_sep, List.foldl_append]

theorem cleanSegs_proper {init : List Seg} (p : Path) (h : ∀ s ∈ init, ProperSeg s) :
    ∀ s ∈ filepath.cleanSegs true init p, ProperSeg s := by
  intro s hs
  unfold filepath.cleanSegs at hs
  rw [List.mem_reverse] at hs
  exact foldl_cleanStep_rooted_proper _ _ (fun x hx => not_mem_of_mem_splitSep hx)
    (by simpa using h) s hs

theorem cleanSegs_cleanRel {rooted : Bool} (init : List Seg) {p : Path} (h : CleanRel p) :
    filepath.cleanSegs rooted init p = init ++ splitSep p := by
  unfold filepath.cleanSegs
  rw [foldl_cleanStep_proper _ _ h]
  simp

/-- Cleaning the text of proper elements gives these elements back. -/
theorem cleanSegs_joinSep {rooted : Bool} (init : List Seg) {T : List Seg}
    (h : ∀ s ∈ T, ProperSeg s) :
    filepath.cleanSegs rooted init (joinSep T) = init ++ T := by
  cases T with
  | nil => simp [filepath.cleanSegs, joinSep, splitSep, filepath.cleanStep]
  | cons t T =>
    apply (cleanSegs_cleanRel init _).trans
    · rw [splitSep_joinSep (by simp) (fun s hs => (h s hs).2.2.2)]
    · unfold CleanRel
      rw [splitSep_joinSep (by simp) (fun s hs => (h s hs).2.2.2)]
      exact h

theorem hostKey_rootPath {R : List Seg} (h : ∀ s ∈ R, ProperSeg s) :
    os.hostKey (rootPath R) = R := by
  unfold os.hostKey rootPath
  have : ('/' :: joinSep R) = [] ++ '/' :: joinSep R := rfl
  rw [this, cleanSegs_append_sep, cleanSegs_joinSep _ h]
  simp [filepath.cleanSegs, splitSep, filepath.cleanStep]

/-- The host path of a name under an absolute clean root: the elements of
the root followed by what cleaning the name leaves. -/
theorem Join_rootPath {R : List Seg} (h : ∀ s ∈ R, ProperSeg s) (name : Path) :
    filepath.Join [rootPath R, name] = rootPath (filepath.cleanSegs true R name) := by
  have h0 : filepath.cleanSegs true [] ([] : Path) = [] := by
    simp [filepath.cleanSegs, splitSep, filepath.cleanStep]
  have key : filepath.cleanSegs true [] ('/' :: (joinSep R ++ '/' :: name)) =
      filepath.cleanSegs true R name := by
    have e : ('/' :: (joinSep R ++ '/' :: name)) = [] ++ '/' :: (joinSep R ++ '/' :: name) := rfl
    rw [e, cleanSegs_append_sep, cleanSegs_append_sep, h0, cleanSegs_joinSep _ h]
    simp
  have hj : joinSep ['/' :: joinSep R, name] = '/' :: (joinSep R ++ '/' :: name) := rfl
  simp only [filepath.Join, rootPath, List.dropWhile, filepath.Clean]
  simp [hj, key]

theorem hostKey_Join_rootPath {R : List Seg} (h : ∀ s ∈ R, ProperSeg s) (name : Path) :
    os.hostKey (filepath.Join [rootPath R, name]) = filepath.cleanSegs true R name := by
  rw [Join_rootPath h, hostKey_rootPath (cleanSegs_proper name h)]

theorem hostKey_Join_cleanRel {R : List Seg} (h : ∀ s ∈ R, ProperSeg s) {name : Path}
    (hn : CleanRel name) :
    os.hostKey (filepath.Join [rootPath R, name]) = R ++ splitSep name := by
  rw [hostKey_Join_rootPath h, cleanSegs_cleanRel R hn]

theorem joinSep_append : ∀ {A B : List Seg}, A ≠ [] → B ≠ [] →
    joinSep (A ++ B) = joinSep A ++ '/' :: joinSep B
  | [], _, h, _ => absurd rfl h
  | [a], b :: B, _, _ => by cases B <;> simp [joinSep]
  | a :: a' :: A, B, _, hB => by
    have ih := joinSep_append (A := a' :: A) (B := B) (by simp) hB
    simp only [List.cons_append] at ih ⊢
    rw [joinSep, ih, joinSep]
    simp

/-- Without `..` among the elements, cleaning only appends. -/
theorem foldl_cleanStep_noDotDot (rooted : Bool) :
    ∀ (L : List Seg) (stk : List Seg), ['.', '.'] ∉ L →
      ∃ X, L.foldl (filepath.cleanStep rooted) stk = X ++ stk
  | [], stk, _ => ⟨[], by simp⟩
  | x :: L, stk, h => by
    have hx : x ≠ ['.', '.'] := fun e => h (by simp [e])
    have hL : ['.', '.'] ∉ L := fun e => h (by simp [e])
    rw [List.foldl_cons]
    by_cases h1 : x = [] ∨ x = ['.']
    · have : filepath.cleanStep rooted stk x = stk := by simp [filepath.cleanStep, h1]
      rw [this]
      exact foldl_cleanStep_noDotDot rooted L stk hL
    · have : filepath.cleanStep rooted stk x = x :: stk := by
        simp [filepath.cleanStep, h1, hx]
      rw [this]
      obtain ⟨X, hX⟩ := foldl_cleanStep_noDotDot rooted L (x :: stk) hL
      exact ⟨X ++ [x], by simp [hX]⟩

theorem cleanSegs_noDotDot (rooted : Bool) (init : List Seg) {p : Path} (h : NoDotDot p) :
    ∃ X, filepath.cleanSegs rooted init p = init ++ X := by
  obtain ⟨X, hX⟩ := foldl_cleanStep_noDotDot rooted (splitSep p) init.reverse h
  exact ⟨X.reverse, by simp [filepath.cleanSegs, hX]⟩

theorem Inside_rootPath_append {R : List Seg} (hne : R ≠ []) (X : List Seg) :
    Inside (rootPath R) (rootPath (R ++ X)) = true := by
  cases X with
  | nil => simp [Inside]
  | cons x X =>
    have : rootPath (R ++ x :: X) = (rootPath R ++ ['/']) ++ joinSep (x :: X) := by
      simp [rootPath, joinSep_append hne (List.cons_ne_nil x X)]
    rw [Inside, this, Bool.or_eq_true]
    right
    rw [List.isPrefixOf_iff_prefix]
    exact List.prefix_append _ _

theorem Join_rootPath_ne_nil {R : List Seg} (hR : ∀ s ∈ R, ProperSeg s) (name : Path) :
    filepath.Join [rootPath R, name] ≠ [] := by
  rw [Join_rootPath hR]
  simp [rootPath]

theorem splitSep_rootPath {K : List Seg} (hK : ∀ s ∈ K, ProperSeg s) :
    ∀ s ∈ splitSep (rootPath K), s = [] ∨ ProperSeg s := by
  intro s hs
  unfold rootPath at hs
  rw [splitSep_cons_sep] at hs
  cases K with
  | nil =>
    simp [joinSep, splitSep] at hs
    exact Or.inl hs
  | cons k K =>
    rw [splitSep_joinSep (by simp) (fun x hx => (hK x hx).2.2.2)] at hs
    rcases List.mem_cons.mp hs with h | h
    · exact Or.inl h
    · exact Or.inr (hK s h)

theorem endsWithDot_rootPath {K : List Seg} (hK : ∀ s ∈ K, ProperSeg s) :
    os.endsWithDot (rootPath K) = false := by
  unfold os.endsWithDot
  rw [Bool.or_eq_false_iff]
  constructor
  · simp [rootPath]
  · rw [← Bool.not_eq_true, List.isSuffixOf_iff_suffix]
    rintro ⟨pre, hpre⟩
    have hmem : ['.'] ∈ splitSep (rootPath K) := by
      rw [← hpre, splitSep_append_sep]
      simp [splitSep]
    rcases splitSep_rootPath hK _ hmem with h | h
    · cases h
    · exact h.2.1 rfl

theorem isPrefixOf_take_false {K : List Seg} {i : Nat} (hi : i < K.length) :
    K.isPrefixOf (K.take i) = false := by
  rw [← Bool.not_eq_true, List.isPrefixOf_iff_prefix]
  intro hp
  have h1 := hp.length_le
  rw [List.length_take] at h1
  omega

theorem Clean_ne_nil (p : Path) : filepath.Clean p ≠ [] := by
  unfold filepath.Clean
  cases p with
  | nil => simp
  | cons c cs =>
    simp only
    split
    · simp
    · split
      · simp
      · assumption

theorem Join_ne_nil {root name : Path} (h : name ≠ []) : filepath.Join [root, name] ≠ [] := by
  unfold filepath.Join
  by_cases hr : root = []
  · subst hr
    simp only [List.dropWhile, decide_True, h, decide_False]
    exact Clean_ne_nil _
  · simp only [List.dropWhile, hr, decide_False]
    exact Clean_ne_nil _

theorem joinSep_snoc_ne_nil (pre : List Seg) {x : Seg} (hx : x ≠ []) :
    joinSep (pre ++ [x]) ≠ [] := by
  by_cases hne : pre = []
  · subst hne
    simpa [joinSep] using hx
  · rw [joinSep_append hne (by simp)]
    simp

theorem cumulative_ne_nil :
    ∀ (rest pre : List Seg), (∀ x ∈ rest, x ≠ []) → ∀ q ∈ cumulative pre rest, q ≠ []
  | [], _, _, q, hq => by simp [cumulative] at hq
  | x :: rest, pre, h, q, hq => by
    simp only [cumulative, List.mem_cons] at hq
    rcases hq with rfl | hq
    · exact joinSep_snoc_ne_nil pre (h x (by simp))
    · exact cumulative_ne_nil rest (pre ++ [x]) (fun y hy => h y (by simp [hy])) q hq

theorem ancestorPaths_ne_nil {dir q : Path} (hq : q ∈ ancestorPaths dir) : q ≠ [] := by
  unfold ancestorPaths at hq
  refine cumulative_ne_nil _ [] ?_ q hq
  intro x hx
  simpa using (List.mem_filter.mp hx).2

theorem parentOf_of_not_mem {s : List Char} (h : '/' ∉ s) : memory.parentOf s = none := by
  induction s with
  | nil => rfl
  | cons c cs ih =>
    have hc : c ≠ '/' := fun e => h (by simp [e])
    have hcs : '/' ∉ cs := fun e => h (by simp [e])
    simp [memory.parentOf, ih hcs, hc]

theorem parentOf_append_sep (a : List Char) {s : List Char} (h : '/' ∉ s) :
    memory.parentOf (a ++ '/' :: s) = some a := by
  induction a with
  | nil => simp [memory.parentOf, parentOf_of_not_mem h]
  | cons c cs ih => simp [memory.parentOf, ih]

theorem joinSep_snoc {pre : List Seg} (hne : pre ≠ []) (s : Seg) :
    joinSep (pre ++ [s]) = joinSep pre ++ '/' :: s := by
  rw [joinSep_append hne (by simp)]
  rfl

/-- The parent of a joined path is the path joined without its last
element. -/
theorem parentOf_joinSep_snoc (pre : List Seg) {s : Seg} (h : '/' ∉ s) :
    memory.parentOf (joinSep (pre ++ [s])) = if pre = [] then none else some (joinSep pre) := by
  by_cases hne : pre = []
  · subst hne
    simpa [joinSep] using parentOf_of_not_mem h
  · rw [joinSep_snoc hne, parentOf_append_sep _ h]
    simp [hne]

/-- Joining is injective on non-empty lists of separator-free elements. -/
theorem joinSep_injective {A B : List Seg} (hA : A ≠ []) (hB : B ≠ [])
    (hA' : ∀ s ∈ A, '/' ∉ s) (hB' : ∀ s ∈ B, '/' ∉ s) (h : joinSep A = joinSep B) : A = B := by
  rw [← splitSep_joinSep hA hA', ← splitSep_joinSep hB hB', h]

theorem not_mem_of_parentOf_none {s : Path} (h : memory.parentOf s = none) : '/' ∉ s := by
  induction s with
  | nil => simp
  | cons c cs ih =>
    unfold memory.parentOf at h
    cases hp : memory.parentOf cs with
    | some q => simp [hp] at h
    | none =>
      simp only [hp] at h
      by_cases hc : c = '/'
      · simp [hc] at h
      · intro hm
        rcases List.mem_cons.mp hm with e | e
        · exact hc e.symm
        · exact ih hp e

theorem parentOf_eq_some {p q : Path} (h : memory.parentOf p = some q) :
    ∃ s, '/' ∉ s ∧ p = q ++ '/' :: s := by
  induction p generalizing q with
  | nil => simp [memory.parentOf] at h
  | cons c cs ih =>
    unfold memory.parentOf at h
    cases hp : memory.parentOf cs with
    | some q' =>
      simp only [hp] at h
      cases h
      obtain ⟨s, hs, e⟩ := ih hp
      exact ⟨s, hs, by rw [e]; rfl⟩
    | none =>
      simp only [hp] at h
      by_cases hc : c = '/'
      · simp [hc] at h
        subst h
        exact ⟨cs, not_mem_of_parentOf_none hp, by simp [hc]⟩
      · simp [hc] at h

/-- A proper ancestor path of `q/s` (with `s` free of separators) is `q` or a
proper ancestor path of `q`. -/
theorem ancestor_of_snoc {a q s : Path} (hs : '/' ∉ s)
    (h : IsAncestorPath a (q ++ '/' :: s) = true) : a = q ∨ IsAncestorPath a q = true := by
  unfold IsAncestorPath at h ⊢
  rw [List.isPrefixOf_iff_prefix] at h ⊢
  obtain ⟨t, ht⟩ := h
  rw [List.append_assoc, List.append_eq_append_iff] at ht
  rcases ht with ⟨u, hq, hu⟩ | ⟨u, ha, hu⟩
  · -- q = a ++ u, '/' :: t = u ++ '/' :: s
    cases u with
    | nil => left; simpa using hq.symm
    | cons x u =>
      simp at hu
      right
      rw [hq, ← hu.1]
      exact ⟨u, by simp⟩
  · -- a = q ++ u, '/' :: s = u ++ '/' :: t
    cases u with
    | nil => left; simpa using ha
    | cons x u =>
      simp at hu
      exfalso
      apply hs
      rw [hu.2]
      simp

theorem dropLast_prefix_of_prefix {a k : List Seg} (h : a <+: k) : a.dropLast <+: k :=
  (List.dropLast_prefix a).trans h

theorem joinSep_cons_cons (c : Char) (seg : Seg) (rest : List Seg) :
    joinSep ((c :: seg) :: rest) = c :: joinSep (seg :: rest) := by
  cases rest <;> simp [joinSep]

theorem joinSep_splitSep (p : Path) : joinSep (splitSep p) = p := by
  induction p with
  | nil => rfl
  | cons c cs ih =>
    cases h : splitSep cs with
    | nil => exact absurd h (splitSep_ne_nil cs)
    | cons seg rest =>
      by_cases hc : c = '/'
      · subst hc
        rw [splitSep_cons_sep, h, joinSep, ← h, ih]
        rfl
      · rw [splitSep_cons_of_ne hc h, joinSep_cons_cons, ← h, ih]

/-- For joined lists of separator-free elements, "equal to `p` or below
`p`" is the prefix order on the element lists. -/
theorem joinSep_below_iff {T T2 : List Seg} (hT : T ≠ []) (hT2 : T2 ≠ [])
    (h : ∀ s ∈ T, '/' ∉ s) (h2 : ∀ s ∈ T2, '/' ∉ s) :
    (joinSep T2 = joinSep T ∨ (joinSep T ++ ['/']).isPrefixOf (joinSep T2) = true) ↔
      T <+: T2 := by
  constructor
  · rintro (e | e)
    · rw [joinSep_injective hT2 hT h2 h e]
    · rw [List.isPrefixOf_iff_prefix] at e
      obtain ⟨t, ht⟩ := e
      have : T2 = T ++ splitSep t := by
        rw [← splitSep_joinSep hT2 h2, ← ht, List.append_assoc]
        show splitSep (joinSep T ++ '/' :: t) = _
        rw [splitSep_append_sep, splitSep_joinSep hT h]
      rw [this]
      exact List.prefix_append _ _
  · rintro ⟨X, rfl⟩
    cases X with
    | nil => left; simp
    | cons x X =>
      right
      rw [List.isPrefixOf_iff_prefix, joinSep_append hT (by simp)]
      exact ⟨joinSep (x :: X), by simp⟩

theorem cleanRel_splitSep {p : Path} (hp : CleanRel p) :
    splitSep p ≠ [] ∧ (∀ s ∈ splitSep p, ProperSeg s) ∧ joinSep (splitSep p) = p :=
  ⟨splitSep_ne_nil p, hp, joinSep_splitSep p⟩

theorem append_ne_self {R T : List Seg} (hT : T ≠ []) : R ≠ R ++ T := by
  intro e
  have := congrArg List.length e
  have hl : 0 < T.length := List.length_pos.mpr hT
  rw [List.length_append] at this
  omega

/-- The elements of a proper ancestor path of a clean relative path form a
proper prefix of its elements. -/
theorem ancestor_of_cleanRel {a p : Path} (hp : CleanRel p) (h : IsAncestorPath a p = true) :
    CleanRel a ∧ splitSep a <+: splitSep p ∧ splitSep a ≠ splitSep p := by
  unfold IsAncestorPath at h
  rw [List.isPrefixOf_iff_prefix] at h
  obtain ⟨t, ht⟩ := h
  have e : splitSep p = splitSep a ++ splitSep t := by
    rw [← ht, List.append_assoc]
    exact splitSep_append_sep a t
  refine ⟨?_, ?_, ?_⟩
  · intro s hs
    exact hp s (by rw [e]; exact List.mem_append_left _ hs)
  · rw [e]
    exact List.prefix_append _ _
  · rw [e]
    intro h
    have := congrArg List.length h
    have hl : 0 < (splitSep t).length := List.length_pos.mpr (splitSep_ne_nil t)
    rw [List.length_append] at this
    omega

theorem ok_of_succeeded {ε α : Type} {r : Except ε α} (h : succeeded r = true) :
    ∃ x, r = .ok x := by
  cases r with
  | ok x => exact ⟨x, rfl⟩
  | error e => cases h

/-! ## Lemmas on host states -/

theorem lookupKey_filter (P : List Seg → Bool) (k : List Seg) :
    ∀ es : List (List Seg × os.Node),
      os.lookupKey k (es.filter (fun e => !P e.1)) = if P k = true then none else os.lookupKey k es
  | [] => by simp [os.lookupKey]
  | e :: es => by
    have ih := lookupKey_filter P k es
    by_cases hP : P e.1 = true
    · rw [List.filter_cons_of_neg (by simp [hP]), ih]
      by_cases hk : e.1 = k
      · rw [← hk, if_pos hP, if_pos hP]
      · simp [os.lookupKey, hk]
    · rw [List.filter_cons_of_pos (by simp [hP])]
      by_cases hk : e.1 = k
      · have : ¬ P k = true := by rw [← hk]; exact hP
        simp [os.lookupKey, hk, this]
      · simp only [os.lookupKey, if_neg hk, ih]

theorem get_put (hs : os.HostFS) (k a : List Seg) (n : os.Node) :
    (hs.put k n).get a = if a = k then some n else hs.get a := by
  unfold os.HostFS.put os.HostFS.get
  simp only [os.lookupKey]
  by_cases h : k = a
  · simp [h]
  · have h' : ¬ a = k := fun e => h e.symm
    rw [if_neg h, if_neg h', lookupKey_filter (fun x => decide (x = k))]
    simp [h']

theorem get_erase (hs : os.HostFS) (k a : List Seg) :
    (hs.erase k).get a = if a = k then none else hs.get a := by
  unfold os.HostFS.erase os.HostFS.get
  simp only
  rw [lookupKey_filter (fun x => decide (x = k))]
  simp

theorem get_purge (hs : os.HostFS) (t a : List Seg) :
    (os.purge hs t).get a = if os.removable hs t a = true then none else hs.get a := by
  unfold os.purge os.HostFS.get
  simp only
  rw [lookupKey_filter (fun x => os.removable hs t x)]

theorem lookupKey_ne_none_iff (k : List Seg) :
    ∀ es : List (List Seg × os.Node), os.lookupKey k es ≠ none ↔ ∃ n, (k, n) ∈ es
  | [] => by simp [os.lookupKey]
  | e :: es => by
    have ih := lookupKey_ne_none_iff k es
    by_cases hk : e.1 = k
    · simp only [os.lookupKey, if_pos hk]
      constructor
      · intro _
        exact ⟨e.2, by rw [← hk]; simp⟩
      · intro _
        simp
    · simp only [os.lookupKey, if_neg hk, ih, List.mem_cons]
      constructor
      · rintro ⟨n, hn⟩
        exact ⟨n, Or.inr hn⟩
      · rintro ⟨n, hn | hn⟩
        · exact absurd (congrArg Prod.fst hn).symm hk
        · exact ⟨n, hn⟩

theorem hasChild_iff (hs : os.HostFS) (t : List Seg) :
    os.hasChild hs t = true ↔ ∃ d, os.beneath t d = true ∧ hs.get d ≠ none := by
  unfold os.hasChild
  rw [List.any_eq_true]
  constructor
  · rintro ⟨e, he, hb⟩
    exact ⟨e.1, hb, (lookupKey_ne_none_iff e.1 hs.entries).mpr ⟨e.2, he⟩⟩
  · rintro ⟨d, hb, hd⟩
    obtain ⟨n, hn⟩ := (lookupKey_ne_none_iff d hs.entries).mp hd
    exact ⟨(d, n), hn, hb⟩

theorem clearable_iff (hs : os.HostFS) (d : List Seg) :
    os.clearable hs d = true ↔
      ∀ e, hs.get e ≠ none → os.beneath d e = true → os.fullAt hs e.dropLast = true := by
  unfold os.clearable
  rw [List.all_eq_true]
  constructor
  · intro h e he hb
    obtain ⟨n, hn⟩ := (lookupKey_ne_none_iff e hs.entries).mp he
    have := h (e, n) hn
    simpa [hb] using this
  · intro h e he
    by_cases hb : os.beneath d e.1 = true
    · have := h e.1 ((lookupKey_ne_none_iff e.1 hs.entries).mpr ⟨e.2, he⟩) hb
      simp [this]
    · simp [hb]

theorem beneath_iff {t d : List Seg} : os.beneath t d = true ↔ t <+: d ∧ d ≠ t := by
  unfold os.beneath
  simp [List.isPrefixOf_iff_prefix]

@[simp] theorem put_privileged (hs : os.HostFS) (k : List Seg) (n : os.Node) :
    (hs.put k n).privileged = hs.privileged := rfl

@[simp] theorem erase_privileged (hs : os.HostFS) (k : List Seg) :
    (hs.erase k).privileged = hs.privileged := rfl

@[simp] theorem purge_privileged (hs : os.HostFS) (k : List Seg) :
    (os.purge hs k).privileged = hs.privileged := rfl

@[simp] theorem put_umask (hs : os.HostFS) (k : List Seg) (n : os.Node) :
    (hs.put k n).umask = hs.umask := rfl

@[simp] theorem erase_umask (hs : os.HostFS) (k : List Seg) :
    (hs.erase k).umask = hs.umask := rfl

@[simp] theorem purge_umask (hs : os.HostFS) (k : List Seg) :
    (os.purge hs k).umask = hs.umask := rfl

/-! ## Lemmas on the walk -/

theorem walkDirs_nil (hs : os.HostFS) (cur : List Seg) :
    os.walkDirs hs cur [] =
      match hs.get cur with
      | none => .error .notFound
      | some (.file _ _) => .error .notDirectory
      | some (.dir m) => .ok m := by
  rw [os.walkDirs]

theorem walkDirs_cons (hs : os.HostFS) (cur : List Seg) (s : Seg) (rest : List Seg) :
    os.walkDirs hs cur (s :: rest) =
      match hs.get cur with
      | none => .error .notFound
      | some (.file _ _) => .error .notDirectory
      | some (.dir m) =>
        if !hs.maySearch m then .error .permission
        else if os.nameMax < byteLen s then .error .nameTooLong
        else os.walkDirs hs (cur ++ [s]) rest := by
  rw [os.walkDirs]

/-- The walk only looks at the nodes on its way. -/
theorem walkDirs_congr (hs hs' : os.HostFS) (hp : hs'.privileged = hs.privileged) :
    ∀ (rest cur : List Seg), (∀ a, a <+: cur ++ rest → cur <+: a → hs'.get a = hs.get a) →
      os.walkDirs hs' cur rest = os.walkDirs hs cur rest
  | [], cur, h => by
    rw [walkDirs_nil, walkDirs_nil, h cur (by simp) (List.prefix_refl _)]
  | s :: rest, cur, h => by
    rw [walkDirs_cons, walkDirs_cons, h cur (List.prefix_append _ _) (List.prefix_refl _)]
    have ih := walkDirs_congr hs hs' hp rest (cur ++ [s]) (fun a ha hc =>
      h a (by simpa using ha) ((List.prefix_append _ _).trans hc))
    simp only [os.HostFS.maySearch, hp, ih]

theorem walkDirs_append (hs : os.HostFS) :
    ∀ (A cur B : List Seg), os.walkDirs hs cur (A ++ B) =
      match os.walkDirs hs cur A with
      | .error e => .error e
      | .ok _ => os.walkDirs hs (cur ++ A) B
  | [], cur, B => by
    simp only [List.nil_append, List.append_nil]
    rw [walkDirs_nil]
    cases B with
    | nil =>
      rw [walkDirs_nil]
      cases hs.get cur with
      | none => rfl
      | some n => cases n <;> rfl
    | cons b B =>
      rw [walkDirs_cons]
      cases hs.get cur with
      | none => rfl
      | some n => cases n <;> rfl
  | a :: A, cur, B => by
    have ih := walkDirs_append hs A (cur ++ [a]) B
    simp only [List.cons_append]
    rw [walkDirs_cons hs cur a (A ++ B), walkDirs_cons hs cur a A]
    cases hs.get cur with
    | none => rfl
    | some n =>
      cases n with
      | file m d => rfl
      | dir m =>
        simp only
        split
        · rfl
        · split
          · rfl
          · rw [ih]
            simp

/-- A walk that succeeds ends at a directory, whose mode it returns. -/
theorem walkDirs_ok_get {hs : os.HostFS} :
    ∀ {rest cur : List Seg} {m : FileMode}, os.walkDirs hs cur rest = .ok m →
      hs.get (cur ++ rest) = some (.dir m)
  | [], cur, m, h => by
    rw [walkDirs_nil] at h
    rw [List.append_nil]
    cases hg : hs.get cur with
    | none => simp [hg] at h
    | some n =>
      cases n with
      | file _ _ => simp [hg] at h
      | dir m' =>
        simp only [hg, Except.ok.injEq] at h
        rw [h]
  | s :: rest, cur, m, h => by
    rw [walkDirs_cons] at h
    cases hg : hs.get cur with
    | none => simp [hg] at h
    | some n =>
      cases n with
      | file _ _ => simp [hg] at h
      | dir m' =>
        simp only [hg] at h
        split at h
        · cases h
        · split at h
          · cases h
          · have := walkDirs_ok_get h
            simpa using this

/-- The walk to `A` followed by one more element. -/
theorem walkDirs_snoc (hs : os.HostFS) (A : List Seg) (s : Seg) :
    os.walkDirs hs [] (A ++ [s]) =
      match os.walkDirs hs [] A with
      | .error e => .error e
      | .ok m =>
        if !hs.maySearch m then .error .permission
        else if os.nameMax < byteLen s then .error .nameTooLong
        else
          match hs.get (A ++ [s]) with
          | none => .error .notFound
          | some (.file _ _) => .error .notDirectory
          | some (.dir m') => .ok m' := by
  rw [walkDirs_append]
  cases h : os.walkDirs hs [] A with
  | error e => rfl
  | ok m =>
    simp only [List.nil_append]
    have hg := walkDirs_ok_get h
    rw [List.nil_append] at hg
    rw [walkDirs_cons, hg, walkDirs_nil]

theorem lookupLast_nil (hs : os.HostFS) :
    os.lookupLast hs [] =
      match hs.get [] with
      | some n => .found n
      | none => .fail .notFound := by
  simp only [os.lookupLast, List.getLast?_nil]

theorem lookupLast_snoc (hs : os.HostFS) (A : List Seg) (s : Seg) :
    os.lookupLast hs (A ++ [s]) =
      match os.walkDirs hs [] A with
      | .error e => .fail e
      | .ok m =>
        if !hs.maySearch m then .fail .permission
        else if os.nameMax < byteLen s then .fail .nameTooLong
        else
          match hs.get (A ++ [s]) with
          | some n => .found n
          | none => .absent := by
  have hl : (A ++ [s]).getLast? = some s := by
    rw [List.getLast?_append]
    rfl
  simp only [os.lookupLast, hl, List.dropLast_concat]

/-- The lookup only looks at the nodes on its way. -/
theorem lookupLast_congr (hs hs' : os.HostFS) (hp : hs'.privileged = hs.privileged)
    (k : List Seg) (h : ∀ a, a <+: k → hs'.get a = hs.get a) :
    os.lookupLast hs' k = os.lookupLast hs k := by
  induction k using List.reverseRecOn with
  | nil => rw [lookupLast_nil, lookupLast_nil, h [] (List.prefix_refl _)]
  | append_singleton A s _ =>
    rw [lookupLast_snoc, lookupLast_snoc,
      walkDirs_congr hs hs' hp A [] (fun a ha _ => h a (by
        simp only [List.nil_append] at ha
        exact ha.trans (List.prefix_append _ _))),
      h (A ++ [s]) (List.prefix_refl _)]
    simp only [os.HostFS.maySearch, hp]

theorem lookupLast_found_get {hs : os.HostFS} {k : List Seg} {n : os.Node}
    (h : os.lookupLast hs k = .found n) : hs.get k = some n := by
  induction k using List.reverseRecOn with
  | nil =>
    rw [lookupLast_nil] at h
    cases hg : hs.get [] with
    | none => simp [hg] at h
    | some n' => simpa [hg] using h
  | append_singleton A s _ =>
    rw [lookupLast_snoc] at h
    split at h
    · cases h
    · split at h
      · cases h
      · split at h
        · cases h
        · split at h
          · rename_i hg
            cases h
            exact hg
          · cases h

/-- Nothing found at the last element: the parent is a directory the caller
may search, reached by the walk, and the name is short enough. -/
theorem lookupLast_absent {hs : os.HostFS} {k : List Seg} (h : os.lookupLast hs k = .absent) :
    ∃ hk : k ≠ [], hs.get k = none ∧ byteLen (k.getLast hk) ≤ os.nameMax ∧
      ∃ m, os.walkDirs hs [] k.dropLast = .ok m ∧ hs.maySearch m = true := by
  induction k using List.reverseRecOn with
  | nil =>
    rw [lookupLast_nil] at h
    cases hg : hs.get [] <;> simp [hg] at h
  | append_singleton A s _ =>
    rw [lookupLast_snoc] at h
    refine ⟨by simp, ?_⟩
    split at h
    · cases h
    · rename_i m hw
      split at h
      · cases h
      · rename_i hsrch
        split at h
        · cases h
        · rename_i hlen
          split at h
          · cases h
          · rename_i hg
            exact ⟨hg, by simpa using hlen, m, by simpa using hw, by simpa using hsrch⟩

/-- Something found at the last element of `k ≠ []`: the same facts on the
parent. -/
theorem lookupLast_found {hs : os.HostFS} {k : List Seg} {n : os.Node} (hk : k ≠ [])
    (h : os.lookupLast hs k = .found n) :
    hs.get k = some n ∧ byteLen (k.getLast hk) ≤ os.nameMax ∧
      ∃ m, os.walkDirs hs [] k.dropLast = .ok m ∧ hs.maySearch m = true := by
  refine ⟨lookupLast_found_get h, ?_⟩
  induction k using List.reverseRecOn with
  | nil => exact absurd rfl hk
  | append_singleton A s _ =>
    rw [lookupLast_snoc] at h
    split at h
    · cases h
    · rename_i m hw
      split at h
      · cases h
      · rename_i hsrch
        split at h
        · cases h
        · rename_i hlen
          exact ⟨by simpa using hlen, m, by simpa using hw, by simpa using hsrch⟩

theorem lookupLast_get_none {hs : os.HostFS} {k : List Seg} (h : hs.get k = none) (n : os.Node) :
    os.lookupLast hs k ≠ .found n := by
  intro hf
  rw [lookupLast_found_get hf] at h
  cases h

theorem isDirAt_iff {hs : os.HostFS} {k : List Seg} :
    os.isDirAt hs k = true ↔ ∃ m, hs.get k = some (.dir m) := by
  unfold os.isDirAt
  cases hs.get k with
  | none => simp
  | some n => cases n <;> simp

/-- The walk through `rest` from `cur` passes directories only. -/
theorem walkDirs_ok_prefix {hs : os.HostFS} :
    ∀ {rest cur : List Seg} {m : FileMode}, os.walkDirs hs cur rest = .ok m →
      ∀ a, a <+: cur ++ rest → cur <+: a → os.isDirAt hs a = true
  | [], cur, m, h, a, ha, hc => by
    rw [List.append_nil] at ha
    have e : a = cur := List.Sublist.antisymm ha.sublist hc.sublist
    have := walkDirs_ok_get h
    rw [List.append_nil] at this
    rw [e, isDirAt_iff]
    exact ⟨m, this⟩
  | s :: rest, cur, m, h, a, ha, hc => by
    by_cases e : a = cur
    · rw [walkDirs_cons] at h
      rw [e, isDirAt_iff]
      cases hg : hs.get cur with
      | none => simp [hg] at h
      | some n =>
        cases n with
        | file _ _ => simp [hg] at h
        | dir m' => exact ⟨m', rfl⟩
    · have h' : os.walkDirs hs (cur ++ [s]) rest = .ok m := by
        rw [os.walkDirs] at h
        cases hg : hs.get cur with
        | none => simp [hg] at h
        | some n =>
          cases n with
          | file _ _ => simp [hg] at h
          | dir m' =>
            simp only [hg] at h
            split at h
            · cases h
            · split at h
              · cases h
              · exact h
      apply walkDirs_ok_prefix h' a (by simpa using ha)
      obtain ⟨x, hx⟩ := hc
      obtain ⟨y, hy⟩ := ha
      cases x with
      | nil => exact absurd (by simpa using hx.symm) e
      | cons x0 x =>
        have : cur ++ x0 :: x ++ y = cur ++ s :: rest := by rw [hx, hy]
        have h2 : x0 :: (x ++ y) = s :: rest := by
          have h4 : cur ++ (x0 :: (x ++ y)) = cur ++ (s :: rest) := by simpa using this
          exact List.append_cancel_left h4
        have h3 : x0 = s := by
          simp at h2
          exact h2.1
        rw [← hx, h3]
        exact ⟨x, by simp⟩

/-! ## Backend selection and root confinement -/

/-- C7: `Use(s)` panics exactly when `s` is neither `OsFS` (0) nor `MemoryFS`
(1), and then leaves the package variable `filesystem` as it was;
`Use(OsFS)` installs an OS-backed store rooted at the temp directory, which
is the initial value of `filesystem`, and `Use(MemoryFS)` installs a new,
empty in-memory store. -/
theorem Use_panics_iff_unrecognized (tempDir : Path) (filesystem : Backend) (s : FSType) :
    (OsFS = 0 ∧ MemoryFS = 1) ∧
    (((Use tempDir filesystem s).panic.isSome = true) ↔ (s ≠ OsFS ∧ s ≠ MemoryFS)) ∧
    ((Use tempDir filesystem s).panic.isSome = true →
      (Use tempDir filesystem s).filesystem = filesystem) ∧
    (Use tempDir filesystem OsFS).filesystem = Backend.os (osfs.NewOSFS tempDir) ∧
    (osfs.NewOSFS tempDir).rootDir = tempDir ∧
    (Use tempDir filesystem OsFS).filesystem = initialFilesystem tempDir ∧
    (Use tempDir filesystem MemoryFS).filesystem = Backend.memory memory.NewMemory ∧
    (Use tempDir filesystem OsFS).panic = none ∧
    (Use tempDir filesystem MemoryFS).panic = none := by
  refine ⟨⟨rfl, rfl⟩, ?_, ?_, rfl, rfl, rfl, rfl, rfl, rfl⟩
  · unfold Use OsFS MemoryFS
    by_cases h0 : s = 0
    · simp [h0]
    · by_cases h1 : s = 1
      · simp [h1]
      · simp [h0, h1]
  · unfold Use OsFS MemoryFS
    by_cases h0 : s = 0
    · simp [h0]
    · by_cases h1 : s = 1
      · simp [h1]
      · simp [h0, h1]

/-- C8 (as stated, refuted): with root `/tmp` the name `../x` resolves to the
host path `/x`, which is not inside `/tmp`, and `WriteFile` creates the file
there, next to the root. -/
theorem OSFS_hostPath_escapes_root :
    (osfs.NewOSFS "/tmp".toList).hostPath "../x".toList = "/x".toList ∧
    Inside "/tmp".toList ((osfs.NewOSFS "/tmp".toList).hostPath "../x".toList) = false ∧
    (∃ hs, (osfs.NewOSFS "/tmp".toList).WriteFile (os.freshHost "/tmp".toList)
        "../x".toList [1] 0o644 = .ok hs ∧ hs.get ["x".toList] = some (os.Node.file 0o644 [1])) := by
  refine ⟨by decide, by decide, _, rfl, by decide⟩

/-- C8 (amended): for an OS-backed store whose root is an absolute clean
path other than `/`, every method acts on the host path
`filepath.Join(root, name)`, and for every name without a `..` element this
path lies inside the root. -/
theorem OSFS_hostPath_inside_root (R : List Seg) (name : Path)
    (hR : ∀ s ∈ R, ProperSeg s) (hne : R ≠ []) (hn : NoDotDot name) :
    Inside (rootPath R) ((osfs.NewOSFS (rootPath R)).hostPath name) = true ∧
    (∀ (o : osfs.OSFS) (hs : os.HostFS) (data : Bytes) (perm : FileMode),
      o.WriteFile hs name data perm = os.WriteFile hs (o.hostPath name) data perm ∧
      o.Mkdir hs name perm = os.Mkdir hs (o.hostPath name) perm ∧
      o.RemoveAll hs name = os.RemoveAll hs (o.hostPath name) ∧
      o.Create hs name = os.Create hs (o.hostPath name) ∧
      o.Stat hs name = os.Stat hs (o.hostPath name) ∧
      o.Open hs name = os.Open hs (o.hostPath name)) := by
  refine ⟨?_, fun o hs data perm => ⟨rfl, rfl, rfl, rfl, rfl, rfl⟩⟩
  obtain ⟨X, hX⟩ := cleanSegs_noDotDot true R hn
  unfold osfs.OSFS.hostPath osfs.NewOSFS
  rw [Join_rootPath hR, hX]
  exact Inside_rootPath_append hne X

/-- Witness for C8: under the root `/tmp` the name `a/./b//c` resolves inside
the root. -/
theorem OSFS_hostPath_inside_root_witness :
    Inside "/tmp".toList ((osfs.NewOSFS "/tmp".toList).hostPath "a/./b//c".toList) = true := by
  exact (OSFS_hostPath_inside_root ["tmp".toList] "a/./b//c".toList (by decide) (by decide)
    (by decide)).1

/-! ## Lemmas on the host primitives -/

theorem pathErr_none_ne_nil {p : Path} (h : os.pathErr p = none) : p ≠ [] := by
  rintro rfl
  simp [os.pathErr] at h

theorem lookupKey_some_mem {k : List Seg} {n : os.Node} :
    ∀ {es : List (List Seg × os.Node)}, os.lookupKey k es = some n → (k, n) ∈ es
  | [], h => by simp [os.lookupKey] at h
  | e :: es, h => by
    by_cases hk : e.1 = k
    · simp only [os.lookupKey, if_pos hk, Option.some.injEq] at h
      rw [← hk, ← h]
      simp
    · simp only [os.lookupKey, if_neg hk] at h
      exact List.mem_cons_of_mem _ (lookupKey_some_mem h)

theorem get_freshHost {R : List Seg} (hR : ∀ s ∈ R, ProperSeg s) (k : List Seg) :
    (os.freshHost (rootPath R)).get k = if k <+: R then some (os.Node.dir 0o755) else none := by
  unfold os.freshHost os.HostFS.get
  simp only [hostKey_rootPath hR]
  by_cases hk : k <+: R
  · rw [if_pos hk]
    have hmem : (k, os.Node.dir 0o755) ∈
        (List.range (R.length + 1)).map (fun i => (R.take i, os.Node.dir 0o755)) := by
      rw [List.mem_map]
      refine ⟨k.length, ?_, ?_⟩
      · rw [List.mem_range]
        have := hk.length_le
        omega
      · rw [← List.prefix_iff_eq_take.mp hk]
    cases hl : os.lookupKey k
        ((List.range (R.length + 1)).map (fun i => (R.take i, os.Node.dir 0o755))) with
    | none => exact absurd hl ((lookupKey_ne_none_iff k _).mpr ⟨_, hmem⟩)
    | some n =>
      have := lookupKey_some_mem hl
      rw [List.mem_map] at this
      obtain ⟨i, _, hi⟩ := this
      rw [← (Prod.mk.inj hi).2]
  · rw [if_neg hk]
    by_contra hc
    obtain ⟨n, hn⟩ := (lookupKey_ne_none_iff k _).mp hc
    rw [List.mem_map] at hn
    obtain ⟨i, _, hi⟩ := hn
    apply hk
    rw [← (Prod.mk.inj hi).1]
    exact List.take_prefix _ _

theorem walkDirs_freshHost {R : List Seg} (hR : ∀ s ∈ R, HostName s) :
    ∀ A : List Seg, A <+: R → os.walkDirs (os.freshHost (rootPath R)) [] A = .ok 0o755 := by
  have hR' : ∀ s ∈ R, ProperSeg s := fun s hs => (hR s hs).1
  intro A
  induction A using List.reverseRecOn with
  | nil =>
    intro _
    rw [walkDirs_nil, get_freshHost hR' [], if_pos List.nil_prefix]
  | append_singleton A s ih =>
    intro hp
    have hA : A <+: R := (List.prefix_append _ _).trans hp
    have hs : s ∈ R := hp.subset (by simp)
    rw [walkDirs_snoc, ih hA, get_freshHost hR' _, if_pos hp]
    have h1 : (os.freshHost (rootPath R)).maySearch 0o755 = true := rfl
    have h2 : ¬ os.nameMax < byteLen s := Nat.not_lt.mpr (hR s hs).2
    simp [h1, h2]

theorem EmptyRoot_freshHost {R : List Seg} (hR : ∀ s ∈ R, HostName s) :
    os.EmptyRoot R (os.freshHost (rootPath R)) := by
  refine ⟨⟨0o755, walkDirs_freshHost hR R (List.prefix_refl _), rfl⟩, ?_⟩
  intro X hX
  rw [get_freshHost (fun s hs => (hR s hs).1), if_neg]
  intro hp
  have h1 := hp.length_le
  have h2 : 0 < X.length := List.length_pos.mpr hX
  rw [List.length_append] at h1
  omega

/-- The lookup of a path finds what has just been put there. -/
theorem lookupLast_put_self {hs : os.HostFS} {k : List Seg} (n : os.Node)
    (h : os.lookupLast hs k = .absent ∨ ∃ n', os.lookupLast hs k = .found n') :
    os.lookupLast (hs.put k n) k = .found n := by
  induction k using List.reverseRecOn with
  | nil => rw [lookupLast_nil, get_put]; simp
  | append_singleton A s _ =>
    have hw : os.walkDirs (hs.put (A ++ [s]) n) [] A = os.walkDirs hs [] A := by
      refine walkDirs_congr hs (hs.put (A ++ [s]) n) rfl A [] ?_
      intro a ha _
      rw [get_put, if_neg]
      intro e
      have := ha.length_le
      rw [e] at this
      simp at this
    rw [lookupLast_snoc, hw, get_put, if_pos rfl]
    rw [lookupLast_snoc] at h
    cases hwd : os.walkDirs hs [] A with
    | error e => simp [hwd] at h
    | ok m =>
      simp only [hwd] at h ⊢
      have hsr : (hs.put (A ++ [s]) n).maySearch m = hs.maySearch m := rfl
      rw [hsr]
      by_cases h1 : (!hs.maySearch m) = true
      · simp [h1] at h
      · rw [if_neg h1] at h ⊢
        by_cases h2 : os.nameMax < byteLen s
        · simp [h2] at h
        · rw [if_neg h2]

/-- A node put at `k` is not seen by the lookup of a path that does not pass
through `k`. -/
theorem lookupLast_put_other {hs : os.HostFS} {k k' : List Seg} (n : os.Node)
    (h : ¬ k <+: k') : os.lookupLast (hs.put k n) k' = os.lookupLast hs k' := by
  refine lookupLast_congr hs (hs.put k n) rfl k' ?_
  intro a ha
  rw [get_put, if_neg]
  rintro rfl
  exact h ha

theorem lookupLast_fail_kind {hs : os.HostFS} {k : List Seg} {e : StorageError}
    (h : os.lookupLast hs k = .fail e) :
    e = .notFound ∨ e = .notDirectory ∨ e = .permission ∨ e = .nameTooLong := by
  have hw : ∀ (rest cur : List Seg) (e : StorageError), os.walkDirs hs cur rest = .error e →
      e = .notFound ∨ e = .notDirectory ∨ e = .permission ∨ e = .nameTooLong := by
    intro rest
    induction rest with
    | nil =>
      intro cur e h
      rw [walkDirs_nil] at h
      cases hg : hs.get cur with
      | none => simp [hg] at h; simp [← h]
      | some n =>
        cases n <;> simp [hg] at h
        simp [← h]
    | cons s rest ih =>
      intro cur e h
      rw [walkDirs_cons] at h
      cases hg : hs.get cur with
      | none => simp [hg] at h; simp [← h]
      | some n =>
        cases n with
        | file _ _ => simp [hg] at h; simp [← h]
        | dir m =>
          simp only [hg] at h
          split at h
          · cases h; simp
          · split at h
            · cases h; simp
            · exact ih _ _ h
  induction k using List.reverseRecOn with
  | nil =>
    rw [lookupLast_nil] at h
    cases hg : hs.get [] with
    | none => simp [hg] at h; simp [← h]
    | some n => simp [hg] at h
  | append_singleton A s _ =>
    rw [lookupLast_snoc] at h
    cases hwd : os.walkDirs hs [] A with
    | error e' =>
      simp only [hwd, os.Lookup.fail.injEq] at h
      rw [← h]
      exact hw _ _ _ hwd
    | ok m =>
      simp only [hwd] at h
      split at h
      · cases h; simp
      · split at h
        · cases h; simp
        · cases hg : hs.get (A ++ [s]) <;> simp [hg] at h

theorem pathErr_kind {p : Path} {e : StorageError} (h : os.pathErr p = some e) :
    e = .notFound ∨ e = .invalid ∨ e = .nameTooLong := by
  unfold os.pathErr at h
  split at h
  · cases h; simp
  · split at h
    · cases h; simp
    · split at h
      · cases h; simp
      · cases h

theorem os_Mkdir_ok {hs hs' : os.HostFS} {p : Path} {perm : FileMode}
    (h : os.Mkdir hs p perm = .ok hs') :
    os.pathErr p = none ∧ os.lookupLast hs (os.hostKey p) = .absent ∧
      os.writableAt hs (os.hostKey p).dropLast = true ∧
      hs' = hs.put (os.hostKey p) (.dir (hs.newMode perm)) := by
  unfold os.Mkdir at h
  cases hp : os.pathErr p with
  | some e => simp [hp] at h
  | none =>
    simp only [hp] at h
    cases hl : os.lookupLast hs (os.hostKey p) with
    | found n => simp [hl] at h
    | fail e => simp [hl] at h
    | absent =>
      simp only [hl] at h
      by_cases hw : os.writableAt hs (os.hostKey p).dropLast = true
      · simp only [hw, if_true, Except.ok.injEq] at h
        exact ⟨rfl, rfl, hw, h.symm⟩
      · simp [hw] at h

theorem os_Mkdir_alreadyExists (hs : os.HostFS) (p : Path) (perm : FileMode) :
    os.Mkdir hs p perm = .error .alreadyExists ↔
      (os.pathErr p = none ∧ ∃ n, os.lookupLast hs (os.hostKey p) = .found n) := by
  unfold os.Mkdir
  cases hp : os.pathErr p with
  | some e =>
    have := pathErr_kind hp
    simp only [Except.error.injEq]
    constructor
    · rintro rfl
      simp at this
    · rintro ⟨h, _⟩
      cases h
  | none =>
    simp only [true_and]
    cases hl : os.lookupLast hs (os.hostKey p) with
    | found n => simp
    | fail e =>
      have := lookupLast_fail_kind hl
      simp only [Except.error.injEq]
      constructor
      · rintro rfl
        simp at this
      · rintro ⟨n, h⟩
        cases h
    | absent =>
      simp only [exists_false, iff_false]
      by_cases hw : os.writableAt hs (os.hostKey p).dropLast = true <;> simp [hw]

theorem os_openTrunc_ok {hs hs' : os.HostFS} {p : Path} {rd : Bool} {perm : FileMode}
    {data : Bytes} (h : os.openTrunc hs p rd perm data = .ok hs') :
    os.pathErr p = none ∧
      (os.lookupLast hs (os.hostKey p) = .absent ∨
        ∃ n', os.lookupLast hs (os.hostKey p) = .found n') ∧
      ∃ m, hs' = hs.put (os.hostKey p) (.file m data) := by
  unfold os.openTrunc at h
  cases hp : os.pathErr p with
  | some e => simp [hp] at h
  | none =>
    simp only [hp] at h
    refine ⟨rfl, ?_⟩
    cases hl : os.lookupLast hs (os.hostKey p) with
    | found n =>
      cases n with
      | dir m => simp [hl] at h
      | file m d =>
        simp only [hl] at h
        split at h
        · cases h
          exact ⟨Or.inr ⟨_, rfl⟩, m, rfl⟩
        · cases h
    | fail e => simp [hl] at h
    | absent =>
      simp only [hl] at h
      split at h
      · cases h
        exact ⟨Or.inl rfl, _, rfl⟩
      · cases h

/-- After a successful write the lookup of the path finds the file with the
written bytes. -/
theorem os_openTrunc_found {hs hs' : os.HostFS} {p : Path} {rd : Bool} {perm : FileMode}
    {data : Bytes} (h : os.openTrunc hs p rd perm data = .ok hs') :
    os.pathErr p = none ∧ ∃ m, os.lookupLast hs' (os.hostKey p) = .found (.file m data) ∧
      hs' = hs.put (os.hostKey p) (.file m data) := by
  obtain ⟨hp, hl, m, rfl⟩ := os_openTrunc_ok h
  exact ⟨hp, m, lookupLast_put_self _ hl, rfl⟩

theorem os_Open_found_file {hs : os.HostFS} {p : Path} {m : FileMode} {d : Bytes}
    (hp : os.pathErr p = none) (h : os.lookupLast hs (os.hostKey p) = .found (.file m d)) :
    os.Open hs p = if hs.mayRead m then .ok (.file d) else .error .permission := by
  unfold os.Open
  simp only [hp, h]

theorem os_Open_found_dir {hs : os.HostFS} {p : Path} {m : FileMode}
    (hp : os.pathErr p = none) (h : os.lookupLast hs (os.hostKey p) = .found (.dir m)) :
    os.Open hs p = if hs.mayRead m then .ok .dir else .error .permission := by
  unfold os.Open
  simp only [hp, h]

/-- Under a usable root, nothing is found at a new name directly beneath. -/
theorem lookupLast_under_root {R : List Seg} {hs : os.HostFS} (h : os.UsableRoot R hs) (s : Seg)
    (hs' : byteLen s ≤ os.nameMax) :
    os.lookupLast hs (R ++ [s]) =
      match hs.get (R ++ [s]) with
      | some n => .found n
      | none => .absent := by
  obtain ⟨m, hw, hg⟩ := h
  rw [lookupLast_snoc, hw]
  have h1 : hs.maySearch m = true := by
    simp only [os.granted, Bool.and_eq_true] at hg
    exact hg.2
  have h2 : ¬ os.nameMax < byteLen s := Nat.not_lt.mpr hs'
  simp only [h1, h2, Bool.not_true, Bool.false_eq_true, if_false]

/-! ## Round trip (C1) -/

theorem walkDirs_of_lookupLast_dir {hs : os.HostFS} {A : List Seg} {m : FileMode}
    (h : os.lookupLast hs A = .found (.dir m)) : os.walkDirs hs [] A = .ok m := by
  induction A using List.reverseRecOn with
  | nil =>
    have := lookupLast_found_get h
    rw [walkDirs_nil, this]
  | append_singleton B t _ =>
    obtain ⟨hg, hlen, m', hw, hsr⟩ := lookupLast_found (by simp) h
    simp only [List.dropLast_concat, List.getLast_append_singleton] at hw hlen
    rw [walkDirs_snoc, hw, hg]
    simp [hsr, Nat.not_lt.mpr hlen]

theorem lookupLast_of_walkDirs {hs : os.HostFS} {A : List Seg} {m : FileMode}
    (h : os.walkDirs hs [] A = .ok m) : os.lookupLast hs A = .found (.dir m) := by
  have hg := walkDirs_ok_get h
  rw [List.nil_append] at hg
  induction A using List.reverseRecOn with
  | nil => rw [lookupLast_nil, hg]
  | append_singleton B t _ =>
    rw [walkDirs_snoc] at h
    rw [lookupLast_snoc]
    cases hw : os.walkDirs hs [] B with
    | error e => simp [hw] at h
    | ok m' =>
      simp only [hw] at h ⊢
      split at h
      · cases h
      · rename_i h1
        split at h
        · cases h
        · rename_i h2
          rw [if_neg h1, if_neg h2, hg]

/-- The parent is missing: the lookup fails with `ENOENT`. -/
theorem lookupLast_parent_absent {hs : os.HostFS} {k : List Seg} (hk : k ≠ [])
    (h : os.lookupLast hs k.dropLast = .absent) : os.lookupLast hs k = .fail .notFound := by
  induction k using List.reverseRecOn with
  | nil => exact absurd rfl hk
  | append_singleton A s _ =>
    rw [List.dropLast_concat] at h
    obtain ⟨hA, hg, hlen, m, hw, hsr⟩ := lookupLast_absent h
    have hwA : os.walkDirs hs [] A = .error .notFound := by
      induction A using List.reverseRecOn with
      | nil => exact absurd rfl hA
      | append_singleton B t _ =>
        simp only [List.dropLast_concat, List.getLast_append_singleton] at hw hlen
        rw [walkDirs_snoc, hw, hg]
        simp [hsr, Nat.not_lt.mpr hlen]
    rw [lookupLast_snoc, hwA]

/-- The parent is a regular file: the lookup fails with `ENOTDIR`. -/
theorem lookupLast_parent_file {hs : os.HostFS} {k : List Seg} (hk : k ≠ []) {m : FileMode}
    {d : Bytes} (h : os.lookupLast hs k.dropLast = .found (.file m d)) :
    os.lookupLast hs k = .fail .notDirectory := by
  induction k using List.reverseRecOn with
  | nil => exact absurd rfl hk
  | append_singleton A s _ =>
    rw [List.dropLast_concat] at h
    have hwA : os.walkDirs hs [] A = .error .notDirectory := by
      induction A using List.reverseRecOn with
      | nil =>
        have := lookupLast_found_get h
        rw [walkDirs_nil, this]
      | append_singleton B t _ =>
        obtain ⟨hg, hlen, m', hw, hsr⟩ := lookupLast_found (by simp) h
        simp only [List.dropLast_concat, List.getLast_append_singleton] at hw hlen
        rw [walkDirs_snoc, hw, hg]
        simp [hsr, Nat.not_lt.mpr hlen]
    rw [lookupLast_snoc, hwA]

theorem memory_writeEntry_ok {m m' : memory.Memory} {p : Path} {d : Bytes} {perm : FileMode}
    (h : memory.writeEntry m p d perm = .ok m') :
    m' = memory.put m p (.file d perm) ∧ memory.isDirAt m p = false ∧
      ∀ q, memory.parentOf p = some q → memory.isDirAt m q = true := by
  unfold memory.writeEntry at h
  have key : ∀ (hnd : memory.isDirAt m p = false),
      (match memory.parentOf p with
        | none => (Except.ok (memory.put m p (.file d perm)) : Except StorageError memory.Memory)
        | some q => if memory.isDirAt m q = true then .ok (memory.put m p (.file d perm))
            else .error .notFound) = .ok m' →
      m' = memory.put m p (.file d perm) ∧ memory.isDirAt m p = false ∧
        ∀ q, memory.parentOf p = some q → memory.isDirAt m q = true := by
    intro hnd h
    cases hq : memory.parentOf p with
    | none =>
      simp only [hq, Except.ok.injEq] at h
      exact ⟨h.symm, hnd, by simp⟩
    | some q =>
      simp only [hq] at h
      by_cases hd : memory.isDirAt m q = true
      · simp only [hd, if_true, Except.ok.injEq] at h
        exact ⟨h.symm, hnd, by intro q' e; cases e; exact hd⟩
      · simp [hd] at h
  cases hm : m p with
  | none =>
    simp only [hm] at h
    exact key (by simp [memory.isDirAt, hm]) h
  | some e =>
    cases e with
    | dir md => simp [hm] at h
    | file fd fm =>
      simp only [hm] at h
      exact key (by simp [memory.isDirAt, hm]) h

/-! ## Round trip and failing reads -/

/-- C1 (as stated, refuted): on an OS-backed store rooted at the empty
directory `/tmp`, writing `a/b` fails because the directory `a` is missing,
and reading the same path back fails as well. -/
theorem roundtrip_fails_without_parent :
    (osStorage (osfs.NewOSFS "/tmp".toList)).WriteFile (os.freshHost "/tmp".toList)
      "a/b".toList [104, 105] 0o644 = .error .notFound ∧
    ReadFile (osStorage (osfs.NewOSFS "/tmp".toList)) (os.freshHost "/tmp".toList)
      "a/b".toList = .error .notFound := by
  exact ⟨by decide, by decide⟩

/-- C1 (amended): whenever `WriteFile(store, P, B, mode)` returns no error,
the file at `P` holds exactly `B`, and `ReadFile(store, P)` afterwards
returns `B` with no error, provided, on the OS-backed store, that the caller
may read the file (it is privileged or the owner read bit of the file's mode
is set); if not, `ReadFile` fails with `EACCES`.  On the OS-backed store both
calls address the host path `filepath.Join(root, P)`; `WriteFile` succeeds
there when the host path passes the checks on a path and either nothing is
at its last element, in a directory the caller may search and write, or a
regular file the caller may write is there; a new file gets the bits of
`mode` the umask leaves. -/
theorem roundtrip_after_successful_write :
    (∀ (m m' : memory.Memory) (p : Path) (b : Bytes) (perm : FileMode),
      memoryStorage.WriteFile m p b perm = .ok m' → ReadFile memoryStorage m' p = .ok b) ∧
    (∀ (o : osfs.OSFS) (hs hs' : os.HostFS) (p : Path) (b : Bytes) (perm : FileMode),
      (osStorage o).WriteFile hs p b perm = .ok hs' →
        ∃ mode, hs'.get (os.hostKey (o.hostPath p)) = some (os.Node.file mode b) ∧
          (hs'.mayRead mode = true → ReadFile (osStorage o) hs' p = .ok b) ∧
          (hs'.mayRead mode = false → ReadFile (osStorage o) hs' p = .error .permission)) ∧
    (∀ (o : osfs.OSFS) (hs : os.HostFS) (p : Path) (b : Bytes) (perm : FileMode),
      (osStorage o).WriteFile hs p b perm =
          os.WriteFile hs (filepath.Join [o.rootDir, p]) b perm ∧
        (osStorage o).Open hs p = os.Open hs (filepath.Join [o.rootDir, p])) ∧
    (∀ (o : osfs.OSFS) (hs : os.HostFS) (p : Path) (b : Bytes) (perm : FileMode),
      os.pathErr (o.hostPath p) = none →
      os.lookupLast hs (os.hostKey (o.hostPath p)) = .absent →
      os.writableAt hs (os.hostKey (o.hostPath p)).dropLast = true →
        (osStorage o).WriteFile hs p b perm
          = .ok (hs.put (os.hostKey (o.hostPath p)) (.file (hs.newMode perm) b))) ∧
    (∀ (o : osfs.OSFS) (hs : os.HostFS) (p : Path) (b d : Bytes) (perm mode : FileMode),
      os.pathErr (o.hostPath p) = none →
      os.lookupLast hs (os.hostKey (o.hostPath p)) = .found (.file mode d) →
      hs.mayWrite mode = true →
        (osStorage o).WriteFile hs p b perm
          = .ok (hs.put (os.hostKey (o.hostPath p)) (.file mode b))) := by
  refine ⟨?_, ?_, ?_, ?_, ?_⟩
  · intro m m' p b perm h
    obtain ⟨rfl, _, _⟩ := memory_writeEntry_ok h
    simp [ReadFile, memoryStorage, memory.Open, memory.put, Handle.readAll]
  · intro o hs hs' p b perm h
    have h' : os.openTrunc hs (filepath.Join [o.rootDir, p]) false perm b = .ok hs' := h
    obtain ⟨hp, mode, hl, rfl⟩ := os_openTrunc_found h'
    refine ⟨mode, ?_, ?_, ?_⟩
    · unfold osfs.OSFS.hostPath
      rw [get_put, if_pos rfl]
    · intro hr
      simp only [ReadFile, osStorage, osfs.OSFS.Open]
      rw [os_Open_found_file hp hl, if_pos hr]
      rfl
    · intro hr
      simp only [ReadFile, osStorage, osfs.OSFS.Open]
      rw [os_Open_found_file hp hl, hr]
      rfl
  · intro o hs p b perm
    exact ⟨rfl, rfl⟩
  · intro o hs p b perm hp hl hw
    unfold osfs.OSFS.hostPath at hp hl hw ⊢
    simp only [osStorage, osfs.OSFS.WriteFile, os.WriteFile, os.openTrunc, hp, hl, hw, if_true]
  · intro o hs p b d perm mode hp hl hw
    unfold osfs.OSFS.hostPath at hp hl ⊢
    simp only [osStorage, osfs.OSFS.WriteFile, os.WriteFile, os.openTrunc, hp, hl, hw,
      Bool.not_false, Bool.true_or, Bool.and_self, if_true]

/-- Witness for C1: writing and reading back `test.txt` on the fresh
OS-backed store rooted at `/tmp` and on the empty in-memory store. -/
theorem roundtrip_after_successful_write_witness :
    (∃ hs, (osStorage (osfs.NewOSFS "/tmp".toList)).WriteFile (os.freshHost "/tmp".toList)
        "test.txt".toList [104, 105] 0o644 = .ok hs ∧
      ReadFile (osStorage (osfs.NewOSFS "/tmp".toList)) hs "test.txt".toList = .ok [104, 105]) ∧
    (∃ m, memoryStorage.WriteFile memory.NewMemory "test.txt".toList [104, 105] 0o644 = .ok m ∧
      ReadFile memoryStorage m "test.txt".toList = .ok [104, 105]) := by
  refine ⟨⟨_, rfl, ?_⟩, ⟨_, rfl, ?_⟩⟩
  · obtain ⟨mode, hg, hr, _⟩ := roundtrip_after_successful_write.2.1 (osfs.NewOSFS "/tmp".toList)
      (os.freshHost "/tmp".toList) _ "test.txt".toList [104, 105] 0o644 rfl
    apply hr
    have : mode = 0o644 := by
      have h2 : (os.Node.file mode [104, 105]) = os.Node.file 0o644 [104, 105] :=
        Option.some.inj (hg.symm.trans (by decide))
      cases h2
      rfl
    rw [this]
    rfl
  · exact roundtrip_after_successful_write.1 memory.NewMemory _ "test.txt".toList [104, 105]
      0o644 rfl

/-! ## Reading absent names and directories (C9) -/

/-- In a fresh store nothing exists at a top-level name. -/
theorem OSFS_lookup_fresh {R : List Seg} (hR : ∀ s ∈ R, ProperSeg s) {hs : os.HostFS}
    (hfresh : os.EmptyRoot R hs) {s : Seg} (hs' : HostName s) :
    os.hostKey ((osfs.NewOSFS (rootPath R)).hostPath s) = R ++ [s] ∧
      os.lookupLast hs (R ++ [s]) = .absent ∧ os.writableAt hs R = true := by
  have hc : CleanRel s := by
    intro x hx
    rw [splitSep_of_not_mem hs'.1.2.2.2] at hx
    simp only [List.mem_singleton] at hx
    rw [hx]
    exact hs'.1
  refine ⟨?_, ?_, ?_⟩
  · unfold osfs.OSFS.hostPath osfs.NewOSFS
    rw [hostKey_Join_cleanRel hR hc, splitSep_of_not_mem hs'.1.2.2.2]
  · rw [lookupLast_under_root hfresh.1 s hs'.2, hfresh.2 [s] (by simp)]
  · obtain ⟨m, hw, hg⟩ := hfresh.1
    have := walkDirs_ok_get hw
    rw [List.nil_append] at this
    simp only [os.granted, Bool.and_eq_true] at hg
    simp [os.writableAt, this, hg.1.2]

/-- C9 (as stated, refuted): on the OS-backed store `Open` of an existing
directory returns a handle, not an error (here the directory `a` made by
`Mkdir` under the root `/tmp`); the error only arises when the handle is
read, so `ReadFile` fails with "is a directory". -/
theorem OSFS_Open_directory_succeeds :
    ∃ hs, (osStorage (osfs.NewOSFS "/tmp".toList)).Mkdir (os.freshHost "/tmp".toList)
        "a".toList 0o755 = .ok hs ∧
      (osStorage (osfs.NewOSFS "/tmp".toList)).Stat hs "a".toList
        = .ok ⟨"a".toList, none, true⟩ ∧
      (osStorage (osfs.NewOSFS "/tmp".toList)).Open hs "a".toList = .ok Handle.dir ∧
      ReadFile (osStorage (osfs.NewOSFS "/tmp".toList)) hs "a".toList = .error .isDirectory := by
  exact ⟨_, rfl, by decide, by decide, by decide⟩

/-- C9 (amended): `ReadFile(store, p)` returns an error and no bytes whenever
`p` does not exist or names a directory, on both backends.  `Open` itself
fails when `p` does not exist (both backends) and, on the in-memory store,
when `p` names a directory; on the OS-backed store `Open` of a directory
that the lookup of the host path finds and the caller may read returns a
handle, and the read step fails.  `ReadFile(store, "missing.txt")` on a fresh
store of either backend (OS-backed: a usable, empty root directory with an
absolute clean path, the host path passing the checks on a path) returns
the not-found error. -/
theorem ReadFile_fails_on_absent_and_directory :
    (∀ (m : memory.Memory) (p : Path), (m p = none ∨ memory.isDirAt m p = true) →
      memoryStorage.Open m p = .error .notFound ∧
        ReadFile memoryStorage m p = .error .notFound) ∧
    (∀ (o : osfs.OSFS) (hs : os.HostFS) (p : Path), hs.get (os.hostKey (o.hostPath p)) = none →
      ∃ e, (osStorage o).Open hs p = .error e ∧ ReadFile (osStorage o) hs p = .error e) ∧
    (∀ (o : osfs.OSFS) (hs : os.HostFS) (p : Path),
      os.isDirAt hs (os.hostKey (o.hostPath p)) = true →
        ∃ e, ReadFile (osStorage o) hs p = .error e) ∧
    (∀ (o : osfs.OSFS) (hs : os.HostFS) (p : Path) (mode : FileMode),
      os.pathErr (o.hostPath p) = none →
      os.lookupLast hs (os.hostKey (o.hostPath p)) = .found (.dir mode) →
      hs.mayRead mode = true →
        (osStorage o).Open hs p = .ok Handle.dir ∧
          ReadFile (osStorage o) hs p = .error .isDirectory) ∧
    ReadFile memoryStorage memory.NewMemory "missing.txt".toList = .error .notFound ∧
    (∀ (R : List Seg) (hs : os.HostFS), (∀ s ∈ R, ProperSeg s) → os.EmptyRoot R hs →
      os.pathErr ((osfs.NewOSFS (rootPath R)).hostPath "missing.txt".toList) = none →
      ReadFile (osStorage (osfs.NewOSFS (rootPath R))) hs "missing.txt".toList
        = .error .notFound) := by
  refine ⟨?_, ?_, ?_, ?_, by decide, ?_⟩
  · intro m p h
    have : memory.Open m p = .error .notFound := by
      unfold memory.Open
      rcases h with h | h
      · simp [h]
      · unfold memory.isDirAt at h
        cases hm : m p with
        | none => rfl
        | some e => cases e <;> simp_all
    exact ⟨this, by simp [ReadFile, memoryStorage, this]⟩
  · intro o hs p h
    unfold osfs.OSFS.hostPath at h
    have hopen : ∃ e, os.Open hs (filepath.Join [o.rootDir, p]) = .error e := by
      unfold os.Open
      cases hp : os.pathErr (filepath.Join [o.rootDir, p]) with
      | some e => exact ⟨e, rfl⟩
      | none =>
        cases hl : os.lookupLast hs (os.hostKey (filepath.Join [o.rootDir, p])) with
        | found n => exact absurd hl (lookupLast_get_none h n)
        | absent => exact ⟨_, rfl⟩
        | fail e => exact ⟨e, rfl⟩
    obtain ⟨e, he⟩ := hopen
    exact ⟨e, he, by simp [ReadFile, osStorage, osfs.OSFS.Open, he]⟩
  · intro o hs p h
    unfold osfs.OSFS.hostPath at h
    obtain ⟨mode, hg⟩ := isDirAt_iff.mp h
    simp only [ReadFile, osStorage, osfs.OSFS.Open, os.Open]
    cases hp : os.pathErr (filepath.Join [o.rootDir, p]) with
    | some e => exact ⟨e, rfl⟩
    | none =>
      cases hl : os.lookupLast hs (os.hostKey (filepath.Join [o.rootDir, p])) with
      | found n =>
        have := lookupLast_found_get hl
        rw [hg] at this
        cases this
        simp only
        by_cases hr : hs.mayRead mode = true
        · exact ⟨.isDirectory, by simp [hr, Handle.readAll]⟩
        · exact ⟨.permission, by simp [hr]⟩
      | absent => exact ⟨_, rfl⟩
      | fail e => exact ⟨e, rfl⟩
  · intro o hs p mode hp hl hr
    unfold osfs.OSFS.hostPath at hp hl
    have : os.Open hs (filepath.Join [o.rootDir, p]) = .ok Handle.dir := by
      rw [os_Open_found_dir hp hl, if_pos hr]
    exact ⟨this, by simp [ReadFile, osStorage, osfs.OSFS.Open, this, Handle.readAll]⟩
  · intro R hs hR hfresh hp
    obtain ⟨hk, hl, _⟩ := OSFS_lookup_fresh hR hfresh (s := "missing.txt".toList) (by decide)
    unfold osfs.OSFS.hostPath osfs.NewOSFS at hp hk
    simp only [ReadFile, osStorage, osfs.OSFS.Open, osfs.NewOSFS, os.Open, hp, hk, hl]

/-- Witness for C9: on the fresh OS-backed store rooted at `/tmp`,
`ReadFile("missing.txt")` is the not-found error; on the in-memory store
holding the directory `a`, `Open("a")` and `ReadFile("a")` fail. -/
theorem ReadFile_fails_on_absent_and_directory_witness :
    ReadFile (osStorage (osfs.NewOSFS "/tmp".toList)) (os.freshHost "/tmp".toList)
      "missing.txt".toList = .error .notFound ∧
    memoryStorage.Open (memory.put memory.NewMemory "a".toList (.dir 0o755)) "a".toList
      = .error .notFound ∧
    ReadFile memoryStorage (memory.put memory.NewMemory "a".toList (.dir 0o755)) "a".toList
      = .error .notFound :=
  ⟨ReadFile_fails_on_absent_and_directory.2.2.2.2.2 ["tmp".toList] (os.freshHost "/tmp".toList)
      (by decide) (EmptyRoot_freshHost (R := ["tmp".toList]) (by decide)) (by decide),
    ReadFile_fails_on_absent_and_directory.1
      (memory.put memory.NewMemory "a".toList (.dir 0o755)) "a".toList (Or.inr (by decide))⟩

/-! ## Single-level `Mkdir` -/

/-- C10 (as stated, refuted): on the OS-backed store rooted at `/tmp`, once
the regular file `f` exists, `Mkdir("f/x")` finds that its immediate parent
is not a directory and fails with "not a directory", which is not the
not-found error. -/
theorem OSFS_Mkdir_under_file_not_notFound :
    ∃ hs, (osStorage (osfs.NewOSFS "/tmp".toList)).WriteFile (os.freshHost "/tmp".toList)
        "f".toList [1] 0o644 = .ok hs ∧
      (osStorage (osfs.NewOSFS "/tmp".toList)).Stat hs "f".toList
        = .ok ⟨"f".toList, some 1, false⟩ ∧
      (osStorage (osfs.NewOSFS "/tmp".toList)).Stat hs "f/x".toList = .error .notDirectory ∧
      (osStorage (osfs.NewOSFS "/tmp".toList)).Mkdir hs "f/x".toList 0o755
        = .error .notDirectory := by
  exact ⟨_, rfl, by decide, by decide, by decide⟩

/-- C10 (amended): `mkdir(p, m)` is single-level on both backends.  It fails
with the already-exists error if an entry exists at `p`; otherwise it fails
if the immediate parent of `p` is not an existing directory, with the
not-found error on the in-memory store, and on the OS-backed store with the
host's error: not-found when the parent is missing, "not a directory" when
the parent is a regular file; otherwise, on the OS-backed store if the
caller may write the parent (`EACCES` if not), it succeeds, `p` is a
directory afterwards and every other entry is unchanged.  On the OS-backed
store `p` stands for the host path `filepath.Join(root, p)`, which has to
pass the checks on a path, and existence is what the lookup of the host
path finds.  A top-level `mkdir` on a fresh store succeeds on both
backends. -/
theorem Mkdir_single_level :
    (∀ (m : memory.Memory) (p : Path) (perm : FileMode),
      (m p ≠ none → memoryStorage.Mkdir m p perm = .error .alreadyExists) ∧
      (m p = none → ∀ q, memory.parentOf p = some q → memory.isDirAt m q = false →
        memoryStorage.Mkdir m p perm = .error .notFound) ∧
      (m p = none → (∀ q, memory.parentOf p = some q → memory.isDirAt m q = true) →
        ∃ m', memoryStorage.Mkdir m p perm = .ok m' ∧ m' p = some (memory.Entry.dir perm) ∧
          memoryStorage.Stat m' p = .ok ⟨baseName p, some 0, true⟩ ∧
          ∀ q, q ≠ p → m' q = m q) ∧
      (memory.parentOf p = none →
        succeeded (memoryStorage.Mkdir memory.NewMemory p perm) = true)) ∧
    (∀ (o : osfs.OSFS) (hs : os.HostFS) (p : Path) (perm : FileMode),
      os.pathErr (o.hostPath p) = none →
      (osStorage o).Mkdir hs p perm = os.Mkdir hs (filepath.Join [o.rootDir, p]) perm ∧
      (∀ n, os.lookupLast hs (os.hostKey (o.hostPath p)) = .found n →
        (osStorage o).Mkdir hs p perm = .error .alreadyExists) ∧
      (os.hostKey (o.hostPath p) ≠ [] →
        os.lookupLast hs (os.hostKey (o.hostPath p)).dropLast = .absent →
        (osStorage o).Mkdir hs p perm = .error .notFound) ∧
      (os.hostKey (o.hostPath p) ≠ [] →
        (∀ mode d, os.lookupLast hs (os.hostKey (o.hostPath p)).dropLast
            = .found (.file mode d) →
          (osStorage o).Mkdir hs p perm = .error .notDirectory)) ∧
      (os.lookupLast hs (os.hostKey (o.hostPath p)) = .absent →
        os.writableAt hs (os.hostKey (o.hostPath p)).dropLast = false →
        (osStorage o).Mkdir hs p perm = .error .permission) ∧
      (os.lookupLast hs (os.hostKey (o.hostPath p)) = .absent →
        os.writableAt hs (os.hostKey (o.hostPath p)).dropLast = true →
        ∃ hs', (osStorage o).Mkdir hs p perm = .ok hs' ∧
          hs'.get (os.hostKey (o.hostPath p)) = some (os.Node.dir (hs.newMode perm)) ∧
          (osStorage o).Stat hs' p = .ok ⟨os.basename (o.hostPath p), none, true⟩ ∧
          ∀ a, a ≠ os.hostKey (o.hostPath p) → hs'.get a = hs.get a)) ∧
    (∀ (R : List Seg) (hs : os.HostFS) (s : Seg) (perm : FileMode),
      (∀ x ∈ R, ProperSeg x) → os.EmptyRoot R hs → HostName s →
      os.pathErr ((osfs.NewOSFS (rootPath R)).hostPath s) = none →
        succeeded ((osStorage (osfs.NewOSFS (rootPath R))).Mkdir hs s perm) = true) := by
  refine ⟨?_, ?_, ?_⟩
  · intro m p perm
    refine ⟨?_, ?_, ?_, ?_⟩
    · intro h
      cases hm : m p with
      | none => exact absurd hm h
      | some e => simp [memoryStorage, memory.Mkdir, hm]
    · intro h q hq hd
      simp [memoryStorage, memory.Mkdir, h, hq, hd]
    · intro h hpar
      have hok : memory.Mkdir m p perm = .ok (memory.put m p (.dir perm)) := by
        unfold memory.Mkdir
        simp only [h]
        cases hq : memory.parentOf p with
        | none => rfl
        | some q => simp [hpar q hq]
      refine ⟨_, hok, by simp [memory.put], ?_, ?_⟩
      · simp [memoryStorage, memory.Stat, memory.put]
      · intro q hq
        simp [memory.put, hq]
    · intro h
      simp [memoryStorage, memory.Mkdir, memory.NewMemory, h, succeeded]
  · intro o hs p perm hp
    unfold osfs.OSFS.hostPath at hp ⊢
    refine ⟨rfl, ?_, ?_, ?_, ?_, ?_⟩
    · intro n hl
      simp only [osStorage, osfs.OSFS.Mkdir, os.Mkdir, hp, hl]
    · intro hk hl
      simp only [osStorage, osfs.OSFS.Mkdir, os.Mkdir, hp, lookupLast_parent_absent hk hl]
    · intro hk mode d hl
      simp only [osStorage, osfs.OSFS.Mkdir, os.Mkdir, hp, lookupLast_parent_file hk hl]
    · intro hl hw
      simp [osStorage, osfs.OSFS.Mkdir, os.Mkdir, hp, hl, hw]
    · intro hl hw
      have hok : os.Mkdir hs (filepath.Join [o.rootDir, p]) perm = .ok
          (hs.put (os.hostKey (filepath.Join [o.rootDir, p])) (.dir (hs.newMode perm))) := by
        simp only [os.Mkdir, hp, hl, hw, if_true]
      refine ⟨_, hok, by rw [get_put, if_pos rfl], ?_, ?_⟩
      · simp only [osStorage, osfs.OSFS.Stat, os.Stat, hp,
          lookupLast_put_self (os.Node.dir (hs.newMode perm)) (Or.inl hl)]
      · intro a ha
        rw [get_put, if_neg ha]
  · intro R hs s perm hR hfresh hs' hp
    obtain ⟨hk, hl, hw⟩ := OSFS_lookup_fresh hR hfresh hs'
    unfold osfs.OSFS.hostPath osfs.NewOSFS at hp hk
    have hw' : os.writableAt hs (R ++ [s]).dropLast = true := by simpa using hw
    simp only [osStorage, osfs.OSFS.Mkdir, osfs.NewOSFS, os.Mkdir, hp, hk, hl, hw', if_true,
      succeeded]

/-- Witness for C10: `Mkdir("existing")` succeeds on the fresh OS-backed
store rooted at `/tmp` and on the empty in-memory store, where `Mkdir("a/b")`
fails with the not-found error. -/
theorem Mkdir_single_level_witness :
    succeeded ((osStorage (osfs.NewOSFS "/tmp".toList)).Mkdir (os.freshHost "/tmp".toList)
      "existing".toList 0o755) = true ∧
    (∃ m', memoryStorage.Mkdir memory.NewMemory "existing".toList 0o755 = .ok m' ∧
      memoryStorage.Stat m' "existing".toList = .ok ⟨"existing".toList, some 0, true⟩) ∧
    memoryStorage.Mkdir memory.NewMemory "a/b".toList 0o755 = .error .notFound := by
  have h := Mkdir_single_level.1 memory.NewMemory
  refine ⟨?_, ?_, ?_⟩
  · exact Mkdir_single_level.2.2 ["tmp".toList] (os.freshHost "/tmp".toList) "existing".toList
      0o755 (by decide) (EmptyRoot_freshHost (R := ["tmp".toList]) (by decide)) (by decide)
      (by decide)
  · obtain ⟨m', h1, _, h3, _⟩ := (h "existing".toList 0o755).2.2.1 rfl (by decide)
    exact ⟨m', h1, h3⟩
  · exact (h "a/b".toList 0o755).2.1 rfl "a".toList (by decide) (by decide)

/-! ## Paths of the form `rootPath K` -/

theorem byteLen_append (a b : List Char) : byteLen (a ++ b) = byteLen a + byteLen b := by
  simp [byteLen]

theorem byteLen_cons (c : Char) (a : List Char) : byteLen (c :: a) = c.utf8Size + byteLen a := by
  simp [byteLen]

theorem rootPath_snoc (A : List Seg) (s : Seg) :
    rootPath (A ++ [s]) = if A = [] then '/' :: s else rootPath A ++ '/' :: s := by
  unfold rootPath
  by_cases hA : A = []
  · subst hA
    simp [joinSep]
  · rw [if_neg hA, joinSep_snoc hA]
    rfl

/-- The checks on a path that `rootPath (A ++ [s])` passes are passed by
`rootPath A`, and `s` holds no NUL byte. -/
theorem pathErr_rootPath_snoc {A : List Seg} {s : Seg}
    (h : os.pathErr (rootPath (A ++ [s])) = none) :
    os.pathErr (rootPath A) = none ∧ Char.ofNat 0 ∉ s := by
  unfold os.pathErr at h ⊢
  split at h
  · cases h
  · split at h
    · cases h
    · rename_i hnul
      split at h
      · cases h
      · rename_i hlen
        rw [rootPath_snoc] at hnul hlen
        by_cases hA : A = []
        · subst hA
          simp only [if_true] at hnul hlen
          refine ⟨?_, fun hc => hnul (List.mem_cons_of_mem _ hc)⟩
          have h1 : rootPath [] = ['/'] := rfl
          have h2 : ¬ Char.ofNat 0 ∈ ['/'] := by decide
          have h3 : ¬ os.pathMax ≤ byteLen ['/'] := by decide
          simp [h1, h2, h3]
        · simp only [if_neg hA] at hnul hlen
          refine ⟨?_, fun hc => hnul (by simp [hc])⟩
          have h1 : rootPath A ≠ [] := by simp [rootPath]
          have h2 : ¬ Char.ofNat 0 ∈ rootPath A := fun hc => hnul (by simp [hc])
          have h3 : ¬ os.pathMax ≤ byteLen (rootPath A) := by
            rw [byteLen_append] at hlen
            omega
          simp [h1, h2, h3]

theorem pathErr_rootPath_prefix {K : List Seg} (h : os.pathErr (rootPath K) = none) :
    ∀ A, A <+: K → os.pathErr (rootPath A) = none := by
  induction K using List.reverseRecOn with
  | nil =>
    intro A hA
    rw [List.prefix_nil.mp hA]
    exact h
  | append_singleton K s ih =>
    intro A hA
    rcases List.prefix_concat_iff.mp hA with e | hA'
    · rw [e]; exact h
    · exact ih (pathErr_rootPath_snoc h).1 A hA'

theorem dropWhile_sep_of_proper {s : Seg} (hs : ProperSeg s) (rest : List Char) :
    (s ++ rest).dropWhile (fun c => decide (c = '/')) = s ++ rest := by
  cases s with
  | nil => exact absurd rfl hs.1
  | cons c cs =>
    have hc : c ≠ '/' := fun e => hs.2.2.2 (by simp [e])
    simp [List.dropWhile, hc]

theorem joinSep_cons_eq (s : Seg) (T : List Seg) :
    ∃ rest, joinSep (s :: T) = s ++ rest := by
  cases T with
  | nil => exact ⟨[], by simp [joinSep]⟩
  | cons t T => exact ⟨'/' :: joinSep (t :: T), rfl⟩

theorem joinSep_snoc_eq (A : List Seg) (s : Seg) :
    ∃ pre, joinSep (A ++ [s]) = pre ++ s := by
  by_cases hA : A = []
  · subst hA
    exact ⟨[], by simp [joinSep]⟩
  · exact ⟨joinSep A ++ ['/'], by rw [joinSep_snoc hA]; simp⟩

theorem reverse_dropWhile_sep_of_proper {s : Seg} (hs : ProperSeg s) (pre : List Char) :
    ((pre ++ s).reverse.dropWhile (fun c => decide (c = '/'))).reverse = pre ++ s := by
  obtain ⟨s', c, rfl⟩ : ∃ s' c, s = s' ++ [c] := by
    refine ⟨s.dropLast, s.getLast hs.1, ?_⟩
    exact (List.dropLast_append_getLast hs.1).symm
  have hc : c ≠ '/' := fun e => hs.2.2.2 (by simp [e])
  simp [List.dropWhile, hc]

theorem baseName_rootPath_snoc {A : List Seg} {s : Seg} (hK : ∀ x ∈ A ++ [s], ProperSeg x) :
    baseName (rootPath (A ++ [s])) = s := by
  unfold baseName rootPath
  rw [splitSep_cons_sep, splitSep_joinSep (by simp) (fun x hx => (hK x hx).2.2.2)]
  have : (([] : Seg) :: (A ++ [s])) = ([] :: A) ++ [s] := rfl
  rw [this, List.getLast?_append]
  rfl

/-- `splitPath` on an absolute clean path: the path without its last
element, and that element. -/
theorem splitPath_rootPath {A : List Seg} {s : Seg} (hK : ∀ x ∈ A ++ [s], ProperSeg x) :
    os.splitPath (rootPath (A ++ [s])) = (rootPath A, s) := by
  have hs : ProperSeg s := hK s (by simp)
  have hne : A ++ [s] ≠ [] := by simp
  obtain ⟨first, T, hT⟩ : ∃ first T, A ++ [s] = first :: T := by
    cases h : A ++ [s] with
    | nil => exact absurd h hne
    | cons f T => exact ⟨f, T, rfl⟩
  have hfirst : ProperSeg first := hK first (by rw [hT]; simp)
  obtain ⟨rest, hrest⟩ := joinSep_cons_eq first T
  obtain ⟨pre, hpre⟩ := joinSep_snoc_eq A s
  have hq1 : (joinSep (A ++ [s])).dropWhile (fun c => decide (c = '/')) = joinSep (A ++ [s]) := by
    rw [hT, hrest]
    exact dropWhile_sep_of_proper hfirst rest
  have hq2 : ((joinSep (A ++ [s])).reverse.dropWhile (fun c => decide (c = '/'))).reverse
      = joinSep (A ++ [s]) := by
    rw [hpre]
    exact reverse_dropWhile_sep_of_proper hs pre
  have hjne : joinSep (A ++ [s]) ≠ [] := joinSep_snoc_ne_nil A hs.1
  have hq : ¬ ((('/' :: joinSep (A ++ [s])) = ['/']) ∨ '/' ∉ ('/' :: joinSep (A ++ [s]))) := by
    simp [hjne]
  have hb := baseName_rootPath_snoc hK
  unfold rootPath at hb
  unfold os.splitPath
  simp only [rootPath, hq1, hq2, if_neg hq, hb]
  by_cases hA : A = []
  · subst hA
    simp [joinSep]
  · have hlen : ('/' :: joinSep (A ++ [s])).length - s.length - 1 = ('/' :: joinSep A).length := by
      rw [joinSep_snoc hA]
      simp
      omega
    rw [hlen, joinSep_snoc hA]
    have ht : List.take ('/' :: joinSep A).length ('/' :: (joinSep A ++ '/' :: s))
        = '/' :: joinSep A := by
      have : '/' :: (joinSep A ++ '/' :: s) = ('/' :: joinSep A) ++ '/' :: s := rfl
      rw [this, List.take_left']
      rfl
    rw [ht]
    simp

theorem cleanSegs_single {P : List Seg} {s : Seg} (hs : ProperSeg s) :
    filepath.cleanSegs true P s = P ++ [s] := by
  have := @cleanSegs_joinSep true P [s] (by simpa using hs)
  simpa [joinSep] using this

/-! ## `RemoveAll` on the host -/

theorem os_Remove_fail {hs : os.HostFS} {p : Path} {e : StorageError}
    (hp : os.pathErr p = none) (hl : os.lookupLast hs (os.hostKey p) = .fail e) :
    os.Remove hs p = (hs, some e) := by
  simp only [os.Remove, hp, hl]

theorem os_Remove_absent {hs : os.HostFS} {p : Path}
    (hp : os.pathErr p = none) (hl : os.lookupLast hs (os.hostKey p) = .absent) :
    os.Remove hs p = (hs, some .notFound) := by
  simp only [os.Remove, hp, hl]

theorem os_Remove_file {hs : os.HostFS} {p : Path} {m : FileMode} {d : Bytes}
    (hp : os.pathErr p = none) (hl : os.lookupLast hs (os.hostKey p) = .found (.file m d))
    (hw : os.writableAt hs (os.hostKey p).dropLast = true) :
    os.Remove hs p = (hs.erase (os.hostKey p), none) := by
  simp only [os.Remove, hp, hl, hw, if_true]

theorem os_Remove_emptyDir {hs : os.HostFS} {p : Path} {m : FileMode}
    (hp : os.pathErr p = none) (hl : os.lookupLast hs (os.hostKey p) = .found (.dir m))
    (hk : os.hostKey p ≠ []) (hw : os.writableAt hs (os.hostKey p).dropLast = true)
    (hc : os.hasChild hs (os.hostKey p) = false) :
    os.Remove hs p = (hs.erase (os.hostKey p), none) := by
  simp [os.Remove, hp, hl, hw, hk, hc]

theorem os_Remove_fullDir {hs : os.HostFS} {p : Path} {m : FileMode}
    (hp : os.pathErr p = none) (hl : os.lookupLast hs (os.hostKey p) = .found (.dir m))
    (hk : os.hostKey p ≠ []) (hw : os.writableAt hs (os.hostKey p).dropLast = true)
    (hc : os.hasChild hs (os.hostKey p) = true) :
    os.Remove hs p = (hs, some .notEmpty) := by
  simp [os.Remove, hp, hl, hw, hk, hc]

theorem os_RemoveAll_of_Remove_ok {hs hs' : os.HostFS} {p : Path} (hne : p ≠ [])
    (hdot : os.endsWithDot p = false) (h : os.Remove hs p = (hs', none)) :
    os.RemoveAll hs p = (hs', none) := by
  simp only [os.RemoveAll, if_neg hne, hdot, h, Bool.false_eq_true, if_false]

theorem os_RemoveAll_of_Remove_notFound {hs hs' : os.HostFS} {p : Path} (hne : p ≠ [])
    (hdot : os.endsWithDot p = false) (h : os.Remove hs p = (hs', some .notFound)) :
    os.RemoveAll hs p = (hs, none) := by
  simp only [os.RemoveAll, if_neg hne, hdot, h, Bool.false_eq_true, if_false]

theorem os_RemoveAll_of_Remove_err {hs hs' : os.HostFS} {p : Path} {e : StorageError}
    {h0 : Handle} (hne : p ≠ [])
    (hdot : os.endsWithDot p = false) (h : os.Remove hs p = (hs', some e)) (he : e ≠ .notFound)
    (hopen : os.Open hs (os.splitPath p).1 = .ok h0) :
    os.RemoveAll hs p = os.removeAllFrom hs (os.hostKey (os.splitPath p).1) (os.splitPath p).2 := by
  simp only [os.RemoveAll, if_neg hne, hdot, h, Bool.false_eq_true, if_false]
  cases e <;> first | exact absurd rfl he | simp only [hopen]

/-- The lookup of `k` finds nothing, or fails with `ENOENT`, and so does
the lookup of everything beneath. -/
theorem lookupLast_gone_append {hs : os.HostFS} {k : List Seg}
    (h : os.lookupLast hs k = .absent ∨ os.lookupLast hs k = .fail .notFound) :
    ∀ X : List Seg, os.lookupLast hs (k ++ X) = .absent ∨
      os.lookupLast hs (k ++ X) = .fail .notFound := by
  intro X
  induction X using List.reverseRecOn with
  | nil => simpa using h
  | append_singleton X x ih =>
    right
    have hk : k ++ (X ++ [x]) ≠ [] := by simp
    have hd : (k ++ (X ++ [x])).dropLast = k ++ X := by
      rw [← List.append_assoc, List.dropLast_concat]
    rcases ih with ih | ih
    · exact lookupLast_parent_absent hk (by rw [hd]; exact ih)
    · -- the walk to the parent fails already
      rw [← List.append_assoc, lookupLast_snoc]
      have hw : os.walkDirs hs [] (k ++ X) = .error .notFound := by
        generalize k ++ X = A at ih
        induction A using List.reverseRecOn with
        | nil =>
          rw [lookupLast_nil] at ih
          rw [walkDirs_nil]
          cases hg : hs.get [] with
          | none => rfl
          | some n => simp [hg] at ih
        | append_singleton B t _ =>
          rw [lookupLast_snoc] at ih
          rw [walkDirs_snoc]
          cases hwB : os.walkDirs hs [] B with
          | error e =>
            simp only [hwB, os.Lookup.fail.injEq] at ih
            rw [ih]
          | ok m =>
            simp only [hwB] at ih ⊢
            split at ih
            · cases ih
            · rename_i h1
              split at ih
              · cases ih
              · rename_i h2
                cases hg : hs.get (B ++ [t]) <;> simp [hg] at ih
      rw [hw]

theorem os_Stat_gone {hs : os.HostFS} {p : Path} (hp : os.pathErr p = none)
    (h : os.lookupLast hs (os.hostKey p) = .absent ∨
      os.lookupLast hs (os.hostKey p) = .fail .notFound) :
    os.Stat hs p = .error .notFound := by
  unfold os.Stat
  rcases h with h | h <;> simp only [hp, h]

/-- Once the entry at `k` is gone from a state that differs from `hs` at or
beneath `k` only, the lookup of `k` finds nothing. -/
theorem lookupLast_after_removal (hs hs' : os.HostFS) {k : List Seg} {n : os.Node}
    (hk : k ≠ []) (hl : os.lookupLast hs k = .found n) (hp : hs'.privileged = hs.privileged)
    (hsame : ∀ a, ¬ k <+: a → hs'.get a = hs.get a) (hgone : hs'.get k = none) :
    os.lookupLast hs' k = .absent := by
  obtain ⟨_, hlen, m, hw, hsr⟩ := lookupLast_found hk hl
  induction k using List.reverseRecOn with
  | nil => exact absurd rfl hk
  | append_singleton A s _ =>
    simp only [List.dropLast_concat, List.getLast_append_singleton] at hw hlen
    have hw' : os.walkDirs hs' [] A = .ok m := by
      rw [walkDirs_congr hs hs' hp A [] ?_, hw]
      intro a ha _
      apply hsame
      intro hc
      have h1 := hc.length_le
      have h2 := ha.length_le
      simp at h1 h2
      omega
    have hsr' : hs'.maySearch m = true := by
      unfold os.HostFS.maySearch at hsr ⊢
      rw [hp]
      exact hsr
    rw [lookupLast_snoc, hw', hgone]
    simp [hsr', Nat.not_lt.mpr hlen]

theorem not_prefix_of_prefix_dropLast {A a : List Seg} {s : Seg} (h : a <+: A) :
    ¬ (A ++ [s]) <+: a := by
  intro hc
  have h1 := hc.length_le
  have h2 := h.length_le
  simp at h1
  omega

/-- What a successful `removeAllFrom` leaves of the target. -/
theorem os_removeAllFrom_gone {hs : os.HostFS} {A : List Seg} {s : Seg} {pm : FileMode}
    (hs' : ProperSeg s) (hw : os.walkDirs hs [] A = .ok pm)
    (hok : (os.removeAllFrom hs A s).2 = none) :
    os.lookupLast (os.removeAllFrom hs A s).1 (A ++ [s]) = .absent ∨
      os.lookupLast (os.removeAllFrom hs A s).1 (A ++ [s]) = .fail .notFound := by
  have hgA := walkDirs_ok_get hw
  rw [List.nil_append] at hgA
  have hc : filepath.cleanSegs true A s = A ++ [s] := cleanSegs_single hs'
  have hcne : ¬ (A ++ [s] = []) := by simp
  unfold os.removeAllFrom at hok ⊢
  rw [hgA, hc] at hok ⊢
  simp only [if_neg hcne] at hok ⊢
  split at hok
  · cases hok
  · split at hok
    · cases hok
    · rename_i hsr
      split at hok
      · cases hok
      · rename_i hlen
        have hsr' : hs.maySearch pm = true := by simpa using hsr
        have hfound : ∀ n, hs.get (A ++ [s]) = some n →
            os.lookupLast hs (A ++ [s]) = .found n := by
          intro n hn
          rw [lookupLast_snoc, hw, hn]
          simp [hsr', hlen]
        rw [if_neg (by assumption), if_neg hsr, if_neg hlen]
        cases hg : hs.get (A ++ [s]) with
        | none =>
          left
          simp only
          rw [lookupLast_snoc, hw, hg]
          simp [hsr', hlen]
        | some n =>
          cases n with
          | file m d =>
            simp only [hg] at hok ⊢
            split at hok
            · rename_i hwr
              simp only [hwr, if_true]
              left
              refine lookupLast_after_removal hs (hs.erase (A ++ [s])) (by simp) (hfound _ hg)
                rfl ?_ ?_
              · intro a ha
                rw [get_erase, if_neg]
                rintro rfl
                exact ha (List.prefix_refl _)
              · rw [get_erase, if_pos rfl]
            · cases hok
          | dir m =>
            simp only [hg] at hok ⊢
            split at hok
            · rename_i hwr
              simp only [hwr, if_true]
              left
              refine lookupLast_after_removal hs ((os.purge hs (A ++ [s])).erase (A ++ [s]))
                (by simp) (hfound _ hg) rfl ?_ ?_
              · intro a ha
                rw [get_erase, if_neg, get_purge, if_neg]
                · intro hr
                  unfold os.removable at hr
                  simp only [Bool.and_eq_true] at hr
                  exact ha (beneath_iff.mp hr.1.1.1).1
                · rintro rfl
                  exact ha (List.prefix_refl _)
              · rw [get_erase, if_pos rfl]
            · cases hok

/-! ## Removal on the host: whole trees -/

/-- Beneath `K`, where the parent of every entry is a directory, every
proper ancestor of an entry is a directory. -/
theorem ancestors_beneath {hs : os.HostFS} {K : List Seg}
    (H1 : ∀ X, X ≠ [] → hs.get (K ++ X) ≠ none → os.isDirAt hs (K ++ X.dropLast) = true) :
    ∀ X, hs.get (K ++ X) ≠ none → ∀ Y, Y <+: X → Y ≠ X → os.isDirAt hs (K ++ Y) = true := by
  intro X
  induction X using List.reverseRecOn with
  | nil =>
    intro _ Y hY hne
    exact absurd (List.prefix_nil.mp hY) hne
  | append_singleton X x ih =>
    intro hX Y hY hne
    have hd : os.isDirAt hs (K ++ X) = true := by
      have := H1 (X ++ [x]) (by simp) hX
      simpa using this
    rcases List.prefix_concat_iff.mp hY with e | hY'
    · exact absurd e hne
    · by_cases e : Y = X
      · rw [e]; exact hd
      · apply ih _ Y hY' e
        obtain ⟨m, hm⟩ := isDirAt_iff.mp hd
        rw [hm]
        simp

/-- Beneath something that is not a directory there is nothing. -/
theorem nothing_beneath {hs : os.HostFS} {K : List Seg}
    (H1 : ∀ X, X ≠ [] → hs.get (K ++ X) ≠ none → os.isDirAt hs (K ++ X.dropLast) = true)
    (hK : os.isDirAt hs K = false) : ∀ X, X ≠ [] → hs.get (K ++ X) = none := by
  intro X hX
  by_contra hc
  have := ancestors_beneath H1 X hc [] List.nil_prefix (fun e => hX e.symm)
  rw [List.append_nil, hK] at this
  cases this

theorem granted_dir {hs : os.HostFS} {m : FileMode} (h : os.granted hs (.dir m) = true) :
    hs.mayRead m = true ∧ hs.mayWrite m = true ∧ hs.maySearch m = true := by
  simp only [os.granted, Bool.and_eq_true] at h
  exact ⟨h.1.1, h.1.2, h.2⟩

theorem fullAt_of {hs : os.HostFS} {k : List Seg}
    (hd : os.isDirAt hs k = true) (H2 : ∀ m, hs.get k = some (.dir m) → os.granted hs (.dir m) = true) :
    os.fullAt hs k = true ∧ os.listableAt hs k = true ∧ os.writableAt hs k = true := by
  obtain ⟨m, hm⟩ := isDirAt_iff.mp hd
  obtain ⟨h1, h2, h3⟩ := granted_dir (H2 m hm)
  simp [os.fullAt, os.listableAt, os.writableAt, hm, h1, h2, h3]

/-- Where every directory at or beneath `K` grants full access and the
parent of every entry beneath `K` is a directory, the recursion of
`removeAllFrom` deletes every entry beneath `K`. -/
theorem removable_of {hs : os.HostFS} {K : List Seg}
    (H1 : ∀ X, X ≠ [] → hs.get (K ++ X) ≠ none → os.isDirAt hs (K ++ X.dropLast) = true)
    (H2 : ∀ X m, hs.get (K ++ X) = some (.dir m) → os.granted hs (.dir m) = true)
    {X : List Seg} (hX : X ≠ []) (hg : hs.get (K ++ X) ≠ none) :
    os.removable hs K (K ++ X) = true := by
  unfold os.removable
  simp only [Bool.and_eq_true]
  refine ⟨⟨⟨?_, ?_⟩, ?_⟩, ?_⟩
  · rw [beneath_iff]
    exact ⟨List.prefix_append _ _, fun e => hX (by simpa using e)⟩
  · rw [List.all_eq_true]
    intro i hi
    rw [List.mem_range] at hi
    by_cases hlt : i < K.length
    · simp [hlt]
    · have hle : K.length ≤ i := Nat.le_of_not_lt hlt
      have htake : (K ++ X).take i = K ++ X.take (i - K.length) := by
        rw [List.take_append_eq_append_take, List.take_of_length_le hle]
      have hY : X.take (i - K.length) ≠ X := by
        intro e
        have := congrArg List.length e
        rw [List.length_take] at this
        rw [List.length_append] at hi
        omega
      have hd := ancestors_beneath H1 X hg _ (List.take_prefix _ X) hY
      rw [htake]
      simp [(fullAt_of hd (H2 _)).2.1]
  · have hd := H1 X hX hg
    rw [List.dropLast_append_of_ne_nil _ hX]
    exact (fullAt_of hd (H2 _)).2.2
  · rw [clearable_iff]
    intro e he hb
    obtain ⟨⟨Z, hZ⟩, hne⟩ := beneath_iff.mp hb
    have hZne : Z ≠ [] := by
      rintro rfl
      exact hne (by simpa using hZ.symm)
    have hXZ : X ++ Z ≠ [] := by simp [hX]
    have he' : hs.get (K ++ (X ++ Z)) ≠ none := by
      rw [← List.append_assoc, hZ]
      exact he
    have hd := H1 (X ++ Z) hXZ he'
    have hdl : e.dropLast = K ++ (X ++ Z).dropLast := by
      rw [← hZ, List.append_assoc, List.dropLast_append_of_ne_nil _ hXZ]
    rw [hdl]
    exact (fullAt_of hd (H2 _)).1

/-- `RemoveAll` at an absolute clean path whose parent directory the caller
reaches and fully controls, in a part of the tree where every directory
grants full access and the parent of every entry is a directory: the call
succeeds and removes exactly the entries at and beneath the path. -/
theorem os_RemoveAll_full {hs : os.HostFS} {A : List Seg} {s : Seg} {pm : FileMode}
    (hK : ∀ x ∈ A ++ [s], ProperSeg x) (hp : os.pathErr (rootPath (A ++ [s])) = none)
    (hw : os.walkDirs hs [] A = .ok pm) (hgr : os.granted hs (.dir pm) = true)
    (hlen : byteLen s ≤ os.nameMax)
    (H1 : ∀ X, X ≠ [] → hs.get (A ++ [s] ++ X) ≠ none →
      os.isDirAt hs (A ++ [s] ++ X.dropLast) = true)
    (H2 : ∀ X m, hs.get (A ++ [s] ++ X) = some (.dir m) → os.granted hs (.dir m) = true) :
    (os.RemoveAll hs (rootPath (A ++ [s]))).2 = none ∧
      (os.RemoveAll hs (rootPath (A ++ [s]))).1.privileged = hs.privileged ∧
      (os.RemoveAll hs (rootPath (A ++ [s]))).1.umask = hs.umask ∧
      ∀ a, (os.RemoveAll hs (rootPath (A ++ [s]))).1.get a
        = if (A ++ [s]) <+: a then none else hs.get a := by
  obtain ⟨hrd, hwr, hsr⟩ := granted_dir hgr
  have hgA := walkDirs_ok_get hw
  rw [List.nil_append] at hgA
  have hkey : os.hostKey (rootPath (A ++ [s])) = A ++ [s] := hostKey_rootPath hK
  have hne : rootPath (A ++ [s]) ≠ [] := by simp [rootPath]
  have hdot : os.endsWithDot (rootPath (A ++ [s])) = false := endsWithDot_rootPath hK
  have hwA : os.writableAt hs (os.hostKey (rootPath (A ++ [s]))).dropLast = true := by
    rw [hkey, List.dropLast_concat]
    simp [os.writableAt, hgA, hwr]
  have hll : os.lookupLast hs (A ++ [s]) =
      match hs.get (A ++ [s]) with
      | some n => .found n
      | none => .absent := by
    rw [lookupLast_snoc, hw]
    simp only [hsr, Nat.not_lt.mpr hlen, Bool.not_true, Bool.false_eq_true, if_false]
  have hnopre : ∀ a X, X ≠ [] → a = A ++ [s] ++ X → a ≠ A ++ [s] := by
    intro a X hX e e2
    rw [e2] at e
    exact hX (by simpa using e.symm)
  cases hg : hs.get (A ++ [s]) with
  | none =>
    rw [hg] at hll
    have hrem := os_Remove_absent hp (by rw [hkey]; exact hll)
    rw [os_RemoveAll_of_Remove_notFound hne hdot hrem]
    refine ⟨rfl, rfl, rfl, ?_⟩
    intro a
    by_cases hpre : (A ++ [s]) <+: a
    · rw [if_pos hpre]
      obtain ⟨X, rfl⟩ := hpre
      by_cases hX : X = []
      · rw [hX, List.append_nil, hg]
      · exact nothing_beneath H1 (by simp [os.isDirAt, hg]) X hX
    · rw [if_neg hpre]
  | some n =>
    rw [hg] at hll
    cases n with
    | file m d =>
      have hrem := os_Remove_file hp (by rw [hkey]; exact hll) hwA
      rw [os_RemoveAll_of_Remove_ok hne hdot hrem, hkey]
      refine ⟨rfl, rfl, rfl, ?_⟩
      intro a
      rw [get_erase]
      by_cases hpre : (A ++ [s]) <+: a
      · rw [if_pos hpre]
        obtain ⟨X, rfl⟩ := hpre
        by_cases hX : X = []
        · simp [hX]
        · rw [if_neg (hnopre _ X hX rfl)]
          exact nothing_beneath H1 (by simp [os.isDirAt, hg]) X hX
      · rw [if_neg hpre, if_neg]
        rintro rfl
        exact hpre (List.prefix_refl _)
    | dir m =>
      by_cases hc : os.hasChild hs (A ++ [s]) = true
      · have hrem := os_Remove_fullDir hp (by rw [hkey]; exact hll) (by rw [hkey]; simp) hwA
          (by rw [hkey]; exact hc)
        have hsplit := splitPath_rootPath hK
        have hA : ∀ x ∈ A, ProperSeg x := fun x hx => hK x (List.mem_append_left _ hx)
        have hopen : os.Open hs (os.splitPath (rootPath (A ++ [s]))).1 = .ok Handle.dir := by
          rw [hsplit]
          have hpA := (pathErr_rootPath_snoc hp).1
          have hlA : os.lookupLast hs (os.hostKey (rootPath A)) = .found (.dir pm) := by
            rw [hostKey_rootPath hA]
            exact lookupLast_of_walkDirs hw
          rw [os_Open_found_dir hpA hlA, if_pos hrd]
        rw [os_RemoveAll_of_Remove_err hne hdot hrem (by simp) hopen, hsplit]
        simp only [hostKey_rootPath hA]
        have hnul : Char.ofNat 0 ∉ s := (pathErr_rootPath_snoc hp).2
        have hcs : filepath.cleanSegs true A s = A ++ [s] := cleanSegs_single (hK s (by simp))
        have hnc : os.hasChild (os.purge hs (A ++ [s])) (A ++ [s]) = false := by
          rw [← Bool.not_eq_true, hasChild_iff]
          rintro ⟨d, hb, hd⟩
          obtain ⟨⟨X, rfl⟩, hne'⟩ := beneath_iff.mp hb
          have hX : X ≠ [] := by
            rintro rfl
            exact hne' (by simp)
          rw [get_purge] at hd
          by_cases hr : os.removable hs (A ++ [s]) (A ++ [s] ++ X) = true
          · rw [if_pos hr] at hd
            exact hd rfl
          · rw [if_neg hr] at hd
            exact hr (removable_of H1 H2 hX hd)
        have hcne : ¬ (A ++ [s] = []) := by simp
        unfold os.removeAllFrom
        simp only [if_neg hnul, hgA, hcs, if_neg hcne, hsr, Nat.not_lt.mpr hlen, hg, hwr, hnc,
          Bool.not_true, Bool.false_eq_true, if_false, Bool.not_false, Bool.and_self, if_true]
        refine ⟨trivial, rfl, rfl, ?_⟩
        intro a
        rw [get_erase, get_purge]
        by_cases hpre : (A ++ [s]) <+: a
        · rw [if_pos hpre]
          obtain ⟨X, rfl⟩ := hpre
          by_cases hX : X = []
          · simp [hX]
          · rw [if_neg (hnopre _ X hX rfl)]
            by_cases hga : hs.get (A ++ [s] ++ X) = none
            · rw [hga]
              simp
            · rw [if_pos (removable_of H1 H2 hX hga)]
        · rw [if_neg hpre, if_neg, if_neg]
          · intro hr
            unfold os.removable at hr
            simp only [Bool.and_eq_true] at hr
            exact hpre (beneath_iff.mp hr.1.1.1).1
          · rintro rfl
            exact hpre (List.prefix_refl _)
      · have hc' : os.hasChild hs (A ++ [s]) = false := by simpa using hc
        have hrem := os_Remove_emptyDir hp (by rw [hkey]; exact hll) (by rw [hkey]; simp) hwA
          (by rw [hkey]; exact hc')
        rw [os_RemoveAll_of_Remove_ok hne hdot hrem, hkey]
        refine ⟨rfl, rfl, rfl, ?_⟩
        intro a
        rw [get_erase]
        by_cases hpre : (A ++ [s]) <+: a
        · rw [if_pos hpre]
          obtain ⟨X, rfl⟩ := hpre
          by_cases hX : X = []
          · simp [hX]
          · rw [if_neg (hnopre _ X hX rfl)]
            by_contra hga
            have : os.hasChild hs (A ++ [s]) = true := by
              rw [hasChild_iff]
              exact ⟨_, beneath_iff.mpr ⟨List.prefix_append _ _, hnopre _ X hX rfl⟩, hga⟩
            rw [hc'] at this
            cases this
        · rw [if_neg hpre, if_neg]
          rintro rfl
          exact hpre (List.prefix_refl _)

/-! ## Removal completeness (C5) -/

theorem os_Remove_ok {hs hs' : os.HostFS} {p : Path} (h : os.Remove hs p = (hs', none)) :
    os.hostKey p ≠ [] ∧ hs' = hs.erase (os.hostKey p) ∧
      ∃ n, os.lookupLast hs (os.hostKey p) = .found n := by
  unfold os.Remove at h
  cases hp : os.pathErr p with
  | some e => simp [hp] at h
  | none =>
    simp only [hp] at h
    cases hl : os.lookupLast hs (os.hostKey p) with
    | fail e => simp [hl] at h
    | absent => simp [hl] at h
    | found n =>
      cases n with
      | file m d =>
        simp only [hl] at h
        split at h
        · rename_i hw
          refine ⟨?_, (Prod.mk.inj h).1.symm, _, rfl⟩
          intro hk
          rw [hk] at hw hl
          have := lookupLast_found_get hl
          simp [os.writableAt, this] at hw
        · simp at h
      | dir m =>
        simp only [hl] at h
        split at h
        · simp at h
        · rename_i hk
          split at h
          · simp at h
          · split at h
            · simp at h
            · exact ⟨hk, (Prod.mk.inj h).1.symm, _, rfl⟩

theorem os_Remove_notFound {hs hs' : os.HostFS} {p : Path} (hp : os.pathErr p = none)
    (h : os.Remove hs p = (hs', some .notFound)) :
    os.lookupLast hs (os.hostKey p) = .absent ∨
      os.lookupLast hs (os.hostKey p) = .fail .notFound := by
  unfold os.Remove at h
  simp only [hp] at h
  cases hl : os.lookupLast hs (os.hostKey p) with
  | fail e =>
    simp only [hl, Prod.mk.injEq, Option.some.injEq] at h
    rw [h.2]
    exact Or.inr rfl
  | absent => exact Or.inl rfl
  | found n =>
    cases n with
    | file m d =>
      simp only [hl] at h
      split at h <;> simp at h
    | dir m =>
      simp only [hl] at h
      split at h
      · simp at h
      · split at h
        · simp at h
        · split at h <;> simp at h

theorem os_Open_notFound {hs : os.HostFS} {p : Path} (hp : os.pathErr p = none)
    (h : os.Open hs p = .error .notFound) :
    os.lookupLast hs (os.hostKey p) = .absent ∨
      os.lookupLast hs (os.hostKey p) = .fail .notFound := by
  unfold os.Open at h
  simp only [hp] at h
  cases hl : os.lookupLast hs (os.hostKey p) with
  | fail e =>
    simp only [hl, Except.error.injEq] at h
    rw [h]
    exact Or.inr rfl
  | absent => exact Or.inl rfl
  | found n =>
    cases n with
    | file m d =>
      simp only [hl] at h
      split at h <;> simp at h
    | dir m =>
      simp only [hl] at h
      split at h <;> simp at h

theorem os_Open_ok {hs : os.HostFS} {p : Path} {h0 : Handle} (h : os.Open hs p = .ok h0) :
    ∃ n, os.lookupLast hs (os.hostKey p) = .found n := by
  unfold os.Open at h
  cases hp : os.pathErr p with
  | some e => simp [hp] at h
  | none =>
    simp only [hp] at h
    cases hl : os.lookupLast hs (os.hostKey p) with
    | fail e => simp [hl] at h
    | absent => simp [hl] at h
    | found n => exact ⟨n, rfl⟩

theorem os_RemoveAll_of_Remove_err_open {hs hs' : os.HostFS} {p : Path} {e e' : StorageError}
    (hne : p ≠ []) (hdot : os.endsWithDot p = false) (h : os.Remove hs p = (hs', some e))
    (he : e ≠ .notFound) (hopen : os.Open hs (os.splitPath p).1 = .error e') :
    os.RemoveAll hs p = (hs, if e' = .notFound then none else some e') := by
  simp only [os.RemoveAll, if_neg hne, hdot, h, Bool.false_eq_true, if_false]
  cases e <;> first | exact absurd rfl he | (simp only [hopen]; cases e' <;> rfl)

/-- What `RemoveAll` leaves of the target when `Remove` has failed with an
error other than `ENOENT` and the call succeeds all the same. -/
theorem os_RemoveAll_gone_of_err {hs hs' : os.HostFS} {A : List Seg} {s : Seg}
    {e : StorageError} (hK : ∀ x ∈ A ++ [s], ProperSeg x)
    (hp : os.pathErr (rootPath (A ++ [s])) = none)
    (h : os.Remove hs (rootPath (A ++ [s])) = (hs', some e)) (he : e ≠ .notFound)
    (hok : (os.RemoveAll hs (rootPath (A ++ [s]))).2 = none) :
    os.lookupLast (os.RemoveAll hs (rootPath (A ++ [s]))).1 (A ++ [s]) = .absent ∨
      os.lookupLast (os.RemoveAll hs (rootPath (A ++ [s]))).1 (A ++ [s])
        = .fail .notFound := by
  have hne : rootPath (A ++ [s]) ≠ [] := by simp [rootPath]
  have hdot : os.endsWithDot (rootPath (A ++ [s])) = false := endsWithDot_rootPath hK
  have hA : ∀ x ∈ A, ProperSeg x := fun x hx => hK x (List.mem_append_left _ hx)
  have hsplit := splitPath_rootPath hK
  have hpA := (pathErr_rootPath_snoc hp).1
  cases hopen : os.Open hs (os.splitPath (rootPath (A ++ [s]))).1 with
  | error e' =>
    rw [os_RemoveAll_of_Remove_err_open hne hdot h he hopen] at hok ⊢
    by_cases he' : e' = .notFound
    · subst he'
      rw [hsplit] at hopen
      have := os_Open_notFound hpA hopen
      rw [hostKey_rootPath hA] at this
      exact lookupLast_gone_append this [s]
    · simp [he'] at hok
  | ok h0 =>
    rw [os_RemoveAll_of_Remove_err hne hdot h he hopen] at hok ⊢
    rw [hsplit] at hok hopen ⊢
    simp only [hostKey_rootPath hA] at hok ⊢
    obtain ⟨n, hn⟩ := os_Open_ok hopen
    rw [hostKey_rootPath hA] at hn
    cases n with
    | dir pm =>
      exact os_removeAllFrom_gone (hK s (by simp)) (walkDirs_of_lookupLast_dir hn) hok
    | file m d =>
      exfalso
      have hg := lookupLast_found_get hn
      unfold os.removeAllFrom at hok
      simp only [if_neg (pathErr_rootPath_snoc hp).2, hg] at hok
      cases hok

/-- What a successful `RemoveAll` leaves of its target: the lookup of the
host path finds nothing, or fails with `ENOENT`. -/
theorem os_RemoveAll_gone {hs : os.HostFS} {K : List Seg} (hK : ∀ x ∈ K, ProperSeg x)
    (hp : os.pathErr (rootPath K) = none) (hok : (os.RemoveAll hs (rootPath K)).2 = none) :
    os.lookupLast (os.RemoveAll hs (rootPath K)).1 K = .absent ∨
      os.lookupLast (os.RemoveAll hs (rootPath K)).1 K = .fail .notFound := by
  have hkey : os.hostKey (rootPath K) = K := hostKey_rootPath hK
  induction K using List.reverseRecOn with
  | nil =>
    have h1 : rootPath [] = ['/'] := rfl
    have h2 : os.pathErr ['.'] = none := by decide
    have h3 : os.hostKey ['.'] = [] := by decide
    have h4 : os.splitPath ['/'] = (['.'], ['/']) := by decide
    have h5 : os.endsWithDot ['/'] = false := by decide
    have h6 : (['/'] : Path) ≠ [] := by decide
    have h7 : filepath.cleanSegs true [] ['/'] = [] := by decide
    have h8 : Char.ofNat 0 ∉ (['/'] : Path) := by decide
    rw [h1] at hok hp hkey ⊢
    cases hrem : os.Remove hs ['/'] with
    | mk hs1 r =>
      cases r with
      | none =>
        exact absurd hkey (os_Remove_ok hrem).1
      | some e =>
        by_cases he : e = .notFound
        · subst he
          rw [os_RemoveAll_of_Remove_notFound h6 h5 hrem]
          have := os_Remove_notFound hp hrem
          rwa [hkey] at this
        · cases hopen : os.Open hs (os.splitPath ['/']).1 with
          | error e' =>
            rw [os_RemoveAll_of_Remove_err_open h6 h5 hrem he hopen] at hok ⊢
            by_cases he' : e' = .notFound
            · subst he'
              rw [h4] at hopen
              have := os_Open_notFound h2 hopen
              rwa [h3] at this
            · simp [he'] at hok
          | ok h0 =>
            rw [os_RemoveAll_of_Remove_err h6 h5 hrem he hopen] at hok ⊢
            rw [h4] at hok ⊢
            simp only [h3] at hok ⊢
            unfold os.removeAllFrom at hok ⊢
            simp only [if_neg h8, h7] at hok ⊢
            cases hg : hs.get [] with
            | none =>
              simp only
              right
              rw [lookupLast_nil, hg]
            | some n =>
              cases n with
              | file m d => simp [hg] at hok
              | dir m => simp [hg] at hok
  | append_singleton A s _ =>
    have hne : rootPath (A ++ [s]) ≠ [] := by simp [rootPath]
    have hdot : os.endsWithDot (rootPath (A ++ [s])) = false := endsWithDot_rootPath hK
    cases hrem : os.Remove hs (rootPath (A ++ [s])) with
    | mk hs1 r =>
      cases r with
      | none =>
        obtain ⟨hk, rfl, n, hn⟩ := os_Remove_ok hrem
        rw [hkey] at hn
        rw [os_RemoveAll_of_Remove_ok hne hdot hrem, hkey]
        left
        refine lookupLast_after_removal hs (hs.erase (A ++ [s])) (by simp) hn rfl ?_ ?_
        · intro a ha
          rw [get_erase, if_neg]
          rintro rfl
          exact ha (List.prefix_refl _)
        · rw [get_erase, if_pos rfl]
      | some e =>
        by_cases he : e = .notFound
        · subst he
          rw [os_RemoveAll_of_Remove_notFound hne hdot hrem]
          have := os_Remove_notFound hp hrem
          rwa [hkey] at this
        · exact os_RemoveAll_gone_of_err hK hp hrem he hok

/-! ## Removal completeness -/

/-- A host state all of whose entries grant the caller full access is
permissive. -/
theorem Permissive_of_entries {hs : os.HostFS}
    (h : ∀ e ∈ hs.entries, os.granted hs e.2 = true) : os.Permissive hs := by
  intro k m hg
  exact h (k, .dir m) (lookupKey_some_mem hg)

/-- A host state in which the parent of every entry is a directory is
tree-shaped. -/
theorem TreeShaped_of_entries {hs : os.HostFS}
    (h : ∀ e ∈ hs.entries, e.1 ≠ [] → os.isDirAt hs e.1.dropLast = true) :
    os.TreeShaped hs := by
  intro k hk hne
  cases hg : hs.get k with
  | none => exact absurd hg hk
  | some n => exact h (k, n) (lookupKey_some_mem hg) hne

/-- C5 (as stated, refuted): on the OS-backed store rooted at `/tmp` with a
directory `b`, after `RemoveAll("a")` the path `a/../b`, which is prefixed by
`a` and the separator, still exists: it resolves to the host path `/tmp/b`. -/
theorem OSFS_RemoveAll_misses_dotdot_path :
    ∃ hs1, (osStorage (osfs.NewOSFS "/tmp".toList)).Mkdir (os.freshHost "/tmp".toList)
        "b".toList 0o755 = .ok hs1 ∧
      ((osStorage (osfs.NewOSFS "/tmp".toList)).RemoveAll hs1 "a".toList).2 = none ∧
      ("a".toList ++ ['/']).isPrefixOf "a/../b".toList = true ∧
      (osfs.NewOSFS "/tmp".toList).hostPath "a/../b".toList = "/tmp/b".toList ∧
      (osStorage (osfs.NewOSFS "/tmp".toList)).Stat
          ((osStorage (osfs.NewOSFS "/tmp".toList)).RemoveAll hs1 "a".toList).1 "a/../b".toList
        = .ok ⟨"b".toList, none, true⟩ := by
  exact ⟨_, rfl, by decide, by decide, by decide, by decide⟩

/-- C5 (amended): on the in-memory store `removeAll(p)` always returns ok,
and afterwards `stat(p)` and `stat(q)` for every `q` prefixed by `p` and the
separator report the not-found error.  On an OS-backed store with an
absolute clean root, after any `removeAll(p)` that returns ok the not-found
error is reported by `stat(p)` and by `stat(q)` for every `q` made of `p`, the
separator and a remainder without `..` element, as far as their host paths
pass the checks on a path (no NUL byte, shorter than `PATH_MAX`); and
`removeAll(p)` returns ok (also when nothing exists there) whenever the host
path of `p` is not `/` and passes these checks, the host tree is
tree-shaped, the caller has full access to every directory, and the lookup
of the host path fails, if it does, with the not-found error (no regular
file and no over-long name on the way). -/
theorem RemoveAll_complete :
    (∀ (m : memory.Memory) (p : Path),
      (memoryStorage.RemoveAll m p).2 = none ∧
        memoryStorage.Stat (memoryStorage.RemoveAll m p).1 p = .error .notFound ∧
        ∀ q, (p ++ ['/']).isPrefixOf q = true →
          memoryStorage.Stat (memoryStorage.RemoveAll m p).1 q = .error .notFound) ∧
    (∀ (R : List Seg), (∀ s ∈ R, ProperSeg s) → ∀ (hs : os.HostFS) (p : Path),
      os.pathErr ((osfs.NewOSFS (rootPath R)).hostPath p) = none →
      (((osStorage (osfs.NewOSFS (rootPath R))).RemoveAll hs p).2 = none →
        (osStorage (osfs.NewOSFS (rootPath R))).Stat
            ((osStorage (osfs.NewOSFS (rootPath R))).RemoveAll hs p).1 p = .error .notFound ∧
        ∀ rest, NoDotDot rest →
          os.pathErr ((osfs.NewOSFS (rootPath R)).hostPath (p ++ '/' :: rest)) = none →
          (osStorage (osfs.NewOSFS (rootPath R))).Stat
              ((osStorage (osfs.NewOSFS (rootPath R))).RemoveAll hs p).1 (p ++ '/' :: rest)
            = .error .notFound) ∧
      (os.hostKey ((osfs.NewOSFS (rootPath R)).hostPath p) ≠ [] →
        os.TreeShaped hs → os.Permissive hs →
        (∀ e, os.lookupLast hs (os.hostKey ((osfs.NewOSFS (rootPath R)).hostPath p)) = .fail e →
          e = .notFound) →
        ((osStorage (osfs.NewOSFS (rootPath R))).RemoveAll hs p).2 = none)) := by
  constructor
  · intro m p
    refine ⟨rfl, ?_, ?_⟩
    · simp [memoryStorage, memory.RemoveAll, memory.Stat]
    · intro q hq
      simp only [memoryStorage, memory.RemoveAll, memory.Stat, hq, or_true, ↓reduceIte]
  · intro R hR hs p hp
    unfold osfs.OSFS.hostPath osfs.NewOSFS at hp ⊢
    simp only [osStorage, osfs.OSFS.RemoveAll, osfs.OSFS.Stat, osfs.NewOSFS]
    have hKp : ∀ x ∈ filepath.cleanSegs true R p, ProperSeg x := cleanSegs_proper p hR
    rw [Join_rootPath hR] at hp ⊢
    constructor
    · intro hok
      have hgone := os_RemoveAll_gone hKp hp hok
      constructor
      · exact os_Stat_gone hp (by rw [hostKey_rootPath hKp]; exact hgone)
      · intro rest hrest hprest
        obtain ⟨X, hX⟩ := cleanSegs_noDotDot true (filepath.cleanSegs true R p) hrest
        have hkq : filepath.cleanSegs true R (p ++ '/' :: rest)
            = filepath.cleanSegs true R p ++ X := by
          rw [cleanSegs_append_sep, hX]
        have hKq : ∀ x ∈ filepath.cleanSegs true R (p ++ '/' :: rest), ProperSeg x :=
          cleanSegs_proper _ hR
        rw [Join_rootPath hR] at hprest ⊢
        apply os_Stat_gone hprest
        rw [hostKey_rootPath hKq, hkq]
        exact lookupLast_gone_append hgone X
    · rw [hostKey_rootPath hKp]
      intro hk hwf hperm hfail
      generalize filepath.cleanSegs true R p = K at hp hKp hk hfail
      induction K using List.reverseRecOn with
      | nil => exact absurd rfl hk
      | append_singleton A s _ =>
        have hne : rootPath (A ++ [s]) ≠ [] := by simp [rootPath]
        have hdot : os.endsWithDot (rootPath (A ++ [s])) = false := endsWithDot_rootPath hKp
        have hkey : os.hostKey (rootPath (A ++ [s])) = A ++ [s] := hostKey_rootPath hKp
        cases hl : os.lookupLast hs (A ++ [s]) with
        | fail e =>
          have := hfail e hl
          subst this
          rw [os_RemoveAll_of_Remove_notFound hne hdot
            (os_Remove_fail hp (by rw [hkey]; exact hl))]
        | absent =>
          rw [os_RemoveAll_of_Remove_notFound hne hdot
            (os_Remove_absent hp (by rw [hkey]; exact hl))]
        | found n =>
          obtain ⟨_, hlen, pm, hw, _⟩ := lookupLast_found (by simp) hl
          simp only [List.dropLast_concat, List.getLast_append_singleton] at hw hlen
          have hgA := walkDirs_ok_get hw
          rw [List.nil_append] at hgA
          refine (os_RemoveAll_full hKp hp hw (hperm A pm hgA) hlen ?_ ?_).1
          · intro X hX hg
            have := hwf (A ++ [s] ++ X) hg (by simp)
            rwa [List.dropLast_append_of_ne_nil _ hX] at this
          · intro X m hg
            exact hperm _ m hg

/-- Witness for C5: after `MkdirAll("a/b/c/d/e")` on the fresh OS-backed store
rooted at `/tmp`, `RemoveAll("a")` succeeds and neither `a` nor `a/b/c/d/e`
exists afterwards. -/
theorem RemoveAll_complete_witness :
    (∃ info, (osStorage (osfs.NewOSFS "/tmp".toList)).Stat
        (MkdirAll (osStorage (osfs.NewOSFS "/tmp".toList)) (os.freshHost "/tmp".toList)
          "a/b/c/d/e".toList 0o755).1 "a/b/c/d/e".toList = .ok info ∧ info.isDir = true) ∧
    ((osStorage (osfs.NewOSFS "/tmp".toList)).RemoveAll
        (MkdirAll (osStorage (osfs.NewOSFS "/tmp".toList)) (os.freshHost "/tmp".toList)
          "a/b/c/d/e".toList 0o755).1 "a".toList).2 = none ∧
    (osStorage (osfs.NewOSFS "/tmp".toList)).Stat
        ((osStorage (osfs.NewOSFS "/tmp".toList)).RemoveAll
          (MkdirAll (osStorage (osfs.NewOSFS "/tmp".toList)) (os.freshHost "/tmp".toList)
            "a/b/c/d/e".toList 0o755).1 "a".toList).1 "a".toList = .error .notFound ∧
    (osStorage (osfs.NewOSFS "/tmp".toList)).Stat
        ((osStorage (osfs.NewOSFS "/tmp".toList)).RemoveAll
          (MkdirAll (osStorage (osfs.NewOSFS "/tmp".toList)) (os.freshHost "/tmp".toList)
            "a/b/c/d/e".toList 0o755).1 "a".toList).1 "a/b/c/d/e".toList
      = .error .notFound := by
  have h0 := RemoveAll_complete.2 ["tmp".toList] (by decide)
    (MkdirAll (osStorage (osfs.NewOSFS "/tmp".toList)) (os.freshHost "/tmp".toList)
      "a/b/c/d/e".toList 0o755).1 "a".toList (by decide)
  have hok := h0.2 (by decide) (TreeShaped_of_entries (by decide))
    (Permissive_of_entries (by decide))
    (fun e he => absurd he (by
      have hl : os.lookupLast (MkdirAll (osStorage (osfs.NewOSFS "/tmp".toList))
          (os.freshHost "/tmp".toList) "a/b/c/d/e".toList 0o755).1
          (os.hostKey ((osfs.NewOSFS (rootPath ["tmp".toList])).hostPath "a".toList))
          = .found (os.Node.dir 0o755) := by decide
      rw [hl]
      intro hc
      cases hc))
  have h := h0.1 hok
  exact ⟨⟨⟨"e".toList, none, true⟩, by decide, rfl⟩, hok, h.1,
    h.2 "b/c/d/e".toList (by decide) (by decide)⟩

/-! ## `MkdirAll` -/

/-- If every `Mkdir` of the loop meets an existing entry, the loop succeeds
and leaves the store as it is. -/
theorem mkdirEach_all_exist {σ : Type} (fs : Storage σ) (perm : FileMode) (st : σ) :
    ∀ ps : List Path, (∀ p ∈ ps, fs.Mkdir st p perm = .error .alreadyExists) →
      mkdirEach fs perm st ps = (st, none)
  | [], _ => rfl
  | p :: ps, h => by
    unfold mkdirEach
    rw [h p (by simp)]
    exact mkdirEach_all_exist fs perm st ps (fun q hq => h q (by simp [hq]))

/-- After a successful loop every path of the list exists, given that a
successful `Mkdir` creates its path and keeps what exists, and that
"already exists" is reported exactly for existing paths. -/
theorem mkdirEach_exists {σ : Type} (fs : Storage σ) (perm : FileMode) (ex : σ → Path → Prop)
    (hnew : ∀ st st' p, fs.Mkdir st p perm = .ok st' → ex st' p)
    (hmono : ∀ st st' p q, fs.Mkdir st p perm = .ok st' → ex st q → ex st' q)
    (hex : ∀ st p, fs.Mkdir st p perm = .error .alreadyExists → ex st p) :
    ∀ (ps : List Path) (st st' : σ), mkdirEach fs perm st ps = (st', none) →
      (∀ q, ex st q → ex st' q) ∧ ∀ p ∈ ps, ex st' p
  | [], st, st', h => by
    cases h
    exact ⟨fun _ hq => hq, by simp⟩
  | p :: ps, st, st', h => by
    unfold mkdirEach at h
    cases hm : fs.Mkdir st p perm with
    | ok st1 =>
      simp only [hm] at h
      obtain ⟨ih1, ih2⟩ := mkdirEach_exists fs perm ex hnew hmono hex ps st1 st' h
      refine ⟨fun q hq => ih1 q (hmono st st1 p q hm hq), ?_⟩
      intro q hq
      rcases List.mem_cons.mp hq with rfl | hq
      · exact ih1 _ (hnew st st1 _ hm)
      · exact ih2 q hq
    | error e =>
      cases e <;> simp only [hm] at h <;> try cases h
      obtain ⟨ih1, ih2⟩ := mkdirEach_exists fs perm ex hnew hmono hex ps st st' h
      refine ⟨ih1, ?_⟩
      intro q hq
      rcases List.mem_cons.mp hq with rfl | hq
      · exact ih1 _ (hex st _ hm)
      · exact ih2 q hq

theorem mkdirEach_idempotent {σ : Type} (fs : Storage σ) (perm : FileMode) (ex : σ → Path → Prop)
    (hnew : ∀ st st' p, fs.Mkdir st p perm = .ok st' → ex st' p)
    (hmono : ∀ st st' p q, fs.Mkdir st p perm = .ok st' → ex st q → ex st' q)
    (hex : ∀ st p, fs.Mkdir st p perm = .error .alreadyExists → ex st p)
    (hfail : ∀ st p, ex st p → fs.Mkdir st p perm = .error .alreadyExists)
    {ps : List Path} {st st' : σ} (h : mkdirEach fs perm st ps = (st', none)) :
    mkdirEach fs perm st' ps = (st', none) :=
  mkdirEach_all_exist fs perm st' ps
    (fun p hp => hfail st' p ((mkdirEach_exists fs perm ex hnew hmono hex ps st st' h).2 p hp))

theorem memory_Mkdir_ok {m m' : memory.Memory} {p : Path} {perm : FileMode}
    (h : memory.Mkdir m p perm = .ok m') : m p = none ∧ m' = memory.put m p (.dir perm) := by
  unfold memory.Mkdir at h
  split at h
  · cases h
  · rename_i hnone
    split at h
    · cases h; exact ⟨hnone, rfl⟩
    · split at h
      · cases h; exact ⟨hnone, rfl⟩
      · cases h

theorem memory_Mkdir_alreadyExists (m : memory.Memory) (p : Path) (perm : FileMode) :
    memory.Mkdir m p perm = .error .alreadyExists ↔ m p ≠ none := by
  unfold memory.Mkdir
  cases hm : m p with
  | some e => simp
  | none =>
    simp only [ne_eq, not_true_eq_false, iff_false]
    cases memory.parentOf p with
    | none => simp
    | some q => by_cases hd : memory.isDirAt m q = true <;> simp [hd]

/-- Everything on the way of a lookup that finds something exists. -/
theorem lookupLast_found_prefix {hs : os.HostFS} {k : List Seg} {n : os.Node}
    (h : os.lookupLast hs k = .found n) : ∀ a, a <+: k → hs.get a ≠ none := by
  intro a ha
  by_cases e : a = k
  · rw [e, lookupLast_found_get h]
    simp
  · have hk : k ≠ [] := by
      rintro rfl
      exact e (List.prefix_nil.mp ha)
    obtain ⟨_, _, m, hw, _⟩ := lookupLast_found hk h
    have ha' : a <+: k.dropLast := by
      induction k using List.reverseRecOn with
      | nil => exact absurd rfl hk
      | append_singleton A s _ =>
        rw [List.dropLast_concat]
        rcases List.prefix_concat_iff.mp ha with h1 | h1
        · exact absurd h1 e
        · exact h1
    have := walkDirs_ok_prefix hw a (by simpa using ha') List.nil_prefix
    obtain ⟨m', hm'⟩ := isDirAt_iff.mp this
    rw [hm']
    simp

theorem granted_congr (hs hs' : os.HostFS) (hp : hs'.privileged = hs.privileged) (n : os.Node) :
    os.granted hs' n = os.granted hs n := by
  cases n <;> simp [os.granted, os.HostFS.mayRead, os.HostFS.mayWrite, os.HostFS.maySearch, hp]

theorem cleanRel_joinSep {T : List Seg} (hT : T ≠ []) (h : ∀ s ∈ T, ProperSeg s) :
    CleanRel (joinSep T) := by
  unfold CleanRel
  rw [splitSep_joinSep hT (fun s hs => (h s hs).2.2.2)]
  exact h

/-- Host path and key of a joined list of proper elements. -/
theorem hostPath_joinSep {R T : List Seg} (hR : ∀ s ∈ R, ProperSeg s) (hT : T ≠ [])
    (h : ∀ s ∈ T, ProperSeg s) :
    filepath.Join [rootPath R, joinSep T] = rootPath (R ++ T) ∧
      os.hostKey (filepath.Join [rootPath R, joinSep T]) = R ++ T := by
  have h1 : filepath.Join [rootPath R, joinSep T] = rootPath (R ++ T) := by
    rw [Join_rootPath hR, cleanSegs_joinSep R h]
  refine ⟨h1, ?_⟩
  rw [hostKey_Join_cleanRel hR (cleanRel_joinSep hT h),
    splitSep_joinSep hT (fun s hs => (h s hs).2.2.2)]

/-- The loop of `MkdirAll` on the in-memory store, when every path it visits
is absent or a directory: it succeeds, and every path is a directory
afterwards. -/
theorem memory_mkdirEach_dirs (perm : FileMode) :
    ∀ (rest pre : List Seg) (m : memory.Memory), (∀ s ∈ pre ++ rest, '/' ∉ s) →
      (pre ≠ [] → memory.isDirAt m (joinSep pre) = true) →
      (∀ p ∈ cumulative pre rest, m p = none ∨ memory.isDirAt m p = true) →
      ∃ m', mkdirEach memoryStorage perm m (cumulative pre rest) = (m', none) ∧
        (∀ q, memory.isDirAt m q = true → memory.isDirAt m' q = true) ∧
        ∀ p ∈ cumulative pre rest, memory.isDirAt m' p = true
  | [], pre, m, _, _, _ => ⟨m, rfl, fun _ h => h, by simp [cumulative]⟩
  | s :: rest, pre, m, hsep, hdir, hex => by
    have hs : '/' ∉ s := hsep s (by simp)
    have hsep' : ∀ x ∈ (pre ++ [s]) ++ rest, '/' ∉ x := by simpa using hsep
    rcases hex (joinSep (pre ++ [s])) (by simp [cumulative]) with hnone | hd
    · have hmk : memoryStorage.Mkdir m (joinSep (pre ++ [s])) perm
          = .ok (memory.put m (joinSep (pre ++ [s])) (.dir perm)) := by
        show memory.Mkdir m (joinSep (pre ++ [s])) perm = _
        unfold memory.Mkdir
        simp only [hnone, parentOf_joinSep_snoc pre hs]
        by_cases hne : pre = []
        · simp [hne]
        · simp [hne, hdir hne]
      obtain ⟨m', h1, h2, h3⟩ := memory_mkdirEach_dirs perm rest (pre ++ [s])
        (memory.put m (joinSep (pre ++ [s])) (.dir perm)) hsep'
        (by intro _; simp [memory.isDirAt, memory.put])
        (by
          intro p hp
          by_cases e : p = joinSep (pre ++ [s])
          · right; simp [memory.isDirAt, memory.put, e]
          · rcases hex p (by simp [cumulative, hp]) with h | h
            · left; simp [memory.put, e, h]
            · right; simpa [memory.isDirAt, memory.put, e] using h)
      refine ⟨m', ?_, ?_, ?_⟩
      · show mkdirEach memoryStorage perm m
          (joinSep (pre ++ [s]) :: cumulative (pre ++ [s]) rest) = _
        unfold mkdirEach
        simp only [hmk]
        exact h1
      · intro q hq
        apply h2
        by_cases e : q = joinSep (pre ++ [s])
        · simp [memory.isDirAt, memory.put, e]
        · simpa [memory.isDirAt, memory.put, e] using hq
      · intro p hp
        simp only [cumulative, List.mem_cons] at hp
        rcases hp with rfl | hp
        · exact h2 _ (by simp [memory.isDirAt, memory.put])
        · exact h3 p hp
    · have hmk : memoryStorage.Mkdir m (joinSep (pre ++ [s])) perm = .error .alreadyExists := by
        apply (memory_Mkdir_alreadyExists m _ perm).mpr
        intro hn
        simp [memory.isDirAt, hn] at hd
      obtain ⟨m', h1, h2, h3⟩ := memory_mkdirEach_dirs perm rest (pre ++ [s]) m hsep'
        (fun _ => hd) (fun p hp => hex p (by simp [cumulative, hp]))
      refine ⟨m', ?_, h2, ?_⟩
      · show mkdirEach memoryStorage perm m
          (joinSep (pre ++ [s]) :: cumulative (pre ++ [s]) rest) = _
        unfold mkdirEach
        simp only [hmk]
        exact h1
      · intro p hp
        simp only [cumulative, List.mem_cons] at hp
        rcases hp with rfl | hp
        · exact h2 _ hd
        · exact h3 p hp

/-! ## MkdirAll on the OS-backed store -/

theorem take_succ_cons_append (pre : List Seg) (s : Seg) (rest : List Seg) (i : Nat) :
    pre ++ (s :: rest).take (i + 1) = (pre ++ [s]) ++ rest.take i := by
  simp

/-- The loop of `MkdirAll` on an OS-backed store with an absolute clean
root, started below a directory the caller reaches and fully controls, when
every path it visits is absent or a directory granting full access and the
mode asked for grants full access too: it succeeds, and every path is a
directory afterwards. -/
theorem os_mkdirEach_dirs {R : List Seg} (hR : ∀ s ∈ R, ProperSeg s) (perm : FileMode) :
    ∀ (rest pre : List Seg) (hs : os.HostFS), (∀ s ∈ pre ++ rest, HostName s) →
      os.pathErr (rootPath (R ++ (pre ++ rest))) = none →
      os.UsableRoot (R ++ pre) hs →
      os.granted hs (.dir (hs.newMode perm)) = true →
      (∀ i, 1 ≤ i → i ≤ rest.length → hs.get (R ++ (pre ++ rest.take i)) = none ∨
        ∃ m, hs.get (R ++ (pre ++ rest.take i)) = some (.dir m) ∧
          os.granted hs (.dir m) = true) →
      ∃ hs', mkdirEach (osStorage (osfs.NewOSFS (rootPath R))) perm hs (cumulative pre rest)
          = (hs', none) ∧
        hs'.privileged = hs.privileged ∧ hs'.umask = hs.umask ∧
        (∀ k, os.isDirAt hs k = true → os.isDirAt hs' k = true) ∧
        ∀ i, 1 ≤ i → i ≤ rest.length → os.isDirAt hs' (R ++ (pre ++ rest.take i)) = true
  | [], pre, hs, _, _, _, _, _ =>
    ⟨hs, rfl, rfl, rfl, fun _ h => h, fun i h1 h2 => by simp at h2; omega⟩
  | s :: rest, pre, hs, hnames, hp, hroot, hgr, hex => by
    have hs' : HostName s := hnames s (by simp)
    have hT : ∀ x ∈ pre ++ [s], ProperSeg x := fun x hx => (hnames x (by
      simp at hx ⊢
      rcases hx with hx | hx
      · exact Or.inl hx
      · exact Or.inr (Or.inl hx))).1
    have hnames' : ∀ x ∈ (pre ++ [s]) ++ rest, HostName x := by simpa using hnames
    have hp' : os.pathErr (rootPath (R ++ ((pre ++ [s]) ++ rest))) = none := by
      simpa using hp
    obtain ⟨hjoin, hkey⟩ := hostPath_joinSep hR (T := pre ++ [s]) (by simp) hT
    have hp1 : os.pathErr (rootPath (R ++ (pre ++ [s]))) = none :=
      pathErr_rootPath_prefix hp _ (by
        have : R ++ (pre ++ (s :: rest)) = (R ++ (pre ++ [s])) ++ rest := by simp
        rw [this]
        exact List.prefix_append _ _)
    obtain ⟨m0, hw, hg0⟩ := hroot
    obtain ⟨_, hwr0, hsr0⟩ := granted_dir hg0
    have hg0' := walkDirs_ok_get hw
    rw [List.nil_append] at hg0'
    have hkey' : R ++ (pre ++ [s]) = (R ++ pre) ++ [s] := by simp
    have hll : os.lookupLast hs (R ++ (pre ++ [s])) =
        match hs.get (R ++ (pre ++ [s])) with
        | some n => .found n
        | none => .absent := by
      rw [hkey']
      exact lookupLast_under_root ⟨m0, hw, hg0⟩ s hs'.2
    have hshift : ∀ (h2 : os.HostFS), (∀ k, k ≠ R ++ (pre ++ [s]) → h2.get k = hs.get k) →
        h2.privileged = hs.privileged →
        ∀ i, 1 ≤ i → i ≤ rest.length → h2.get (R ++ ((pre ++ [s]) ++ rest.take i)) = none ∨
          ∃ m, h2.get (R ++ ((pre ++ [s]) ++ rest.take i)) = some (.dir m) ∧
            os.granted h2 (.dir m) = true := by
      intro h2 hsame hpriv i hi1 hi2
      have hne : R ++ ((pre ++ [s]) ++ rest.take i) ≠ R ++ (pre ++ [s]) := by
        intro e
        have := congrArg List.length e
        simp only [List.length_append, List.length_take, List.length_singleton,
          List.length_cons] at this
        omega
      have := hex (i + 1) (by omega) (by simpa using hi2)
      rw [take_succ_cons_append] at this
      rw [hsame _ hne]
      rcases this with h | ⟨m, hm, hgm⟩
      · exact Or.inl h
      · exact Or.inr ⟨m, hm, (granted_congr hs h2 hpriv _).trans hgm⟩
    have hfirst := hex 1 (by omega) (by simp)
    simp only [List.take_succ_cons, List.take_zero] at hfirst
    rcases hfirst with hnone | ⟨m1, hm1, hgm1⟩
    · -- the directory is made
      rw [hnone] at hll
      have hwA : os.writableAt hs (R ++ (pre ++ [s])).dropLast = true := by
        rw [hkey', List.dropLast_concat]
        simp [os.writableAt, hg0', hwr0]
      have hmk : (osStorage (osfs.NewOSFS (rootPath R))).Mkdir hs (joinSep (pre ++ [s])) perm
          = .ok (hs.put (R ++ (pre ++ [s])) (.dir (hs.newMode perm))) := by
        show os.Mkdir hs (filepath.Join [rootPath R, joinSep (pre ++ [s])]) perm = _
        unfold os.Mkdir
        rw [hjoin] at hkey ⊢
        simp only [hp1, hkey, hll, hwA, if_true]
      have hw1 : os.walkDirs (hs.put (R ++ (pre ++ [s])) (.dir (hs.newMode perm))) []
          (R ++ (pre ++ [s])) = .ok (hs.newMode perm) := by
        rw [hkey', walkDirs_snoc,
          walkDirs_congr hs (hs.put (R ++ pre ++ [s]) (.dir (hs.newMode perm))) rfl (R ++ pre) []
            ?_, hw, get_put, if_pos rfl]
        · have : ∀ k n, (hs.put k n).maySearch m0 = true := fun _ _ => hsr0
          simp [this, Nat.not_lt.mpr hs'.2]
        · intro a ha _
          rw [get_put, if_neg]
          intro e
          have := ha.length_le
          rw [e] at this
          simp at this
      obtain ⟨hs2, h1, h2, h3, h4, h5⟩ := os_mkdirEach_dirs hR perm rest (pre ++ [s])
        (hs.put (R ++ (pre ++ [s])) (.dir (hs.newMode perm))) hnames' hp'
        ⟨_, hw1, (granted_congr hs (hs.put (R ++ (pre ++ [s])) (.dir (hs.newMode perm))) rfl
          _).trans hgr⟩
        ((granted_congr hs (hs.put (R ++ (pre ++ [s])) (.dir (hs.newMode perm))) rfl _).trans hgr)
        (hshift _ (fun k hk => by rw [get_put, if_neg hk]) rfl)
      refine ⟨hs2, ?_, h2, h3, ?_, ?_⟩
      · show mkdirEach _ perm hs (joinSep (pre ++ [s]) :: cumulative (pre ++ [s]) rest) = _
        unfold mkdirEach
        simp only [hmk]
        exact h1
      · intro k hk
        apply h4
        obtain ⟨m, hm⟩ := isDirAt_iff.mp hk
        rw [isDirAt_iff, get_put]
        by_cases e : k = R ++ (pre ++ [s])
        · exact ⟨_, by rw [if_pos e]⟩
        · exact ⟨m, by rw [if_neg e, hm]⟩
      · intro i hi1 hi2
        cases i with
        | zero => omega
        | succ i =>
          rw [take_succ_cons_append]
          by_cases hi : i = 0
          · subst hi
            simp only [List.take_zero, List.append_nil]
            apply h4
            rw [isDirAt_iff, get_put, if_pos rfl]
            exact ⟨_, rfl⟩
          · exact h5 i (by omega) (by simpa using hi2)
    · -- the directory exists
      rw [hm1] at hll
      have hmk : (osStorage (osfs.NewOSFS (rootPath R))).Mkdir hs (joinSep (pre ++ [s])) perm
          = .error .alreadyExists := by
        show os.Mkdir hs (filepath.Join [rootPath R, joinSep (pre ++ [s])]) perm = _
        rw [os_Mkdir_alreadyExists, hjoin] at *
        rw [hkey]
        exact ⟨hp1, _, hll⟩
      have hw1 : os.walkDirs hs [] (R ++ (pre ++ [s])) = .ok m1 := by
        rw [hkey', walkDirs_snoc, hw, ← hkey', hm1]
        simp [hsr0, Nat.not_lt.mpr hs'.2]
      obtain ⟨hs2, h1, h2, h3, h4, h5⟩ := os_mkdirEach_dirs hR perm rest (pre ++ [s]) hs
        hnames' hp' ⟨_, hw1, hgm1⟩ hgr (hshift hs (fun _ _ => rfl) rfl)
      refine ⟨hs2, ?_, h2, h3, h4, ?_⟩
      · show mkdirEach _ perm hs (joinSep (pre ++ [s]) :: cumulative (pre ++ [s]) rest) = _
        unfold mkdirEach
        simp only [hmk]
        exact h1
      · intro i hi1 hi2
        cases i with
        | zero => omega
        | succ i =>
          rw [take_succ_cons_append]
          by_cases hi : i = 0
          · subst hi
            simp only [List.take_zero, List.append_nil]
            apply h4
            rw [isDirAt_iff]
            exact ⟨_, hm1⟩
          · exact h5 i (by omega) (by simpa using hi2)

theorem ancestorPaths_joinSep {segs : List Seg} (hne : segs ≠ [])
    (hsegs : ∀ s ∈ segs, s ≠ [] ∧ '/' ∉ s) {path : Path}
    (hpath : path = joinSep segs ∨ path = joinSep segs ++ ['/']) :
    ancestorPaths path = cumulative [] segs := by
  have hsplit : splitSep (joinSep segs) = segs :=
    splitSep_joinSep hne (fun s hs => (hsegs s hs).2)
  have hfilter : segs.filter (fun s => decide (s ≠ [])) = segs := by
    rw [List.filter_eq_self]
    intro s hs
    simpa using (hsegs s hs).1
  unfold ancestorPaths
  rcases hpath with rfl | rfl
  · rw [hsplit, hfilter]
  · rw [splitSep_append_sep, hsplit, List.filter_append, hfilter]
    show cumulative [] (segs ++ []) = cumulative [] segs
    rw [List.append_nil]

/-! ## MkdirAll: idempotence and ancestors (C2, C3) -/

/-- C2 (as stated, refuted): once the regular file `a` exists, `MkdirAll("a/b")`
fails, and calling it a second time in succession fails again, on the
OS-backed store rooted at `/tmp` (the host reports "not a directory") and on
the in-memory store (not-found error). -/
theorem MkdirAll_second_call_fails :
    (∃ hs, (osStorage (osfs.NewOSFS "/tmp".toList)).WriteFile (os.freshHost "/tmp".toList)
        "a".toList [1] 0o644 = .ok hs ∧
      (MkdirAll (osStorage (osfs.NewOSFS "/tmp".toList)) hs "a/b".toList 0o755).2
        = some .notDirectory ∧
      (MkdirAll (osStorage (osfs.NewOSFS "/tmp".toList))
        (MkdirAll (osStorage (osfs.NewOSFS "/tmp".toList)) hs "a/b".toList 0o755).1
        "a/b".toList 0o755).2 = some .notDirectory) ∧
    (∃ m, memoryStorage.WriteFile memory.NewMemory "a".toList [1] 0o644 = .ok m ∧
      (MkdirAll memoryStorage m "a/b".toList 0o755).2 = some .notFound ∧
      (MkdirAll memoryStorage (MkdirAll memoryStorage m "a/b".toList 0o755).1
        "a/b".toList 0o755).2 = some .notFound) := by
  exact ⟨⟨_, rfl, by decide, by decide⟩, ⟨_, rfl, by decide, by decide⟩⟩

/-- C2 (amended): on both backends, if `MkdirAll(store, P, M)` succeeds then
calling it again in succession succeeds too and leaves the store as it is.
And `MkdirAll` succeeds, every ancestor path of `P` being a directory
afterwards, whenever each of them is either absent or a directory already
(so a directory that exists at any segment is treated as success); on the
OS-backed store this is for an absolute clean root the caller reaches and
fully controls, a path `P` of proper elements of at most `NAME_MAX` bytes
whose host path passes the checks on a path, existing directories that
grant the caller full access, and a mode `M` that does so too. -/
theorem MkdirAll_idempotent :
    (∀ (m m' : memory.Memory) (P : Path) (M : FileMode),
      MkdirAll memoryStorage m P M = (m', none) →
        MkdirAll memoryStorage m' P M = (m', none)) ∧
    (∀ (o : osfs.OSFS) (hs hs' : os.HostFS) (P : Path) (M : FileMode),
      MkdirAll (osStorage o) hs P M = (hs', none) →
        MkdirAll (osStorage o) hs' P M = (hs', none)) ∧
    (∀ (m : memory.Memory) (P : Path) (M : FileMode),
      (∀ p ∈ ancestorPaths P, m p = none ∨ memory.isDirAt m p = true) →
        ∃ m', MkdirAll memoryStorage m P M = (m', none) ∧
          ∀ p ∈ ancestorPaths P, memory.isDirAt m' p = true) ∧
    (∀ (R : List Seg) (hs : os.HostFS) (segs : List Seg) (P : Path) (M : FileMode),
      (∀ s ∈ R, ProperSeg s) → segs ≠ [] → (∀ s ∈ segs, HostName s) →
      (P = joinSep segs ∨ P = joinSep segs ++ ['/']) →
      os.pathErr (rootPath (R ++ segs)) = none →
      os.UsableRoot R hs →
      os.granted hs (.dir (hs.newMode M)) = true →
      (∀ i, 1 ≤ i → i ≤ segs.length → hs.get (R ++ segs.take i) = none ∨
        ∃ m, hs.get (R ++ segs.take i) = some (.dir m) ∧ os.granted hs (.dir m) = true) →
        ∃ hs', MkdirAll (osStorage (osfs.NewOSFS (rootPath R))) hs P M = (hs', none) ∧
          ∀ i, 1 ≤ i → i ≤ segs.length → os.isDirAt hs' (R ++ segs.take i) = true) := by
  refine ⟨?_, ?_, ?_, ?_⟩
  · intro m m' P M h
    refine mkdirEach_idempotent memoryStorage M (fun st p => st p ≠ none) ?_ ?_ ?_ ?_ h
    · intro st st' p hm
      obtain ⟨_, rfl⟩ := memory_Mkdir_ok hm
      simp [memory.put]
    · intro st st' p q hm hq
      obtain ⟨_, rfl⟩ := memory_Mkdir_ok hm
      unfold memory.put
      by_cases e : q = p <;> simp [e, hq]
    · intro st p hm
      exact (memory_Mkdir_alreadyExists st p M).mp hm
    · intro st p hp
      exact (memory_Mkdir_alreadyExists st p M).mpr hp
  · intro o hs hs' P M h
    refine mkdirEach_idempotent (osStorage o) M
      (fun st p => os.pathErr (o.hostPath p) = none ∧
        ∃ n, os.lookupLast st (os.hostKey (o.hostPath p)) = .found n) ?_ ?_ ?_ ?_ h
    · intro st st' p hm
      have hm' : os.Mkdir st (filepath.Join [o.rootDir, p]) M = .ok st' := hm
      obtain ⟨hp, hl, _, rfl⟩ := os_Mkdir_ok hm'
      exact ⟨hp, _, lookupLast_put_self _ (Or.inl hl)⟩
    · intro st st' p q hm hq
      have hm' : os.Mkdir st (filepath.Join [o.rootDir, p]) M = .ok st' := hm
      obtain ⟨_, hl, _, rfl⟩ := os_Mkdir_ok hm'
      obtain ⟨hpq, n, hn⟩ := hq
      refine ⟨hpq, n, ?_⟩
      rw [lookupLast_put_other _ ?_]
      · exact hn
      · intro hpre
        exact lookupLast_found_prefix hn _ hpre (lookupLast_absent hl).2.1
    · intro st p hm
      exact (os_Mkdir_alreadyExists st _ M).mp hm
    · intro st p hp
      exact (os_Mkdir_alreadyExists st _ M).mpr hp
  · intro m P M h
    obtain ⟨m', h1, _, h3⟩ := memory_mkdirEach_dirs M
      ((splitSep P).filter (fun s => decide (s ≠ []))) [] m
      (by
        intro s hs
        rw [List.nil_append] at hs
        exact not_mem_of_mem_splitSep (List.mem_filter.mp hs).1)
      (by intro h; exact absurd rfl h) h
    exact ⟨m', h1, h3⟩
  · intro R hs segs P M hR hne hnames hP hp hroot hgr hex
    have hsegs : ∀ s ∈ segs, s ≠ [] ∧ '/' ∉ s := fun s hs =>
      ⟨(hnames s hs).1.1, (hnames s hs).1.2.2.2⟩
    obtain ⟨hs', h1, _, _, _, h5⟩ := os_mkdirEach_dirs hR M segs [] hs
      (by simpa using hnames) (by simpa using hp) (by simpa using hroot) hgr
      (by simpa using hex)
    refine ⟨hs', ?_, by simpa using h5⟩
    unfold MkdirAll
    rw [ancestorPaths_joinSep hne hsegs hP]
    exact h1

/-- Witness for C2: `MkdirAll("test/nested/deep/")` twice on the fresh
in-memory store and on the fresh OS-backed store rooted at `/tmp`; and
`MkdirAll("a/b")` when the directory `a` exists already, on both backends. -/
theorem MkdirAll_idempotent_witness :
    (∃ m, MkdirAll memoryStorage memory.NewMemory "test/nested/deep/".toList 0o755
        = (m, none) ∧
      MkdirAll memoryStorage m "test/nested/deep/".toList 0o755 = (m, none)) ∧
    (∃ hs, MkdirAll (osStorage (osfs.NewOSFS "/tmp".toList)) (os.freshHost "/tmp".toList)
        "test/nested/deep/".toList 0o755 = (hs, none) ∧
      MkdirAll (osStorage (osfs.NewOSFS "/tmp".toList)) hs "test/nested/deep/".toList 0o755
        = (hs, none)) ∧
    (∃ m', MkdirAll memoryStorage (memory.put memory.NewMemory "a".toList (.dir 0o755))
        "a/b".toList 0o755 = (m', none) ∧ memory.isDirAt m' "a/b".toList = true) ∧
    (∃ hs', MkdirAll (osStorage (osfs.NewOSFS "/tmp".toList))
        ((os.freshHost "/tmp".toList).put ["tmp".toList, "a".toList] (.dir 0o755))
        "a/b".toList 0o755 = (hs', none) ∧
      os.isDirAt hs' ["tmp".toList, "a".toList, "b".toList] = true) := by
  refine ⟨⟨_, rfl, ?_⟩, ⟨_, rfl, ?_⟩, ?_, ?_⟩
  · exact MkdirAll_idempotent.1 memory.NewMemory _ "test/nested/deep/".toList 0o755 rfl
  · exact MkdirAll_idempotent.2.1 (osfs.NewOSFS "/tmp".toList) (os.freshHost "/tmp".toList) _
      "test/nested/deep/".toList 0o755 rfl
  · obtain ⟨m', h1, h2⟩ := MkdirAll_idempotent.2.2.1
      (memory.put memory.NewMemory "a".toList (.dir 0o755)) "a/b".toList 0o755 (by decide)
    exact ⟨m', h1, h2 "a/b".toList (by decide)⟩
  · obtain ⟨hs', h1, h2⟩ := MkdirAll_idempotent.2.2.2 ["tmp".toList]
      ((os.freshHost "/tmp".toList).put ["tmp".toList, "a".toList] (.dir 0o755))
      ["a".toList, "b".toList] "a/b".toList 0o755 (by decide) (by decide) (by decide)
      (Or.inl (by decide)) (by decide) ⟨0o755, by decide, by decide⟩ (by decide)
      (by
        intro i hi1 hi2
        have : i = 1 ∨ i = 2 := by
          simp at hi2
          omega
        rcases this with rfl | rfl
        · exact Or.inr ⟨0o755, by decide, by decide⟩
        · exact Or.inl (by decide))
    exact ⟨hs', h1, h2 2 (by decide) (by decide)⟩

/-! ## `MkdirAll` on a fresh in-memory store -/

/-- The loop of `MkdirAll` on the in-memory store, started with the elements
`pre` made and nothing else in the store: every further level is created. -/
theorem mkdirEach_cumulative (perm : FileMode) :
    ∀ (rest pre : List Seg) (m : memory.Memory), (∀ s ∈ pre ++ rest, '/' ∉ s) →
      (∀ q, m q ≠ none → ∃ j, 1 ≤ j ∧ j ≤ pre.length ∧ q = joinSep (pre.take j)) →
      (pre ≠ [] → memory.isDirAt m (joinSep pre) = true) →
      ∃ m', mkdirEach memoryStorage perm m (cumulative pre rest) = (m', none) ∧
        (∀ q e, m q = some e → m' q = some e) ∧
        (∀ i, 1 ≤ i → i ≤ rest.length →
          m' (joinSep (pre ++ rest.take i)) = some (memory.Entry.dir perm))
  | [], pre, m, _, _, _ => ⟨m, rfl, fun _ _ h => h, fun i h1 h2 => by simp at h2; omega⟩
  | s :: rest, pre, m, hsep, hinv, hdir => by
    have hs : '/' ∉ s := hsep s (by simp)
    have hpre : ∀ x ∈ pre ++ [s], '/' ∉ x := fun x hx => hsep x (by
      simp at hx ⊢
      rcases hx with hx | hx
      · exact Or.inl hx
      · exact Or.inr (Or.inl hx))
    have habsent : m (joinSep (pre ++ [s])) = none := by
      by_contra hc
      obtain ⟨j, hj1, hj2, hj⟩ := hinv _ hc
      have hne : pre.take j ≠ [] := by
        intro e
        have := congrArg List.length e
        simp only [List.length_take, List.length_nil] at this
        omega
      have := joinSep_injective (by simp) hne hpre
        (fun x hx => hpre x (List.mem_append_left _ (List.mem_of_mem_take hx))) hj
      have hl := congrArg List.length this
      simp only [List.length_append, List.length_take, List.length_singleton] at hl
      omega
    have hmk : memory.Mkdir m (joinSep (pre ++ [s])) perm
        = .ok (memory.put m (joinSep (pre ++ [s])) (.dir perm)) := by
      unfold memory.Mkdir
      simp only [habsent, parentOf_joinSep_snoc pre hs]
      by_cases hne : pre = []
      · simp [hne]
      · simp [hne, hdir hne]
    obtain ⟨m', h1, h2, h3⟩ := mkdirEach_cumulative perm rest (pre ++ [s])
      (memory.put m (joinSep (pre ++ [s])) (.dir perm))
      (by simpa using hsep)
      (by
        intro q hq
        by_cases e : q = joinSep (pre ++ [s])
        · exact ⟨pre.length + 1, by omega, by simp,
            by rw [e, List.take_of_length_le (by simp)]⟩
        · have : m q ≠ none := by simpa [memory.put, e] using hq
          obtain ⟨j, hj1, hj2, hj⟩ := hinv q this
          exact ⟨j, hj1, by simp; omega, by rw [hj, List.take_append_of_le_length hj2]⟩)
      (by
        intro _
        simp [memory.isDirAt, memory.put])
    refine ⟨m', ?_, ?_, ?_⟩
    · show mkdirEach memoryStorage perm m (joinSep (pre ++ [s]) :: cumulative (pre ++ [s]) rest) = _
      unfold mkdirEach
      have : memoryStorage.Mkdir m (joinSep (pre ++ [s])) perm
          = .ok (memory.put m (joinSep (pre ++ [s])) (.dir perm)) := hmk
      simp only [this]
      exact h1
    · intro q e hq
      apply h2
      have : q ≠ joinSep (pre ++ [s]) := by
        rintro rfl
        rw [habsent] at hq
        cases hq
      simp [memory.put, this, hq]
    · intro i hi1 hi2
      cases i with
      | zero => omega
      | succ i =>
        simp only [List.take_succ_cons]
        by_cases hi : i = 0
        · subst hi
          simp only [List.take_zero]
          exact h2 _ _ (by simp [memory.put])
        · have := h3 i (by omega) (by simpa using hi2)
          simpa using this

/-- C3: on a fresh in-memory store, for every path made of non-empty
elements `s1/s2/.../sn`, written with or without a trailing separator,
`MkdirAll(store, path, mode)` succeeds, and afterwards `stat` of every prefix
`s1/.../si` (1 <= i <= n) succeeds and reports a directory of size 0. -/
theorem MkdirAll_creates_every_ancestor (segs : List Seg) (perm : FileMode) (path : Path)
    (hne : segs ≠ []) (hsegs : ∀ s ∈ segs, s ≠ [] ∧ '/' ∉ s)
    (hpath : path = joinSep segs ∨ path = joinSep segs ++ ['/']) :
    ∃ m', MkdirAll memoryStorage memory.NewMemory path perm = (m', none) ∧
      ∀ i, 1 ≤ i → i ≤ segs.length →
        ∃ info, memoryStorage.Stat m' (joinSep (segs.take i)) = .ok info ∧
          info.isDir = true ∧ info.size = some 0 := by
  obtain ⟨m', h1, _, h3⟩ := mkdirEach_cumulative perm segs [] memory.NewMemory
    (by simpa using fun s hs => (hsegs s hs).2)
    (by intro q hq; exact absurd rfl hq)
    (by intro h; exact absurd rfl h)
  refine ⟨m', ?_, ?_⟩
  · unfold MkdirAll
    rw [ancestorPaths_joinSep hne hsegs hpath]
    exact h1
  · intro i hi1 hi2
    have := h3 i hi1 hi2
    simp only [List.nil_append] at this
    exact ⟨⟨baseName (joinSep (segs.take i)), some 0, true⟩,
      by simp [memoryStorage, memory.Stat, this], rfl, rfl⟩

/-- Witness for C3: `MkdirAll("x/y/z/")` on a fresh in-memory store, then
`stat("x/y")` reports a directory of size 0. -/
theorem MkdirAll_creates_every_ancestor_witness :
    ∃ m', MkdirAll memoryStorage memory.NewMemory "x/y/z/".toList 0o755 = (m', none) ∧
      memoryStorage.Stat m' "x/y".toList = .ok ⟨"y".toList, some 0, true⟩ := by
  obtain ⟨m', h1, h2⟩ := MkdirAll_creates_every_ancestor
    ["x".toList, "y".toList, "z".toList] 0o755 "x/y/z/".toList (by decide) (by decide)
    (Or.inr (by decide))
  refine ⟨m', h1, ?_⟩
  obtain ⟨info, hinfo, _, _⟩ := h2 2 (by decide) (by decide)
  have hm : m' = (MkdirAll memoryStorage memory.NewMemory "x/y/z/".toList 0o755).1 := by
    rw [h1]
  subst hm
  decide

/-! ## The ancestor invariant -/

/-- Under the ancestor invariant every proper ancestor path of an entry is a
directory. -/
theorem ancestors_are_dirs {m : memory.Memory} (hinv : memory.AncestorInv m) :
    ∀ (n : Nat) (p : Path), p.length ≤ n → m p ≠ none →
      ∀ a, IsAncestorPath a p = true → memory.isDirAt m a = true := by
  intro n
  induction n with
  | zero =>
    intro p hp _ a ha
    have : p = [] := List.length_eq_zero.mp (Nat.le_zero.mp hp)
    subst this
    simp [IsAncestorPath] at ha
  | succ n ih =>
    intro p hp hm a ha
    cases hpar : memory.parentOf p with
    | none =>
      exfalso
      have hno := not_mem_of_parentOf_none hpar
      unfold IsAncestorPath at ha
      rw [List.isPrefixOf_iff_prefix] at ha
      exact hno (ha.subset (by simp))
    | some q =>
      obtain ⟨s, hs, e⟩ := parentOf_eq_some hpar
      have hq : memory.isDirAt m q = true := hinv p q hm hpar
      subst e
      rcases ancestor_of_snoc hs ha with rfl | h
      · exact hq
      · apply ih q _ _ a h
        · simp at hp
          omega
        · intro hnone
          simp [memory.isDirAt, hnone] at hq

theorem memory_isDirAt_put_other {m : memory.Memory} {p q : Path} (e : memory.Entry)
    (h : memory.isDirAt m q = true) (hne : q ≠ p) :
    memory.isDirAt (memory.put m p e) q = true := by
  simpa [memory.isDirAt, memory.put, hne] using h

/-- Inserting an entry at an absent (or non-directory) path whose parent is
a directory keeps the ancestor invariant. -/
theorem AncestorInv_put {m : memory.Memory} (hinv : memory.AncestorInv m) {p : Path}
    (e : memory.Entry) (hpar : ∀ q, memory.parentOf p = some q → memory.isDirAt m q = true)
    (hnd : memory.isDirAt m p = false) : memory.AncestorInv (memory.put m p e) := by
  intro x q hx hxq
  have hq : memory.isDirAt m q = true := by
    by_cases hxp : x = p
    · subst hxp
      exact hpar q hxq
    · have : m x ≠ none := by simpa [memory.put, hxp] using hx
      exact hinv x q this hxq
  apply memory_isDirAt_put_other e hq
  rintro rfl
  rw [hq] at hnd
  cases hnd

theorem AncestorInv_RemoveAll {m : memory.Memory} (hinv : memory.AncestorInv m) (p : Path) :
    memory.AncestorInv
      (fun q => if q = p ∨ (p ++ ['/']).isPrefixOf q = true then none else m q) := by
  intro x q hx hxq
  have hx' : (if x = p ∨ (p ++ ['/']).isPrefixOf x = true then none else m x) ≠ none := hx
  by_cases hc : x = p ∨ (p ++ ['/']).isPrefixOf x = true
  · rw [if_pos hc] at hx'
    exact absurd rfl hx'
  · have hmx : m x ≠ none := by rwa [if_neg hc] at hx'
    have hq := hinv x q hmx hxq
    obtain ⟨s, hs, e⟩ := parentOf_eq_some hxq
    have hc' : ¬ (q = p ∨ (p ++ ['/']).isPrefixOf q = true) := by
      rintro (rfl | h)
      · apply hc
        right
        rw [e, List.isPrefixOf_iff_prefix]
        exact ⟨s, by simp⟩
      · apply hc
        right
        rw [List.isPrefixOf_iff_prefix] at h ⊢
        rw [e]
        exact h.trans (List.prefix_append _ _)
    unfold memory.isDirAt at hq ⊢
    simp only [if_neg hc']
    exact hq

theorem memory_ancestors_stat {m : memory.Memory} (hinv : memory.AncestorInv m) {p : Path}
    (hex : m p ≠ none) (a : Path) (ha : IsAncestorPath a p = true) :
    memoryStorage.Stat m a = .ok ⟨baseName a, some 0, true⟩ := by
  have hd := ancestors_are_dirs hinv p.length p (Nat.le_refl _) hex a ha
  unfold memory.isDirAt at hd
  simp only [memoryStorage, memory.Stat]
  cases hk : m a with
  | none => simp [hk] at hd
  | some e =>
    cases e with
    | file d md => simp [hk] at hd
    | dir md => rfl

theorem AncestorInv_Mkdir {m m' : memory.Memory} {p : Path} {perm : FileMode}
    (hinv : memory.AncestorInv m) (h : memory.Mkdir m p perm = .ok m') :
    memory.AncestorInv m' ∧ m' p ≠ none := by
  obtain ⟨hnone, rfl⟩ := memory_Mkdir_ok h
  have hpar : ∀ q, memory.parentOf p = some q → memory.isDirAt m q = true := by
    intro q hq
    unfold memory.Mkdir at h
    simp only [hnone, hq] at h
    by_contra hc
    simp [hc] at h
  exact ⟨AncestorInv_put hinv (.dir perm) hpar (by simp [memory.isDirAt, hnone]),
    by simp [memory.put]⟩

theorem AncestorInv_writeEntry {m m' : memory.Memory} {p : Path} {d : Bytes} {perm : FileMode}
    (hinv : memory.AncestorInv m) (h : memory.writeEntry m p d perm = .ok m') :
    memory.AncestorInv m' ∧ m' p ≠ none := by
  obtain ⟨rfl, hnd, hpar⟩ := memory_writeEntry_ok h
  exact ⟨AncestorInv_put hinv (.file d perm) hpar hnd, by simp [memory.put]⟩

theorem AncestorInv_stateAfter {m : memory.Memory} (hinv : memory.AncestorInv m)
    {r : Except StorageError memory.Memory} (h : ∀ m', r = .ok m' → memory.AncestorInv m') :
    memory.AncestorInv (stateAfter m r) := by
  cases r with
  | ok m' => exact h m' rfl
  | error e => exact hinv

/-- Every interface call keeps the ancestor invariant of the in-memory
store. -/
theorem AncestorInv_step {m : memory.Memory} (hinv : memory.AncestorInv m) (c : Call) :
    memory.AncestorInv (step memoryStorage m c).1 := by
  match c with
  | .open _ => exact hinv
  | .create _ => exact AncestorInv_stateAfter hinv (fun _ h => (AncestorInv_writeEntry hinv h).1)
  | .writeFile _ _ _ =>
    exact AncestorInv_stateAfter hinv (fun _ h => (AncestorInv_writeEntry hinv h).1)
  | .mkdir _ _ => exact AncestorInv_stateAfter hinv (fun _ h => (AncestorInv_Mkdir hinv h).1)
  | .removeAll n => exact AncestorInv_RemoveAll hinv n
  | .stat _ => exact hinv

theorem AncestorInv_runState :
    ∀ (cs : List Call) (m : memory.Memory), memory.AncestorInv m →
      memory.AncestorInv (runState memoryStorage m cs)
  | [], _, h => h
  | c :: cs, _, h => AncestorInv_runState cs _ (AncestorInv_step h c)

theorem walkDirs_prefix_ok {hs : os.HostFS} {A B : List Seg} {m : FileMode}
    (h : os.walkDirs hs [] (A ++ B) = .ok m) : ∃ m', os.walkDirs hs [] A = .ok m' := by
  rw [walkDirs_append] at h
  cases hA : os.walkDirs hs [] A with
  | error e => simp [hA] at h
  | ok m' => exact ⟨m', rfl⟩

/-- On the way to an entry that the lookup finds, or finds missing in its
directory, every proper ancestor is a directory that the lookup finds. -/
theorem lookupLast_ancestor {hs : os.HostFS} {K : List Seg}
    (h : os.lookupLast hs K = .absent ∨ ∃ n, os.lookupLast hs K = .found n)
    {a : List Seg} (ha : a <+: K) (hne : a ≠ K) :
    ∃ m, os.lookupLast hs a = .found (.dir m) := by
  have hK : K ≠ [] := by
    rintro rfl
    exact hne (List.prefix_nil.mp ha)
  have hw : ∃ m, os.walkDirs hs [] K.dropLast = .ok m := by
    rcases h with h | ⟨n, h⟩
    · obtain ⟨_, _, _, m, hw, _⟩ := lookupLast_absent h
      exact ⟨m, hw⟩
    · obtain ⟨_, _, m, hw, _⟩ := lookupLast_found hK h
      exact ⟨m, hw⟩
  obtain ⟨m, hw⟩ := hw
  have ha' : a <+: K.dropLast := by
    induction K using List.reverseRecOn with
    | nil => exact absurd rfl hK
    | append_singleton A s _ =>
      rw [List.dropLast_concat]
      rcases List.prefix_concat_iff.mp ha with h1 | h1
      · exact absurd h1 hne
      · exact h1
  obtain ⟨B, hB⟩ := ha'
  rw [← hB] at hw
  obtain ⟨m', hm'⟩ := walkDirs_prefix_ok hw
  exact ⟨m', lookupLast_of_walkDirs hm'⟩

/-- After an entry has been put at a path the lookup of which found it or
found it missing in its directory, `Stat` reports every name that resolves
to a proper ancestor as a directory. -/
theorem OSFS_Stat_ancestor {R : List Seg} (hR : ∀ s ∈ R, ProperSeg s) {hs : os.HostFS}
    {p : Path} (n : os.Node) (hp : os.pathErr (filepath.Join [rootPath R, p]) = none)
    (hl : os.lookupLast hs (os.hostKey (filepath.Join [rootPath R, p])) = .absent ∨
      ∃ n', os.lookupLast hs (os.hostKey (filepath.Join [rootPath R, p])) = .found n')
    {a : Path}
    (ha : os.hostKey (filepath.Join [rootPath R, a]) <+: os.hostKey (filepath.Join [rootPath R, p]))
    (hne : os.hostKey (filepath.Join [rootPath R, a]) ≠ os.hostKey (filepath.Join [rootPath R, p])) :
    ∃ info, os.Stat (hs.put (os.hostKey (filepath.Join [rootPath R, p])) n)
        (filepath.Join [rootPath R, a]) = .ok info ∧ info.isDir = true := by
  obtain ⟨m, hm⟩ := lookupLast_ancestor hl ha hne
  have hpa : os.pathErr (filepath.Join [rootPath R, a]) = none := by
    rw [Join_rootPath hR] at hp ⊢
    rw [hostKey_Join_rootPath hR, hostKey_Join_rootPath hR] at ha
    exact pathErr_rootPath_prefix hp _ ha
  have hl' : os.lookupLast (hs.put (os.hostKey (filepath.Join [rootPath R, p])) n)
      (os.hostKey (filepath.Join [rootPath R, a])) = .found (.dir m) := by
    rw [lookupLast_put_other, hm]
    intro hc
    exact hne (List.Sublist.antisymm ha.sublist hc.sublist)
  exact ⟨⟨os.basename (filepath.Join [rootPath R, a]), none, true⟩,
    by simp only [os.Stat, hpa, hl'], rfl⟩

theorem ancestor_key_prefix {R : List Seg} {a p : Path} (hp : NoDotDot p)
    (ha : IsAncestorPath a p = true) :
    filepath.cleanSegs true R a <+: filepath.cleanSegs true R p := by
  unfold IsAncestorPath at ha
  rw [List.isPrefixOf_iff_prefix] at ha
  obtain ⟨rest, hrest⟩ := ha
  have e : p = a ++ '/' :: rest := by rw [← hrest]; simp
  have hr : NoDotDot rest := by
    unfold NoDotDot at hp ⊢
    rw [e, splitSep_append_sep] at hp
    exact fun h => hp (List.mem_append_right _ h)
  obtain ⟨X, hX⟩ := cleanSegs_noDotDot true (filepath.cleanSegs true R a) hr
  rw [e, cleanSegs_append_sep, hX]
  exact List.prefix_append _ _

/-- C4: the ancestor invariant.  In-memory store: in every state reached from
the empty store through interface calls the immediate parent of every entry
is a directory entry, and after a successful `mkdir`, `writeFile` or `create`
at `p` in such a state every proper ancestor path of `p` is present and
`stat` reports it as a directory.  OS-backed store with an absolute clean
root: in every host state, after a successful `mkdir`, `writeFile` or `create`
at `p`, `stat` reports as a directory every name that resolves to a proper
ancestor of the host path of `p`; when `p` has no `..` element these are the
proper ancestor paths of `p` (the texts before a separator of `p`), except
such as resolve to the host path of `p` itself (`a` for `a/.`). -/
theorem ancestor_invariant :
    (∀ calls : List Call,
      memory.AncestorInv (runState memoryStorage memory.NewMemory calls)) ∧
    (∀ (calls : List Call) (p : Path) (b : Bytes) (perm : FileMode) (m' : memory.Memory),
      (memoryStorage.Mkdir (runState memoryStorage memory.NewMemory calls) p perm = .ok m' ∨
        memoryStorage.WriteFile (runState memoryStorage memory.NewMemory calls) p b perm
          = .ok m' ∨
        memoryStorage.Create (runState memoryStorage memory.NewMemory calls) p = .ok m') →
      ∀ a, IsAncestorPath a p = true →
        memoryStorage.Stat m' a = .ok ⟨baseName a, some 0, true⟩) ∧
    (∀ (R : List Seg), (∀ s ∈ R, ProperSeg s) →
      ∀ (hs hs' : os.HostFS) (p : Path) (b : Bytes) (perm : FileMode),
        ((osStorage (osfs.NewOSFS (rootPath R))).Mkdir hs p perm = .ok hs' ∨
          (osStorage (osfs.NewOSFS (rootPath R))).WriteFile hs p b perm = .ok hs' ∨
          (osStorage (osfs.NewOSFS (rootPath R))).Create hs p = .ok hs') →
        (∀ a, os.hostKey ((osfs.NewOSFS (rootPath R)).hostPath a)
              <+: os.hostKey ((osfs.NewOSFS (rootPath R)).hostPath p) →
            os.hostKey ((osfs.NewOSFS (rootPath R)).hostPath a)
              ≠ os.hostKey ((osfs.NewOSFS (rootPath R)).hostPath p) →
            ∃ info, (osStorage (osfs.NewOSFS (rootPath R))).Stat hs' a = .ok info ∧
              info.isDir = true) ∧
        (NoDotDot p → ∀ a, IsAncestorPath a p = true →
            os.hostKey ((osfs.NewOSFS (rootPath R)).hostPath a)
              ≠ os.hostKey ((osfs.NewOSFS (rootPath R)).hostPath p) →
            ∃ info, (osStorage (osfs.NewOSFS (rootPath R))).Stat hs' a = .ok info ∧
              info.isDir = true)) := by
  have hmem : ∀ calls : List Call,
      memory.AncestorInv (runState memoryStorage memory.NewMemory calls) := fun calls =>
    AncestorInv_runState calls _ (fun p q hp => absurd rfl hp)
  have hos : ∀ (R : List Seg), (∀ s ∈ R, ProperSeg s) →
      ∀ (hs hs' : os.HostFS) (p : Path) (b : Bytes) (perm : FileMode),
        ((osStorage (osfs.NewOSFS (rootPath R))).Mkdir hs p perm = .ok hs' ∨
          (osStorage (osfs.NewOSFS (rootPath R))).WriteFile hs p b perm = .ok hs' ∨
          (osStorage (osfs.NewOSFS (rootPath R))).Create hs p = .ok hs') →
        ∀ a, os.hostKey (filepath.Join [rootPath R, a])
              <+: os.hostKey (filepath.Join [rootPath R, p]) →
            os.hostKey (filepath.Join [rootPath R, a])
              ≠ os.hostKey (filepath.Join [rootPath R, p]) →
            ∃ info, os.Stat hs' (filepath.Join [rootPath R, a]) = .ok info ∧
              info.isDir = true := by
    intro R hR hs hs' p b perm h a ha hne
    rcases h with h | h | h
    · have h' : os.Mkdir hs (filepath.Join [rootPath R, p]) perm = .ok hs' := h
      obtain ⟨hp, hl, _, rfl⟩ := os_Mkdir_ok h'
      exact OSFS_Stat_ancestor hR _ hp (Or.inl hl) ha hne
    · have h' : os.openTrunc hs (filepath.Join [rootPath R, p]) false perm b = .ok hs' := h
      obtain ⟨hp, hl, m, rfl⟩ := os_openTrunc_ok h'
      exact OSFS_Stat_ancestor hR _ hp hl ha hne
    · have h' : os.openTrunc hs (filepath.Join [rootPath R, p]) true 0o666 [] = .ok hs' := h
      obtain ⟨hp, hl, m, rfl⟩ := os_openTrunc_ok h'
      exact OSFS_Stat_ancestor hR _ hp hl ha hne
  refine ⟨hmem, ?_, ?_⟩
  · intro calls p b perm m' h a ha
    have hinv := hmem calls
    have h2 : memory.AncestorInv m' ∧ m' p ≠ none := by
      rcases h with h | h | h
      · exact AncestorInv_Mkdir hinv h
      · exact AncestorInv_writeEntry hinv h
      · exact AncestorInv_writeEntry hinv h
    exact memory_ancestors_stat h2.1 h2.2 a ha
  · intro R hR hs hs' p b perm h
    constructor
    · intro a ha hne
      exact hos R hR hs hs' p b perm h a ha hne
    · intro hnd a ha hne
      apply hos R hR hs hs' p b perm h a _ hne
      simp only [hostKey_Join_rootPath hR]
      exact ancestor_key_prefix hnd ha

/-- Witness for C4: after `mkdir a`, `mkdir a/b` on the fresh stores, a write
at `a/b/test.txt` (OS-backed, root `/tmp`) and a `mkdir a/b/c` (in-memory)
succeed and `stat` reports `a` and `a/b` as directories. -/
theorem ancestor_invariant_witness :
    (∃ hs', (osStorage (osfs.NewOSFS "/tmp".toList)).WriteFile
        (runState (osStorage (osfs.NewOSFS "/tmp".toList)) (os.freshHost "/tmp".toList)
          [.mkdir "a".toList 0o755, .mkdir "a/b".toList 0o755])
        "a/b/test.txt".toList [110] 0o644 = .ok hs' ∧
      (∃ info, (osStorage (osfs.NewOSFS "/tmp".toList)).Stat hs' "a".toList = .ok info ∧
        info.isDir = true) ∧
      (∃ info, (osStorage (osfs.NewOSFS "/tmp".toList)).Stat hs' "a/b".toList = .ok info ∧
        info.isDir = true)) ∧
    (∃ m', memoryStorage.Mkdir
        (runState memoryStorage memory.NewMemory
          [.mkdir "a".toList 0o755, .mkdir "a/b".toList 0o755])
        "a/b/c".toList 0o755 = .ok m' ∧
      memoryStorage.Stat m' "a".toList = .ok ⟨"a".toList, some 0, true⟩ ∧
      memoryStorage.Stat m' "a/b".toList = .ok ⟨"b".toList, some 0, true⟩) := by
  have hos := (ancestor_invariant.2.2 ["tmp".toList] (by decide)
    (runState (osStorage (osfs.NewOSFS "/tmp".toList)) (os.freshHost "/tmp".toList)
      [.mkdir "a".toList 0o755, .mkdir "a/b".toList 0o755]) _
    "a/b/test.txt".toList [110] 0o644 (Or.inr (Or.inl rfl))).2 (by decide)
  have hmem := ancestor_invariant.2.1 [.mkdir "a".toList 0o755, .mkdir "a/b".toList 0o755]
    "a/b/c".toList [] 0o755 _ (Or.inl rfl)
  refine ⟨⟨_, rfl, hos "a".toList (by decide) (by decide),
    hos "a/b".toList (by decide) (by decide)⟩,
    ⟨_, rfl, hmem "a".toList (by decide), hmem "a/b".toList (by decide)⟩⟩

/-! ## Backend equivalence -/

theorem sameEntry_isDir {n : Option os.Node} {e : Option memory.Entry} (h : sameEntry n e) :
    (∃ md, n = some (.dir md)) ↔ ∃ md, e = some (.dir md) := by
  cases n with
  | none => cases e with
    | none => simp
    | some e => cases e <;> simp [sameEntry] at h
  | some n =>
    cases n with
    | file m d => cases e with
      | none => simp [sameEntry] at h
      | some e => cases e <;> simp [sameEntry] at h ⊢
    | dir m => cases e with
      | none => simp [sameEntry] at h
      | some e => cases e <;> simp [sameEntry] at h ⊢

theorem sameEntry_none {n : Option os.Node} {e : Option memory.Entry} (h : sameEntry n e) :
    n = none ↔ e = none := by
  cases n with
  | none => cases e with
    | none => simp
    | some e => cases e <;> simp [sameEntry] at h
  | some n =>
    cases n <;> cases e with
    | none => simp [sameEntry] at h
    | some e => simp

theorem memory_isDirAt_iff {m : memory.Memory} {p : Path} :
    memory.isDirAt m p = true ↔ ∃ md, m p = some (.dir md) := by
  unfold memory.isDirAt
  cases m p with
  | none => simp
  | some e => cases e <;> simp

theorem Related_fresh {R : List Seg} {hs : os.HostFS} (h : os.EmptyRoot R hs) :
    Related R hs memory.NewMemory := by
  refine ⟨h.1, ?_, ?_⟩
  · intro X n hX hn
    rw [h.2 X hX] at hn
    cases hn
  · intro T hT _
    rw [h.2 T hT]
    trivial

/-- In related states the walk reaches every directory at or beneath the
root. -/
theorem Related_walk {R : List Seg} {hs : os.HostFS} {m : memory.Memory} (h : Related R hs m) :
    ∀ (X : List Seg) (md : FileMode), hs.get (R ++ X) = some (.dir md) →
      os.walkDirs hs [] (R ++ X) = .ok md ∧ os.granted hs (.dir md) = true := by
  intro X
  induction X using List.reverseRecOn with
  | nil =>
    intro md hg
    obtain ⟨m0, hw, hg0⟩ := h.1
    have := walkDirs_ok_get hw
    rw [List.nil_append] at this
    rw [List.append_nil] at hg ⊢
    rw [this] at hg
    cases hg
    exact ⟨hw, hg0⟩
  | append_singleton X x ih =>
    intro md hg
    obtain ⟨hnames, hgr, hpar⟩ := h.2.1 (X ++ [x]) _ (by simp) hg
    rw [List.dropLast_concat] at hpar
    obtain ⟨mp, hmp⟩ := isDirAt_iff.mp hpar
    obtain ⟨hw, hgp⟩ := ih mp hmp
    refine ⟨?_, hgr⟩
    rw [← List.append_assoc, walkDirs_snoc, hw, List.append_assoc, hg]
    simp [(granted_dir hgp).2.2, Nat.not_lt.mpr (hnames x (by simp)).2]

/-- In related states, the lookup of a path beneath the root whose parent is
a directory. -/
theorem Related_lookup_dir {R : List Seg} {hs : os.HostFS} {m : memory.Memory}
    (h : Related R hs m) {T : List Seg} (hT : T ≠ [])
    (hlen : ∀ s ∈ T, byteLen s ≤ os.nameMax)
    (hd : os.isDirAt hs (R ++ T.dropLast) = true) :
    os.lookupLast hs (R ++ T) =
      (match hs.get (R ++ T) with
      | some n => .found n
      | none => .absent) ∧
      os.writableAt hs (R ++ T).dropLast = true := by
  obtain ⟨mp, hmp⟩ := isDirAt_iff.mp hd
  obtain ⟨hw, hgp⟩ := Related_walk h _ mp hmp
  have hsplit : T = T.dropLast ++ [T.getLast hT] := (List.dropLast_append_getLast hT).symm
  have hl := lookupLast_under_root ⟨mp, hw, hgp⟩ (T.getLast hT) (hlen _ (List.getLast_mem hT))
  rw [List.append_assoc, ← hsplit] at hl
  refine ⟨hl, ?_⟩
  rw [List.dropLast_append_of_ne_nil _ hT]
  simp [os.writableAt, hmp, (granted_dir hgp).2.1]

/-- In related states, the lookup of a path beneath the root whose parent is
not a directory fails, and nothing is at the path. -/
theorem Related_lookup_nodir {R : List Seg} {hs : os.HostFS} {m : memory.Memory}
    (h : Related R hs m) {T : List Seg} (hT : T ≠ [])
    (hd : os.isDirAt hs (R ++ T.dropLast) = false) :
    (∃ e, os.lookupLast hs (R ++ T) = .fail e) ∧ hs.get (R ++ T) = none := by
  have hnone : hs.get (R ++ T) = none := by
    by_contra hc
    cases hg : hs.get (R ++ T) with
    | none => exact hc hg
    | some n =>
      have := (h.2.1 T n hT hg).2.2
      rw [hd] at this
      cases this
  refine ⟨?_, hnone⟩
  have hsplit : T = T.dropLast ++ [T.getLast hT] := (List.dropLast_append_getLast hT).symm
  rw [hsplit, ← List.append_assoc, lookupLast_snoc]
  cases hw : os.walkDirs hs [] (R ++ T.dropLast) with
  | error e => exact ⟨e, rfl⟩
  | ok mp =>
    have := walkDirs_ok_get hw
    rw [List.nil_append] at this
    rw [isDirAt_iff.mpr ⟨mp, this⟩] at hd
    cases hd

/-- The parent of a joined path in the in-memory store is a directory
exactly when the parent on the host is. -/
theorem Related_parent {R : List Seg} {hs : os.HostFS} {m : memory.Memory}
    (h : Related R hs m) {T : List Seg} (hT : T ≠ []) (hTp : ∀ s ∈ T, ProperSeg s) :
    (os.isDirAt hs (R ++ T.dropLast) = true ↔
      ∀ q, memory.parentOf (joinSep T) = some q → memory.isDirAt m q = true) ∧
    (os.isDirAt hs (R ++ T.dropLast) = false →
      ∃ q, memory.parentOf (joinSep T) = some q ∧ memory.isDirAt m q = false) := by
  have hsplit : T = T.dropLast ++ [T.getLast hT] := (List.dropLast_append_getLast hT).symm
  have hlast : '/' ∉ T.getLast hT := (hTp _ (List.getLast_mem hT)).2.2.2
  have hpar : memory.parentOf (joinSep T) = if T.dropLast = [] then none
      else some (joinSep T.dropLast) := by
    conv_lhs => rw [hsplit]
    exact parentOf_joinSep_snoc _ hlast
  by_cases hdl : T.dropLast = []
  · have hroot : os.isDirAt hs R = true := by
      obtain ⟨m0, hw, _⟩ := h.1
      have := walkDirs_ok_get hw
      rw [List.nil_append] at this
      exact isDirAt_iff.mpr ⟨m0, this⟩
    rw [hpar, hdl, List.append_nil, if_pos rfl, hroot]
    simp
  · have hTp' : ∀ s ∈ T.dropLast, ProperSeg s := fun s hs => hTp s (List.mem_of_mem_dropLast hs)
    have hrel := h.2.2 _ hdl hTp'
    rw [hpar, if_neg hdl]
    have hiff : os.isDirAt hs (R ++ T.dropLast) = true ↔
        memory.isDirAt m (joinSep T.dropLast) = true := by
      rw [isDirAt_iff, memory_isDirAt_iff]
      exact sameEntry_isDir hrel
    constructor
    · rw [hiff]
      constructor
      · intro hd q hq
        cases hq
        exact hd
      · intro hq
        exact hq _ rfl
    · intro hd
      refine ⟨_, rfl, ?_⟩
      by_contra hc
      have : os.isDirAt hs (R ++ T.dropLast) = true := hiff.mpr (by simpa using hc)
      rw [hd] at this
      cases this

theorem append_right_ne {R T T2 : List Seg} (h : T2 ≠ T) : R ++ T2 ≠ R ++ T :=
  fun e => h (List.append_cancel_left e)

/-- Putting agreeing entries at the same place keeps the states related. -/
theorem Related_put {R : List Seg} {hs : os.HostFS} {m : memory.Memory} (h : Related R hs m)
    {T : List Seg} (hT : T ≠ []) (hTp : ∀ s ∈ T, HostName s) {n : os.Node} {e : memory.Entry}
    (hne : sameEntry (some n) (some e)) (hgr : os.granted hs n = true)
    (hpar : os.isDirAt hs (R ++ T.dropLast) = true)
    (hkeep : os.isDirAt hs (R ++ T) = true → ∃ md, n = .dir md) :
    Related R (hs.put (R ++ T) n) (memory.put m (joinSep T) e) := by
  have hdir : ∀ k, os.isDirAt hs k = true → os.isDirAt (hs.put (R ++ T) n) k = true := by
    intro k hk
    rw [isDirAt_iff, get_put]
    by_cases ek : k = R ++ T
    · rw [if_pos ek]
      rw [ek] at hk
      obtain ⟨md, hmd⟩ := hkeep hk
      exact ⟨md, by rw [hmd]⟩
    · rw [if_neg ek]
      exact isDirAt_iff.mp hk
  refine ⟨?_, ?_, ?_⟩
  · obtain ⟨m0, hw, hg0⟩ := h.1
    refine ⟨m0, ?_, (granted_congr hs _ rfl _).trans hg0⟩
    rw [walkDirs_congr hs (hs.put (R ++ T) n) rfl R [] ?_, hw]
    intro a ha _
    rw [get_put, if_neg]
    rintro rfl
    have := ha.length_le
    have hl : 0 < T.length := List.length_pos.mpr hT
    rw [List.nil_append, List.length_append] at this
    omega
  · intro X n' hX hn'
    rw [get_put] at hn'
    by_cases eX : R ++ X = R ++ T
    · rw [if_pos eX] at hn'
      cases hn'
      have : X = T := List.append_cancel_left eX
      subst this
      exact ⟨hTp, (granted_congr hs _ rfl _).trans hgr, hdir _ hpar⟩
    · rw [if_neg eX] at hn'
      obtain ⟨h1, h2, h3⟩ := h.2.1 X n' hX hn'
      exact ⟨h1, (granted_congr hs _ rfl _).trans h2, hdir _ h3⟩
  · intro T2 hT2 hT2p
    by_cases e2 : T2 = T
    · subst e2
      simpa [get_put, memory.put] using hne
    · have h1 : R ++ T2 ≠ R ++ T := append_right_ne e2
      have h2 : joinSep T2 ≠ joinSep T := fun e =>
        e2 (joinSep_injective hT2 hT (fun s hs => (hT2p s hs).2.2.2)
          (fun s hs => (hTp s hs).1.2.2.2) e)
      simpa [get_put, memory.put, h1, h2] using h.2.2 T2 hT2 hT2p

/-- Removing the entries at and beneath the same place keeps the states
related. -/
theorem Related_remove {R : List Seg} {hs hs' : os.HostFS} {m : memory.Memory}
    (h : Related R hs m) {T : List Seg} (hT : T ≠ []) (hTp : ∀ s ∈ T, ProperSeg s)
    (hpriv : hs'.privileged = hs.privileged)
    (hget : ∀ a, hs'.get a = if (R ++ T) <+: a then none else hs.get a) :
    Related R hs'
      (fun q => if q = joinSep T ∨ (joinSep T ++ ['/']).isPrefixOf q = true then none
        else m q) := by
  have hnp : ∀ a, a <+: R → ¬ (R ++ T) <+: a := by
    intro a ha hc
    have h1 := hc.length_le
    have h2 := ha.length_le
    have hl : 0 < T.length := List.length_pos.mpr hT
    rw [List.length_append] at h1
    omega
  refine ⟨?_, ?_, ?_⟩
  · obtain ⟨m0, hw, hg0⟩ := h.1
    refine ⟨m0, ?_, (granted_congr hs hs' hpriv _).trans hg0⟩
    rw [walkDirs_congr hs hs' hpriv R [] ?_, hw]
    intro a ha _
    rw [hget, if_neg (hnp a (by simpa using ha))]
  · intro X n hX hn
    rw [hget] at hn
    by_cases hc : (R ++ T) <+: (R ++ X)
    · rw [if_pos hc] at hn
      cases hn
    · rw [if_neg hc] at hn
      obtain ⟨h1, h2, h3⟩ := h.2.1 X n hX hn
      refine ⟨h1, (granted_congr hs hs' hpriv _).trans h2, ?_⟩
      rw [isDirAt_iff, hget, if_neg]
      · exact isDirAt_iff.mp h3
      · intro hc'
        apply hc
        have : R ++ X.dropLast <+: R ++ X :=
          (List.prefix_append_right_inj R).mpr (List.dropLast_prefix X)
        exact hc'.trans this
  · intro T2 hT2 hT2p
    have hiff := joinSep_below_iff hT hT2 (fun s hs => (hTp s hs).2.2.2)
      (fun s hs => (hT2p s hs).2.2.2)
    rw [hget]
    by_cases hp : T <+: T2
    · have h1 : (R ++ T) <+: (R ++ T2) := (List.prefix_append_right_inj R).mpr hp
      simp only [if_pos h1, if_pos (hiff.mpr hp)]
      trivial
    · have h1 : ¬ (R ++ T) <+: (R ++ T2) :=
        fun h => hp ((List.prefix_append_right_inj R).mp h)
      simp only [if_neg h1, if_neg (fun h => hp (hiff.mp h))]
      exact h.2.2 T2 hT2 hT2p

/-! ## Backend equivalence (C6) -/

theorem name_view {R : List Seg} (hR : ∀ s ∈ R, ProperSeg s) {n : Path} (hn : CleanRel n) :
    splitSep n ≠ [] ∧ (∀ s ∈ splitSep n, ProperSeg s) ∧ joinSep (splitSep n) = n ∧
      os.hostKey (filepath.Join [rootPath R, n]) = R ++ splitSep n ∧
      filepath.Join [rootPath R, n] = rootPath (R ++ splitSep n) := by
  obtain ⟨hT, hTp, hj⟩ := cleanRel_splitSep hn
  exact ⟨hT, hTp, hj, hostKey_Join_cleanRel hR hn, by rw [Join_rootPath hR, cleanSegs_cleanRel R hn]⟩

theorem related_stat {R : List Seg} (hR : ∀ s ∈ R, ProperSeg s) {hs : os.HostFS}
    {m : memory.Memory} (h : Related R hs m) {n : Path} (hn : CleanRel n)
    (hlen : ∀ s ∈ splitSep n, byteLen s ≤ os.nameMax)
    (hp : os.pathErr (filepath.Join [rootPath R, n]) = none) :
    succeeded ((osStorage (osfs.NewOSFS (rootPath R))).Stat hs n)
      = succeeded (memoryStorage.Stat m n) := by
  obtain ⟨hT, hTp, hj, hkey, _⟩ := name_view hR hn
  have hrel := h.2.2 _ hT hTp
  rw [hj] at hrel
  show succeeded (os.Stat hs (filepath.Join [rootPath R, n])) = succeeded (memory.Stat m n)
  unfold os.Stat memory.Stat
  simp only [hp, hkey]
  by_cases hd : os.isDirAt hs (R ++ (splitSep n).dropLast) = true
  · rw [(Related_lookup_dir h hT hlen hd).1]
    cases hk : hs.get (R ++ splitSep n) with
    | none =>
      have := (sameEntry_none hrel).mp hk
      simp [this, succeeded]
    | some nd =>
      cases he : m n with
      | none => rw [hk, he] at hrel; cases nd <;> simp [sameEntry] at hrel
      | some e => cases nd <;> cases e <;> simp [succeeded]
  · obtain ⟨⟨e, he⟩, hnone⟩ := Related_lookup_nodir h hT (by simpa using hd)
    have := (sameEntry_none hrel).mp hnone
    simp [he, this, succeeded]

theorem related_open {R : List Seg} (hR : ∀ s ∈ R, ProperSeg s) {hs : os.HostFS}
    {m : memory.Memory} (h : Related R hs m) {n : Path} (hn : CleanRel n)
    (hlen : ∀ s ∈ splitSep n, byteLen s ≤ os.nameMax)
    (hp : os.pathErr (filepath.Join [rootPath R, n]) = none)
    (hnd : os.isDirAt hs (os.hostKey (filepath.Join [rootPath R, n])) = false) :
    succeeded ((osStorage (osfs.NewOSFS (rootPath R))).Open hs n)
      = succeeded (memoryStorage.Open m n) := by
  obtain ⟨hT, hTp, hj, hkey, _⟩ := name_view hR hn
  have hrel := h.2.2 _ hT hTp
  rw [hj] at hrel
  rw [hkey] at hnd
  show succeeded (os.Open hs (filepath.Join [rootPath R, n])) = succeeded (memory.Open m n)
  unfold os.Open memory.Open
  simp only [hp, hkey]
  by_cases hd : os.isDirAt hs (R ++ (splitSep n).dropLast) = true
  · rw [(Related_lookup_dir h hT hlen hd).1]
    cases hk : hs.get (R ++ splitSep n) with
    | none =>
      have := (sameEntry_none hrel).mp hk
      simp [this, succeeded]
    | some nd =>
      have hgr := (h.2.1 _ nd hT hk).2.1
      cases he : m n with
      | none => rw [hk, he] at hrel; cases nd <;> simp [sameEntry] at hrel
      | some e =>
        rw [hk, he] at hrel
        cases nd with
        | dir md => simp [os.isDirAt, hk] at hnd
        | file md d =>
          simp only [os.granted, Bool.and_eq_true] at hgr
          cases e <;> simp [sameEntry, succeeded, hgr.1] at hrel ⊢
  · obtain ⟨⟨e, he⟩, hnone⟩ := Related_lookup_nodir h hT (by simpa using hd)
    have := (sameEntry_none hrel).mp hnone
    simp [he, this, succeeded]

theorem related_mkdir {R : List Seg} (hR : ∀ s ∈ R, ProperSeg s) {hs : os.HostFS}
    {m : memory.Memory} (h : Related R hs m) {n : Path} (hn : CleanRel n)
    (hlen : ∀ s ∈ splitSep n, byteLen s ≤ os.nameMax)
    (hp : os.pathErr (filepath.Join [rootPath R, n]) = none) (perm : FileMode)
    (hgr : os.granted hs (.dir (hs.newMode perm)) = true) :
    succeeded ((osStorage (osfs.NewOSFS (rootPath R))).Mkdir hs n perm)
        = succeeded (memoryStorage.Mkdir m n perm) ∧
      Related R (stateAfter hs ((osStorage (osfs.NewOSFS (rootPath R))).Mkdir hs n perm))
        (stateAfter m (memoryStorage.Mkdir m n perm)) := by
  obtain ⟨hT, hTp, hj, hkey, _⟩ := name_view hR hn
  have hrel := h.2.2 _ hT hTp
  rw [hj] at hrel
  have hpar := Related_parent h hT hTp
  rw [hj] at hpar
  show succeeded (os.Mkdir hs (filepath.Join [rootPath R, n]) perm)
      = succeeded (memory.Mkdir m n perm) ∧
    Related R (stateAfter hs (os.Mkdir hs (filepath.Join [rootPath R, n]) perm))
      (stateAfter m (memory.Mkdir m n perm))
  by_cases hd : os.isDirAt hs (R ++ (splitSep n).dropLast) = true
  · obtain ⟨hl, hw⟩ := Related_lookup_dir h hT hlen hd
    cases hk : hs.get (R ++ splitSep n) with
    | some nd =>
      rw [hk] at hl
      have hos : os.Mkdir hs (filepath.Join [rootPath R, n]) perm = .error .alreadyExists := by
        simp only [os.Mkdir, hp, hkey, hl]
      have hme : m n ≠ none := fun e => by
        have := (sameEntry_none hrel).mpr e
        rw [hk] at this
        cases this
      rw [hos, (memory_Mkdir_alreadyExists m n perm).mpr hme]
      exact ⟨rfl, h⟩
    | none =>
      rw [hk] at hl
      have hos : os.Mkdir hs (filepath.Join [rootPath R, n]) perm
          = .ok (hs.put (R ++ splitSep n) (.dir (hs.newMode perm))) := by
        simp only [os.Mkdir, hp, hkey, hl, hw, if_true]
      have hme : m n = none := (sameEntry_none hrel).mp hk
      have hmem : memory.Mkdir m n perm = .ok (memory.put m n (.dir perm)) := by
        unfold memory.Mkdir
        simp only [hme]
        cases hq : memory.parentOf n with
        | none => rfl
        | some q => simp [hpar.1.mp hd q hq]
      rw [hos, hmem]
      refine ⟨rfl, ?_⟩
      have := Related_put h hT (fun s hs' => ⟨hTp s hs', hlen s hs'⟩)
        (n := os.Node.dir (hs.newMode perm)) (e := memory.Entry.dir perm) trivial hgr hd
        (fun _ => ⟨_, rfl⟩)
      rwa [hj] at this
  · have hd' : os.isDirAt hs (R ++ (splitSep n).dropLast) = false := by simpa using hd
    obtain ⟨⟨e, he⟩, hnone⟩ := Related_lookup_nodir h hT hd'
    have hos : os.Mkdir hs (filepath.Join [rootPath R, n]) perm = .error e := by
      simp only [os.Mkdir, hp, hkey, he]
    have hme : m n = none := (sameEntry_none hrel).mp hnone
    obtain ⟨q, hq, hqd⟩ := hpar.2 hd'
    have hmem : memory.Mkdir m n perm = .error .notFound := by
      unfold memory.Mkdir
      simp [hme, hq, hqd]
    rw [hos, hmem]
    exact ⟨rfl, h⟩

theorem granted_file (hs : os.HostFS) (md : FileMode) (d d' : Bytes) :
    os.granted hs (.file md d) = os.granted hs (.file md d') := rfl

theorem related_write {R : List Seg} (hR : ∀ s ∈ R, ProperSeg s) {hs : os.HostFS}
    {m : memory.Memory} (h : Related R hs m) {n : Path} (hn : CleanRel n)
    (hlen : ∀ s ∈ splitSep n, byteLen s ≤ os.nameMax)
    (hp : os.pathErr (filepath.Join [rootPath R, n]) = none) (rd : Bool) (perm perm' : FileMode)
    (d : Bytes) (hgr : os.granted hs (.file (hs.newMode perm) []) = true) :
    succeeded (os.openTrunc hs (filepath.Join [rootPath R, n]) rd perm d)
        = succeeded (memory.writeEntry m n d perm') ∧
      Related R (stateAfter hs (os.openTrunc hs (filepath.Join [rootPath R, n]) rd perm d))
        (stateAfter m (memory.writeEntry m n d perm')) := by
  obtain ⟨hT, hTp, hj, hkey, _⟩ := name_view hR hn
  have hrel := h.2.2 _ hT hTp
  rw [hj] at hrel
  have hpar := Related_parent h hT hTp
  rw [hj] at hpar
  have hnames : ∀ s ∈ splitSep n, HostName s := fun s hs' => ⟨hTp s hs', hlen s hs'⟩
  by_cases hd : os.isDirAt hs (R ++ (splitSep n).dropLast) = true
  · obtain ⟨hl, hw⟩ := Related_lookup_dir h hT hlen hd
    have hmpar : ∀ q, memory.parentOf n = some q → memory.isDirAt m q = true := hpar.1.mp hd
    have hmem_ok : memory.isDirAt m n = false →
        memory.writeEntry m n d perm' = .ok (memory.put m n (.file d perm')) := by
      intro hnd
      unfold memory.writeEntry
      have h1 : (match memory.parentOf n with
          | none => (Except.ok (memory.put m n (.file d perm')) :
              Except StorageError memory.Memory)
          | some q => if memory.isDirAt m q = true then .ok (memory.put m n (.file d perm'))
              else .error .notFound) = .ok (memory.put m n (.file d perm')) := by
        cases hq : memory.parentOf n with
        | none => rfl
        | some q => simp [hmpar q hq]
      cases hm : m n with
      | none => simpa [hm] using h1
      | some e =>
        cases e with
        | dir md => simp [memory.isDirAt, hm] at hnd
        | file fd fm => simpa [hm] using h1
    cases hk : hs.get (R ++ splitSep n) with
    | some nd =>
      rw [hk] at hl hrel
      have hgn := (h.2.1 _ nd hT hk).2.1
      cases nd with
      | dir md =>
        have hos : os.openTrunc hs (filepath.Join [rootPath R, n]) rd perm d
            = .error .isDirectory := by
          simp only [os.openTrunc, hp, hkey, hl]
        obtain ⟨md', hmd'⟩ := (sameEntry_isDir (n := some (os.Node.dir md)) hrel).mp ⟨md, rfl⟩
        have hmem : memory.writeEntry m n d perm' = .error .isDirectory := by
          unfold memory.writeEntry
          simp [hmd']
        rw [hos, hmem]
        exact ⟨rfl, h⟩
      | file md fd =>
        simp only [os.granted, Bool.and_eq_true] at hgn
        have hos : os.openTrunc hs (filepath.Join [rootPath R, n]) rd perm d
            = .ok (hs.put (R ++ splitSep n) (.file md d)) := by
          simp [os.openTrunc, hp, hkey, hl, hgn.1, hgn.2]
        have hnd : memory.isDirAt m n = false := by
          cases hm : m n with
          | none => simp [memory.isDirAt, hm]
          | some e =>
            cases e with
            | dir md' => rw [hm] at hrel; simp [sameEntry] at hrel
            | file _ _ => simp [memory.isDirAt, hm]
        rw [hos, hmem_ok hnd]
        refine ⟨rfl, ?_⟩
        have := Related_put h hT hnames (n := os.Node.file md d)
          (e := memory.Entry.file d perm') rfl
          (by simp [os.granted, hgn.1, hgn.2]) hd
          (by intro hc; simp [os.isDirAt, hk] at hc)
        rwa [hj] at this
    | none =>
      rw [hk] at hl hrel
      have hos : os.openTrunc hs (filepath.Join [rootPath R, n]) rd perm d
          = .ok (hs.put (R ++ splitSep n) (.file (hs.newMode perm) d)) := by
        simp only [os.openTrunc, hp, hkey, hl, hw, if_true]
      have hme : m n = none := (sameEntry_none hrel).mp rfl
      rw [hos, hmem_ok (by simp [memory.isDirAt, hme])]
      refine ⟨rfl, ?_⟩
      have := Related_put h hT hnames (n := os.Node.file (hs.newMode perm) d)
        (e := memory.Entry.file d perm') rfl
        ((granted_file hs _ d []).trans hgr) hd
        (by intro hc; simp [os.isDirAt, hk] at hc)
      rwa [hj] at this
  · have hd' : os.isDirAt hs (R ++ (splitSep n).dropLast) = false := by simpa using hd
    obtain ⟨⟨e, he⟩, hnone⟩ := Related_lookup_nodir h hT hd'
    have hos : os.openTrunc hs (filepath.Join [rootPath R, n]) rd perm d = .error e := by
      simp only [os.openTrunc, hp, hkey, he]
    rw [hnone] at hrel
    have hme : m n = none := (sameEntry_none hrel).mp rfl
    obtain ⟨q, hq, hqd⟩ := hpar.2 hd'
    have hmem : memory.writeEntry m n d perm' = .error .notFound := by
      unfold memory.writeEntry
      simp [hme, hq, hqd]
    rw [hos, hmem]
    exact ⟨rfl, h⟩

/-- `RemoveAll` leaves the state as it is when the lookup of the target
fails because its parent is not a directory. -/
theorem os_RemoveAll_fail_state {hs : os.HostFS} {A : List Seg} {s : Seg} {e : StorageError}
    (hK : ∀ x ∈ A ++ [s], ProperSeg x) (hp : os.pathErr (rootPath (A ++ [s])) = none)
    (hl : os.lookupLast hs (A ++ [s]) = .fail e) (hd : os.isDirAt hs A = false) :
    (os.RemoveAll hs (rootPath (A ++ [s]))).1 = hs := by
  have hne : rootPath (A ++ [s]) ≠ [] := by simp [rootPath]
  have hdot : os.endsWithDot (rootPath (A ++ [s])) = false := endsWithDot_rootPath hK
  have hkey : os.hostKey (rootPath (A ++ [s])) = A ++ [s] := hostKey_rootPath hK
  have hA : ∀ x ∈ A, ProperSeg x := fun x hx => hK x (List.mem_append_left _ hx)
  have hrem := os_Remove_fail hp (by rw [hkey]; exact hl)
  by_cases he : e = .notFound
  · subst he
    rw [os_RemoveAll_of_Remove_notFound hne hdot hrem]
  · cases hopen : os.Open hs (os.splitPath (rootPath (A ++ [s]))).1 with
    | error e' => rw [os_RemoveAll_of_Remove_err_open hne hdot hrem he hopen]
    | ok h0 =>
      rw [os_RemoveAll_of_Remove_err hne hdot hrem he hopen, splitPath_rootPath hK]
      simp only [hostKey_rootPath hA]
      unfold os.removeAllFrom
      split
      · rfl
      · cases hg : hs.get A with
        | none => rfl
        | some n =>
          cases n with
          | file md d => rfl
          | dir md =>
            rw [isDirAt_iff.mpr ⟨md, hg⟩] at hd
            cases hd

theorem related_removeAll {R : List Seg} (hR : ∀ s ∈ R, ProperSeg s) {hs : os.HostFS}
    {m : memory.Memory} (h : Related R hs m) {n : Path} (hn : CleanRel n)
    (hlen : ∀ s ∈ splitSep n, byteLen s ≤ os.nameMax)
    (hp : os.pathErr (filepath.Join [rootPath R, n]) = none) :
    Related R ((osfs.NewOSFS (rootPath R)).RemoveAll hs n).1 (memory.RemoveAll m n).1 := by
  obtain ⟨hT, hTp, hj, hkey, hjoin⟩ := name_view hR hn
  show Related R (os.RemoveAll hs (filepath.Join [rootPath R, n])).1
    (fun q => if q = n ∨ (n ++ ['/']).isPrefixOf q = true then none else m q)
  rw [hjoin] at hp ⊢
  have hsplit : splitSep n = (splitSep n).dropLast ++ [(splitSep n).getLast hT] :=
    (List.dropLast_append_getLast hT).symm
  have hK' : R ++ splitSep n = (R ++ (splitSep n).dropLast) ++ [(splitSep n).getLast hT] := by
    rw [List.append_assoc, ← hsplit]
  have hKp : ∀ x ∈ (R ++ (splitSep n).dropLast) ++ [(splitSep n).getLast hT], ProperSeg x := by
    rw [← hK']
    intro x hx
    rcases List.mem_append.mp hx with hx | hx
    · exact hR x hx
    · exact hTp x hx
  have hfinal : ∀ hs', hs'.privileged = hs.privileged →
      (∀ a, hs'.get a = if (R ++ splitSep n) <+: a then none else hs.get a) →
      Related R hs'
        (fun q => if q = n ∨ (n ++ ['/']).isPrefixOf q = true then none else m q) := by
    intro hs' h1 h2
    have := Related_remove h hT hTp h1 h2
    rwa [hj] at this
  by_cases hd : os.isDirAt hs (R ++ (splitSep n).dropLast) = true
  · obtain ⟨mp, hmp⟩ := isDirAt_iff.mp hd
    obtain ⟨hw, hgp⟩ := Related_walk h _ mp hmp
    have hfull := @os_RemoveAll_full hs _ _ _ hKp (by rw [← hK']; exact hp) hw hgp
      (hlen _ (List.getLast_mem hT))
      (by
        intro X hX hg
        rw [← hK', List.append_assoc] at hg ⊢
        cases hgn : hs.get (R ++ (splitSep n ++ X)) with
        | none => exact absurd hgn hg
        | some nd =>
          have := (h.2.1 (splitSep n ++ X) nd (by simp [hT]) hgn).2.2
          rwa [List.dropLast_append_of_ne_nil _ hX] at this)
      (by
        intro X md hg
        rw [← hK', List.append_assoc] at hg
        exact (h.2.1 (splitSep n ++ X) _ (by simp [hT]) hg).2.1)
    rw [← hK'] at hfull
    exact hfinal _ hfull.2.1 hfull.2.2.2
  · have hd' : os.isDirAt hs (R ++ (splitSep n).dropLast) = false := by simpa using hd
    obtain ⟨⟨e, he⟩, _⟩ := Related_lookup_nodir h hT hd'
    have hst : (os.RemoveAll hs (rootPath (R ++ splitSep n))).1 = hs := by
      have := os_RemoveAll_fail_state hKp (by rw [← hK']; exact hp) (by rw [← hK']; exact he) hd'
      rwa [← hK'] at this
    rw [hst]
    apply hfinal hs rfl
    intro a
    by_cases hpre : (R ++ splitSep n) <+: a
    · rw [if_pos hpre]
      obtain ⟨X, rfl⟩ := hpre
      by_contra hc
      cases hgn : hs.get (R ++ splitSep n ++ X) with
      | none => exact hc hgn
      | some nd =>
        rw [List.append_assoc] at hgn
        have hanc := @ancestors_beneath hs R
          (fun Y hY hg => by
            cases hgy : hs.get (R ++ Y) with
            | none => exact absurd hgy hg
            | some ny => exact (h.2.1 Y ny hY hgy).2.2)
          (splitSep n ++ X) (by rw [hgn]; simp) (splitSep n).dropLast
          ((List.dropLast_prefix _).trans (List.prefix_append _ _))
          (by
            intro e
            have := congrArg List.length e
            have hl : 0 < (splitSep n).length := List.length_pos.mpr hT
            simp only [List.length_dropLast, List.length_append] at this
            omega)
        rw [hd'] at hanc
        cases hanc
    · rw [if_neg hpre]

/-- One admissible call has the same outcome on both backends and keeps
their states related. -/
theorem related_step {R : List Seg} (hR : ∀ s ∈ R, ProperSeg s) {hs : os.HostFS}
    {m : memory.Memory} (h : Related R hs m) (c : Call) (cs : List Call)
    (hadm : Admissible (osfs.NewOSFS (rootPath R)) hs (c :: cs)) :
    (step (osStorage (osfs.NewOSFS (rootPath R))) hs c).2 = (step memoryStorage m c).2 ∧
      Related R (step (osStorage (osfs.NewOSFS (rootPath R))) hs c).1
        (step memoryStorage m c).1 := by
  obtain ⟨hn, hlen, hp, hc, _⟩ := hadm
  match c, hn, hlen, hp, hc with
  | .open n, hn, hlen, hp, hc => exact ⟨related_open hR h hn hlen hp hc, h⟩
  | .create n, hn, hlen, hp, hc => exact related_write hR h hn hlen hp true 0o666 0o666 [] hc
  | .writeFile n d p, hn, hlen, hp, hc => exact related_write hR h hn hlen hp false p p d hc
  | .mkdir n p, hn, hlen, hp, hc => exact related_mkdir hR h hn hlen hp p hc
  | .removeAll n, hn, hlen, hp, hc =>
    refine ⟨?_, related_removeAll hR h hn hlen hp⟩
    show ((osfs.NewOSFS (rootPath R)).RemoveAll hs n).2.isNone = (memory.RemoveAll m n).2.isNone
    have hc' : ((osfs.NewOSFS (rootPath R)).RemoveAll hs n).2 = none := hc
    rw [hc']
    rfl
  | .stat n, hn, hlen, hp, _ => exact ⟨related_stat hR h hn hlen hp, h⟩

theorem related_outcomes {R : List Seg} (hR : ∀ s ∈ R, ProperSeg s) :
    ∀ (cs : List Call) (hs : os.HostFS) (m : memory.Memory), Related R hs m →
      Admissible (osfs.NewOSFS (rootPath R)) hs cs →
      outcomes (osStorage (osfs.NewOSFS (rootPath R))) hs cs = outcomes memoryStorage m cs
  | [], _, _, _, _ => rfl
  | c :: cs, hs, m, h, hadm => by
    obtain ⟨h1, h2⟩ := related_step hR h c cs hadm
    unfold outcomes
    rw [h1, related_outcomes hR cs _ _ h2 hadm.2.2.2.2]

/-- C6 (as stated, refuted): three call sequences with relative paths on
which the fresh backends disagree (OS-backed store rooted at the empty
directory `/tmp`): `stat("")` succeeds on the OS-backed store, where the
empty name is the root itself, and fails on the empty in-memory store;
after `mkdir("a")`, `open("a")` succeeds on the OS-backed store and fails on
the in-memory store; after `writeFile("f")`, `removeAll("f/x")` fails on the
OS-backed store, which finds the regular file `f` on the way, and succeeds
on the in-memory store. -/
theorem backends_disagree :
    outcomes (osStorage (osfs.NewOSFS "/tmp".toList)) (os.freshHost "/tmp".toList)
        [.stat "".toList] = [true] ∧
    outcomes memoryStorage memory.NewMemory [.stat "".toList] = [false] ∧
    outcomes (osStorage (osfs.NewOSFS "/tmp".toList)) (os.freshHost "/tmp".toList)
        [.mkdir "a".toList 0o755, .open "a".toList] = [true, true] ∧
    outcomes memoryStorage memory.NewMemory
        [.mkdir "a".toList 0o755, .open "a".toList] = [true, false] ∧
    outcomes (osStorage (osfs.NewOSFS "/tmp".toList)) (os.freshHost "/tmp".toList)
        [.writeFile "f".toList [1] 0o644, .removeAll "f/x".toList] = [true, false] ∧
    outcomes memoryStorage memory.NewMemory
        [.writeFile "f".toList [1] 0o644, .removeAll "f/x".toList] = [true, true] := by
  refine ⟨by decide, by decide, by decide, by decide, by decide, by decide⟩

/-- C6 (amended): for an OS-backed store with an absolute clean root that is
a usable, empty directory (the caller reaches it and has full access to
it), and every finite sequence of interface calls that is admissible (names
that are clean relative paths of elements of at most `NAME_MAX` bytes, host
paths passing the checks on a path, modes that leave the caller full access
to what is created, every `removeAll` succeeding on the OS-backed store, no
`open` of a directory), the run on the OS-backed store and the run from the
fresh in-memory store yield the same sequence of success/error outcomes. -/
theorem backend_equivalence (R : List Seg) (hs : os.HostFS) (calls : List Call)
    (hR : ∀ s ∈ R, ProperSeg s) (hfresh : os.EmptyRoot R hs)
    (hadm : Admissible (osfs.NewOSFS (rootPath R)) hs calls) :
    outcomes (osStorage (osfs.NewOSFS (rootPath R))) hs calls
      = outcomes memoryStorage memory.NewMemory calls :=
  related_outcomes hR calls _ _ (Related_fresh hfresh) hadm

/-- Witness for C6: an admissible sequence of fifteen calls, with the
outcomes it has on both backends. -/
theorem backend_equivalence_witness :
    outcomes (osStorage (osfs.NewOSFS "/tmp".toList)) (os.freshHost "/tmp".toList)
        [.mkdir "a".toList 0o755, .mkdir "a/b".toList 0o755, .mkdir "a".toList 0o755,
          .mkdir "x/y".toList 0o755, .writeFile "a/b/test.txt".toList [110, 101] 0o644,
          .open "a/b/test.txt".toList, .stat "a/b".toList, .create "a/c".toList,
          .writeFile "a/b".toList [1] 0o644, .writeFile "q/r".toList [1] 0o644,
          .open "missing.txt".toList, .removeAll "a".toList, .stat "a/b/test.txt".toList,
          .stat "a".toList, .removeAll "a".toList]
      = outcomes memoryStorage memory.NewMemory
        [.mkdir "a".toList 0o755, .mkdir "a/b".toList 0o755, .mkdir "a".toList 0o755,
          .mkdir "x/y".toList 0o755, .writeFile "a/b/test.txt".toList [110, 101] 0o644,
          .open "a/b/test.txt".toList, .stat "a/b".toList, .create "a/c".toList,
          .writeFile "a/b".toList [1] 0o644, .writeFile "q/r".toList [1] 0o644,
          .open "missing.txt".toList, .removeAll "a".toList, .stat "a/b/test.txt".toList,
          .stat "a".toList, .removeAll "a".toList] ∧
    outcomes memoryStorage memory.NewMemory
        [.mkdir "a".toList 0o755, .mkdir "a/b".toList 0o755, .mkdir "a".toList 0o755,
          .mkdir "x/y".toList 0o755, .writeFile "a/b/test.txt".toList [110, 101] 0o644,
          .open "a/b/test.txt".toList, .stat "a/b".toList, .create "a/c".toList,
          .writeFile "a/b".toList [1] 0o644, .writeFile "q/r".toList [1] 0o644,
          .open "missing.txt".toList, .removeAll "a".toList, .stat "a/b/test.txt".toList,
          .stat "a".toList, .removeAll "a".toList]
      = [true, true, false, false, true, true, true, true, false, false, false, true, false,
          false, true] :=
  ⟨backend_equivalence ["tmp".toList] (os.freshHost "/tmp".toList) _ (by decide)
    (EmptyRoot_freshHost (R := ["tmp".toList]) (by decide)) (by decide), by decide⟩

end GoEpub
